import Mathlib

/-!
MaculaOS backup engine: archive lifecycle

A shallow embedding of `pkg/cli/backup/backup.go` (exclusion matching, archive
naming, catalog listing and selection, retention, archive construction and
extraction, the commands create, restore and delete, copies to removable
media, the size shown for an archive) and of the restart counter of
`pkg/cli/health/health.go`, together with the properties checked against them.

Conventions of the embedding:

* Go strings are lists of characters; the order on them is the lexicographic
  order of `sort.Strings` and of the `<` operator on Go strings.
* The functions of the Go standard library that the program calls (`strings`,
  `path/filepath`, `sort`, `time`, `os`, `archive/tar`) are defined by their
  documented behaviour on Unix.
* Effects are explicit: a function that reads or changes files takes what it
  reads as an argument and returns the new state. The content of the backup
  directory is the list of its entry names; the tree that a walk visits is a
  `Node`; the destination of an extraction is an `FS`, a map from paths to
  objects; the state on which the commands create and delete work is a `Dirs`,
  the entry names of every directory. Failures of the environment (a directory
  that cannot be read, a removal that fails, a write that fails) are arguments
  as well.
* Machine integers are mathematical integers; where a result can leave the
  range of int64 it is wrapped explicitly. A loop whose end is to be shown takes
  the number of steps allowed as an argument.
* The process has the rights of the superuser, as the backup command of the
  node does: mode bits are recorded and restored but never make an operation
  fail. Gzip compression and the byte layout of the tar stream are not
  modelled: an archive is the sequence of entries that `archive/tar` writes and
  reads back.
-/

namespace Backup

/-! ## Strings -/

/-- A Go string. -/
abbrev Str := List Char

/-- The function strings.HasPrefix. -/
def HasPrefix (s pre : Str) : Bool := pre.isPrefixOf s

/-- The function strings.HasSuffix. -/
def HasSuffix (s suf : Str) : Bool := suf.isSuffixOf s

/-- The function strings.Contains: substr occurs somewhere within s. -/
def Contains (s substr : Str) : Bool := s.tails.any (fun t => substr.isPrefixOf t)

/-- The function sort.Strings: the ascending rearrangement of a list of strings
(the order is total and antisymmetric, so the result does not depend on the
sorting algorithm). -/
def sortStrings (l : List Str) : List Str := l.insertionSort (· ≤ ·)

/-! ## Constants of the package -/

def backupDir : Str := "/var/lib/maculaos/backups".toList

def configDir : Str := "/var/lib/maculaos".toList

def defaultPaths : Str := "/var/lib/maculaos".toList

/-- The archive extension tested by listLocalBackups. -/
def tarGz : Str := ".tar.gz".toList

/-! ## Paths (package path/filepath, Unix) -/

/-- Splits a path at every separator. -/
def splitSlash : Str → List Str
  | [] => [[]]
  | c :: cs =>
    if c = '/' then [] :: splitSlash cs
    else
      match splitSlash cs with
      | [] => [[c]]
      | e :: es => (c :: e) :: es

/-- The lexical processing of filepath.Clean on the elements of a path, with the
elements kept so far in reverse order: empty and "." elements are dropped, an
inner ".." removes the element before it, a ".." that begins a rooted path is
dropped, and a ".." that begins a relative path is kept. -/
def cleanElemsAux (rooted : Bool) : List Str → List Str → List Str
  | [], acc => acc.reverse
  | e :: es, acc =>
    if e = [] ∨ e = ['.'] then cleanElemsAux rooted es acc
    else if e = ['.', '.'] then
      match acc with
      | [] => if rooted then cleanElemsAux rooted es [] else cleanElemsAux rooted es [e]
      | top :: below =>
        if top = ['.', '.'] then cleanElemsAux rooted es (e :: acc)
        else cleanElemsAux rooted es below
    else cleanElemsAux rooted es (e :: acc)

/-- Whether a path is rooted (starts with the separator). -/
def isRooted (path : Str) : Bool := HasPrefix path ['/']

/-- The elements of the cleaned path. -/
def cleanElems (path : Str) : List Str := cleanElemsAux (isRooted path) (splitSlash path) []

/-- The elements of a path, written with one separator between them. -/
def joinSlash : List Str → Str
  | [] => []
  | [e] => e
  | e :: rest => e ++ '/' :: joinSlash rest

/-- The function filepath.Clean: the shortest path name equivalent to path by
purely lexical processing; the empty result is written ".". -/
def Clean (path : Str) : Str :=
  let body := joinSlash (cleanElems path)
  if isRooted path then '/' :: body
  else if body = [] then ['.'] else body

/-- The function filepath.Join on two elements: empty elements are ignored, the
result is cleaned, and it is empty when both elements are empty. -/
def Join (a b : Str) : Str :=
  if a = [] then (if b = [] then [] else Clean b)
  else if b = [] then Clean a
  else Clean (a ++ '/' :: b)

/-- The function filepath.Base: the last element of path, after removal of the
trailing separators; "." for the empty path and "/" for a path of separators. -/
def Base (path : Str) : Str :=
  if path = [] then ['.']
  else
    let stripped := path.reverse.dropWhile (· == '/')
    let last := (stripped.takeWhile (· != '/')).reverse
    if last = [] then ['/'] else last

/-- The function filepath.Dir: all but the last element of path, cleaned. -/
def Dir (path : Str) : Str :=
  Clean (path.reverse.dropWhile (· != '/')).reverse

/-! ## Exclusion matcher -/

/-- The function matchGlob. -/
def matchGlob (name pattern : Str) : Bool :=
  if HasPrefix pattern ['*'] then HasSuffix name (pattern.drop 1)
  else name == pattern

/-- The test that the walk callback of createTarball applies to one entry and
one exclusion pattern. -/
def excludeTest (file exclude : Str) : Bool :=
  Contains file exclude || matchGlob (Base file) exclude

/-- The exclusion loop of the walk callback of createTarball: the entry is
skipped as soon as one pattern matches. -/
def isExcluded (file : Str) : List Str → Bool
  | [] => false
  | exclude :: rest => if excludeTest file exclude then true else isExcluded file rest

/-- The rule of the specification for one pattern, given the full path p and the
base name b of an entry: a pattern of the form *X matches when b ends with X,
any other pattern matches when it occurs in p. -/
def specPatternMatches (p b e : Str) : Bool :=
  match e with
  | '*' :: x => HasSuffix b x
  | _ => Contains p e

/-! ## Command-line flags and policy -/

/-- The package-level variables that the flag parser fills in. -/
structure Flags where
  backupTarget : Str
  restoreSource : Str
  restoreDate : Str
  restoreLatest : Bool
  dryRun : Bool
  includeUserData : Bool

/-- The type BackupConfig. -/
structure BackupConfig where
  Enabled : Bool
  Schedule : Str
  Retention : Int
  Target : Str
  Include : List Str
  Exclude : List Str

/-! ## Archive naming -/

/-- The reading of the local clock (time.Now), by its calendar fields. -/
structure Time where
  year : Nat
  month : Nat
  day : Nat
  hour : Nat
  minute : Nat
  second : Nat

/-- The decimal digits of x, most significant first; the first argument bounds
the number of digits produced. -/
def decimalDigits : Nat → Nat → Str
  | 0, _ => []
  | fuel + 1, x =>
    if x < 10 then [Nat.digitChar x]
    else decimalDigits fuel (x / 10) ++ [Nat.digitChar (x % 10)]

/-- The function appendInt of package time, for a non-negative x: the decimal
digits of x, padded with zeros on the left up to width. -/
def appendInt (x width : Nat) : Str :=
  let ds := decimalDigits (x + 1) x
  List.replicate (width - ds.length) '0' ++ ds

/-- The method Time.Format with the layout "2006-01-02_15-04-05". -/
def Format (t : Time) : Str :=
  appendInt t.year 4 ++ '-' :: (appendInt t.month 2 ++ '-' :: (appendInt t.day 2 ++
    '_' :: (appendInt t.hour 2 ++ '-' :: (appendInt t.minute 2 ++ '-' :: appendInt t.second 2))))

/-- The archive name that createAction builds from the host name and the clock:
fmt.Sprintf("maculaos-%s-%s.tar.gz", hostname, timestamp). -/
def backupName (hostname : Str) (now : Time) : Str :=
  "maculaos-".toList ++ (hostname ++ '-' :: (Format now ++ ".tar.gz".toList))

/-- The calendar order on clock readings: t is earlier than u. -/
def Time.before (t u : Time) : Prop :=
  t.year < u.year ∨ (t.year = u.year ∧ (t.month < u.month ∨ (t.month = u.month ∧
    (t.day < u.day ∨ (t.day = u.day ∧ (t.hour < u.hour ∨ (t.hour = u.hour ∧
      (t.minute < u.minute ∨ (t.minute = u.minute ∧ t.second < u.second)))))))))

instance (t u : Time) : Decidable (t.before u) := by
  unfold Time.before
  infer_instance

/-- The ranges of the calendar fields of a clock reading, for a year of at most
four digits. -/
def Time.inRange (t : Time) : Prop :=
  t.year < 10000 ∧ t.month < 100 ∧ t.day < 100 ∧ t.hour < 100 ∧ t.minute < 100 ∧
    t.second < 100

/-- The zero-padded decimal of x on exactly w digits. -/
def fixedDigits : Nat → Nat → Str
  | 0, _ => []
  | w + 1, x => fixedDigits w (x / 10) ++ [Nat.digitChar (x % 10)]

/-! ## Catalog -/

/-- The function listLocalBackups. The argument is the result of
os.ReadDir(backupDir): none when the directory cannot be read, else the names of
its entries. -/
def listLocalBackups (readDir : Option (List Str)) : Option (List Str) :=
  match readDir with
  | none => none
  | some entries => some (sortStrings (entries.filter (fun name => HasSuffix name tarGz)))

/-- The loop of the date branch of restoreAction: backupPath stays empty until
the first backup whose name contains the date. -/
def findByDate (restoreDate : Str) : List Str → Str
  | [] => []
  | b :: rest =>
    if Contains b restoreDate then Join backupDir b else findByDate restoreDate rest

/-- The selection switch of restoreAction: the path of the archive to restore, or
the error that restoreAction returns. The second argument is the result of
os.ReadDir(backupDir), the third one the path returned by findUSBBackup. -/
def restoreSelect (fl : Flags) (readDir : Option (List Str)) (usbBackup : Str) :
    Except Str Str :=
  if fl.restoreSource = "local".toList then
    match listLocalBackups readDir with
    | none => .error "no local backups found".toList
    | some backups =>
      if backups.length = 0 then .error "no local backups found".toList
      else if fl.restoreLatest then
        .ok (Join backupDir (backups.getD (backups.length - 1) []))
      else if fl.restoreDate ≠ [] then
        let backupPath := findByDate fl.restoreDate backups
        if backupPath = [] then
          .error ("no backup found for date: ".toList ++ fl.restoreDate)
        else .ok backupPath
      else .error "specify --latest or --date to select backup".toList
  else if fl.restoreSource = "usb".toList then
    if usbBackup = [] then .error "no backup found on USB".toList
    else .ok usbBackup
  else if fl.restoreSource = "s3".toList then
    .error "S3 restore not yet implemented".toList
  else .error ("unknown restore source: ".toList ++ fl.restoreSource)

/-! ## Retention -/

/-- The call os.Remove on an entry of the backup directory: the entry of that
name disappears, unless the removal fails. -/
def osRemove (removeFails : Str → Bool) (dir : List Str) (name : Str) : List Str :=
  if removeFails name then dir else dir.filter (fun e => e ≠ name)

/-- The deletion loop of applyRetention, on the content of the backup directory:
while more backups are listed than the policy retains, the first one is removed
(a failure is only logged) and dropped from the list. -/
def retentionLoop (retention : Int) (removeFails : Str → Bool) :
    List Str → List Str → List Str
  | [], dir => dir
  | oldest :: rest, dir =>
    if ((oldest :: rest).length : Int) > retention then
      retentionLoop retention removeFails rest (osRemove removeFails dir oldest)
    else dir

/-- The function applyRetention, on the content of the backup directory. The
policy is the result of readBackupConfig (none when it fails); readFails tells
whether os.ReadDir fails on the backup directory. The result is the error
status (true for an error) and the new content of the directory. -/
def applyRetention (cfg : Option BackupConfig) (readFails : Bool)
    (removeFails : Str → Bool) (dir : List Str) : Bool × List Str :=
  match cfg with
  | none => (false, dir)
  | some cfg =>
    if cfg.Retention ≤ 0 then (false, dir)
    else
      match listLocalBackups (if readFails then none else some dir) with
      | none => (true, dir)
      | some backups => (false, retentionLoop cfg.Retention removeFails backups dir)

/-- The archives of a directory content: the entries that listLocalBackups
keeps. -/
def archivesOf (dir : List Str) : List Str :=
  dir.filter (fun name => HasSuffix name tarGz)

/-! ## File trees and the archive stream -/

/-- The errors of the operations on files and on the archive stream. -/
inductive Err where
  | createFailed
  | openFailed
  | missedWriting
  | writeTooLong
  | readFailed
  | notDir
  | isDir
  | notExist
  | unexpectedEOF
  | corruptHeader
  | notEmpty
  | ioFailed
  deriving DecidableEq

/-- The entry types of package archive/tar that tar.FileInfoHeader produces. -/
inductive Typeflag where
  | TypeReg
  | TypeDir
  | TypeSymlink
  | TypeChar
  | TypeBlock
  | TypeFifo
  deriving DecidableEq

/-- What os.Open followed by reading to the end gives on a file that is not a
directory: the open fails, or some bytes are read and the reading ends normally
(true) or with an error (false). -/
inductive OpenResult where
  | fails
  | reads (data : Str) (complete : Bool)
  deriving DecidableEq

/-- A file tree as os.Lstat and the directory listing show it. A regular file
has its mode bits and content; a directory its mode bits and its entries by
name, in the order in which filepath.Walk visits them, which is the ascending
order of the names (it sorts the listing); a special file (symbolic link,
device, named pipe, socket) has the entry type that tar.FileInfoHeader gives it (none for a socket,
which it rejects), its mode bits and what opening and reading it gives. -/
inductive Node where
  | reg (mode : Nat) (data : Str)
  | dir (mode : Nat) (children : List (Str × Node))
  | special (typeflag : Option Typeflag) (mode : Nat) (content : OpenResult)

/-- The method IsDir of os.FileInfo. -/
def Node.IsDir : Node → Bool
  | .dir _ _ => true
  | _ => false

/-- The faults of the file system during a walk, by path: os.Lstat fails on an
entry of a directory, the directory cannot be listed, the file cannot be
opened. -/
structure Faults where
  lstatFails : Str → Bool
  readDirFails : Str → Bool
  openFails : Str → Bool

/-- No fault: every entry is readable. -/
def Faults.none : Faults := ⟨fun _ => false, fun _ => false, fun _ => false⟩

/-- The header of an archive entry (type tar.Header), by the fields that the
program sets or reads. -/
structure Header where
  Name : Str
  Typeflag : Typeflag
  Mode : Nat
  Size : Nat
  deriving DecidableEq

/-- An entry of the archive stream: its header and the bytes of content that
follow it in the stream. -/
structure TarEntry where
  header : Header
  data : Str
  deriving DecidableEq

/-- The state of a tar.Writer: the entries written so far, in stream order, and
the number of content bytes that the last header still announces. -/
structure TarWriter where
  entries : List TarEntry
  remaining : Nat
  deriving DecidableEq

/-- The function tar.NewWriter. -/
def TarWriter.new : TarWriter := ⟨[], 0⟩

/-- The method WriteHeader of tar.Writer: it fails when the content of the
previous entry is incomplete; only a regular file announces content. -/
def TarWriter.WriteHeader (tw : TarWriter) (hdr : Header) : Except Err TarWriter :=
  if tw.remaining > 0 then .error .missedWriting
  else .ok ⟨tw.entries ++ [⟨hdr, []⟩],
    if hdr.Typeflag = .TypeReg then hdr.Size else 0⟩

/-- Appends content bytes to the last entry of the stream. -/
def appendData : List TarEntry → Str → List TarEntry
  | [], _ => []
  | [e], bytes => [⟨e.header, e.data ++ bytes⟩]
  | e :: rest, bytes => e :: appendData rest bytes

/-- The call io.Copy(tw, data) on an opened file: the bytes read are written to
the current entry up to the size that its header announces; writing more fails
with ErrWriteTooLong, and a read error is returned after the bytes read. The
writer state is returned also on failure. -/
def TarWriter.Copy (tw : TarWriter) (data : Str) (complete : Bool) :
    TarWriter × Option Err :=
  if data.length > tw.remaining then
    (⟨appendData tw.entries (data.take tw.remaining), 0⟩, some .writeTooLong)
  else
    (⟨appendData tw.entries data, tw.remaining - data.length⟩,
      if complete then none else some .readFailed)

/-- The function tar.FileInfoHeader, before the program overwrites the name. -/
def FileInfoHeader (fi : Node) (name : Str) : Option Header :=
  match fi with
  | .reg mode data => some ⟨name, .TypeReg, mode, data.length⟩
  | .dir mode _ => some ⟨name ++ ['/'], .TypeDir, mode, 0⟩
  | .special (some tf) mode _ => some ⟨name, tf, mode, 0⟩
  | .special none _ _ => none

/-- The call os.Open(file) and the reading of the file by io.Copy. -/
def osOpen (faults : Faults) (file : Str) (fi : Node) : OpenResult :=
  match fi with
  | .reg _ data => if faults.openFails file then .fails else .reads data true
  | .dir _ _ => if faults.openFails file then .fails else .reads [] false
  | .special _ _ content => if faults.openFails file then .fails else content

/-- The result of a walk step: the state reached and the error that aborts the
walk, if any. -/
abbrev Step (σ : Type) := σ × Option Err

mutual
/-- The function walk of path/filepath, for a callback that never asks to skip
a directory: the callback is called on the entry, then on the entries of a
directory in the order of its sorted listing; a directory that cannot be listed is reported to the
callback and not entered; the first error of the callback aborts the walk. -/
def walk {σ : Type} (faults : Faults)
    (walkFn : Str → Option Node → Bool → σ → Step σ)
    (path : Str) (info : Node) (st : σ) : Step σ :=
  match info with
  | .dir mode children =>
    let err := faults.readDirFails path
    match walkFn path (some (.dir mode children)) err st with
    | (st1, some e) => (st1, some e)
    | (st1, none) =>
      if err then (st1, none) else walkChildren faults walkFn path children st1
  | .reg mode data => walkFn path (some (.reg mode data)) false st
  | .special tf mode content => walkFn path (some (.special tf mode content)) false st
/-- The loop of walk over the names of a directory. -/
def walkChildren {σ : Type} (faults : Faults)
    (walkFn : Str → Option Node → Bool → σ → Step σ)
    (path : Str) (children : List (Str × Node)) (st : σ) : Step σ :=
  match children with
  | [] => (st, none)
  | (name, child) :: rest =>
    let filename := Join path name
    let r := if faults.lstatFails filename then walkFn filename none true st
      else walk faults walkFn filename child st
    match r with
    | (st1, some e) => (st1, some e)
    | (st1, none) => walkChildren faults walkFn path rest st1
end

/-- The function filepath.Walk. The root is the result of os.Lstat on it: none
when it fails, and then the callback alone is called, with the error. -/
def Walk {σ : Type} (faults : Faults) (walkFn : Str → Option Node → Bool → σ → Step σ)
    (root : Str) (lstat : Option Node) (st : σ) : Step σ :=
  match lstat with
  | none => walkFn root none true st
  | some info => walk faults walkFn root info st

/-- The callback that createTarball passes to filepath.Walk. -/
def tarballWalkFn (faults : Faults) (excludes : List Str)
    (file : Str) (fi : Option Node) (err : Bool) (tw : TarWriter) : Step TarWriter :=
  if err then (tw, none)
  else if isExcluded file excludes then (tw, none)
  else
    match fi with
    | none => (tw, none)
    | some fi =>
      match FileInfoHeader fi file with
      | none => (tw, none)
      | some header =>
        let header := { header with Name := file }
        match tw.WriteHeader header with
        | .error e => (tw, some e)
        | .ok tw1 =>
          if !fi.IsDir then
            match osOpen faults file fi with
            | .fails => (tw1, none)
            | .reads data complete => tw1.Copy data complete
          else (tw1, none)

/-- The loop of createTarball over the roots. -/
def createLoop (faults : Faults) (lstat : Str → Option Node) (excludes : List Str) :
    List Str → TarWriter → Step TarWriter
  | [], tw => (tw, none)
  | path :: rest, tw =>
    match Walk faults (tarballWalkFn faults excludes) path (lstat path) tw with
    | (tw1, some e) => (tw1, some e)
    | (tw1, none) => createLoop faults lstat excludes rest tw1

/-- The function createTarball, on the file system that the walk sees: lstat
gives the tree found at a root (none when os.Lstat fails on it); createFails
tells whether os.Create fails on the destination. The result is the entries
written to the archive stream and the error returned, if any. -/
def createTarball (createFails : Bool) (faults : Faults) (lstat : Str → Option Node)
    (paths : List Str) (excludes : List Str) : Step TarWriter :=
  if createFails then (TarWriter.new, some .createFailed)
  else createLoop faults lstat excludes paths TarWriter.new

/-! ## The entries of a tree, in walk order -/

mutual
/-- Whether a tree consists of directories and regular files only. -/
def Node.plain : Node → Bool
  | .reg _ _ => true
  | .dir _ children => plainChildren children
  | .special _ _ _ => false
/-- Whether the entries of a directory are plain trees. -/
def plainChildren : List (Str × Node) → Bool
  | [] => true
  | (_, child) :: rest => child.plain && plainChildren rest
end

mutual
/-- The entries of the tree found at path, each with the path under which the
walk visits it, in walk order: the entry itself, then the entries below it. -/
def Node.walkEntries (path : Str) : Node → List (Str × Node)
  | .dir mode children => (path, .dir mode children) :: childrenEntries path children
  | .reg mode data => [(path, .reg mode data)]
  | .special tf mode content => [(path, .special tf mode content)]
/-- The entries below a directory, in walk order. -/
def childrenEntries (path : Str) : List (Str × Node) → List (Str × Node)
  | [] => []
  | (name, child) :: rest =>
    child.walkEntries (Join path name) ++ childrenEntries path rest
end

/-- The entries below a root given to createTarball: none when os.Lstat fails on
the root. -/
def rootEntries (lstat : Str → Option Node) (root : Str) : List (Str × Node) :=
  match lstat root with
  | none => []
  | some info => info.walkEntries root

/-- The archive entry of a directory or of a readable regular file visited
under path: the header carries the path, the type, the mode bits and the size,
and the content of a regular file follows. -/
def archiveEntry (visited : Str × Node) : TarEntry :=
  match visited.2 with
  | .reg mode data => ⟨⟨visited.1, .TypeReg, mode, data.length⟩, data⟩
  | .dir mode _ => ⟨⟨visited.1, .TypeDir, mode, 0⟩, []⟩
  | .special tf mode _ => ⟨⟨visited.1, tf.getD .TypeSymlink, mode, 0⟩, []⟩

/-- The archive entries of the visited entries that no exclusion pattern
matches. -/
def includedEntries (excludes : List Str) (visited : List (Str × Node)) : List TarEntry :=
  (visited.filter (fun v => !isExcluded v.1 excludes)).map archiveEntry

/-! ## The destination file system and extraction -/

/-- An object of the destination file system: a directory with its mode bits, a
regular file with its mode bits and content, or a special file (symbolic link,
device, named pipe, socket). Special files are not followed nor written to:
the operations below fail on them. -/
inductive Obj where
  | dir (mode : Nat)
  | file (mode : Nat) (data : Str)
  | special
  deriving DecidableEq

/-- The state of the destination file system: the object found at each path,
the path being given by its elements from the root directory (the empty list).
In a state of a real file system the parent of every object is a directory. -/
abbrev FS := List Str → Option Obj

/-- The state in which the object at path p is replaced. -/
def FS.set (fs : FS) (p : List Str) (o : Obj) : FS :=
  fun q => if q = p then some o else fs q

/-- The elements by which the file system resolves a path: the elements of the
cleaned path; a relative path is resolved from the root directory, where ".."
stays in place. -/
def pathElems (path : Str) : List Str :=
  (cleanElems path).filter (fun e => e ≠ ['.', '.'])

/-- The mode bits of an object created with permission perm under the process
umask: the nine permission bits of perm that the umask does not clear. -/
def createMode (perm umask : Nat) : Nat :=
  (perm % 512) &&& (511 ^^^ (umask % 512))

/-- Whether the object at a path exists and is not a directory. -/
def FS.blocked (fs : FS) (q : List Str) : Bool :=
  match fs q with
  | some (.dir _) => false
  | some _ => true
  | none => false

/-- The function os.MkdirAll: the directory at p and all missing parents are
created with permission perm (before umask); directories that exist are left as
they are; it fails, creating nothing, when p or one of its parents exists and is
not a directory. -/
def MkdirAll (umask : Nat) (fs : FS) (p : List Str) (perm : Nat) : Except Err FS :=
  if p.inits.any fs.blocked then .error .notDir
  else .ok (fun q =>
    if q.isPrefixOf p && (fs q).isNone then some (.dir (createMode perm umask)) else fs q)

/-- The call os.OpenFile(target, os.O_CREATE|os.O_RDWR, perm): an existing
regular file is opened as it is, with its content and mode; a missing file is
created empty in its parent directory with permission perm (before umask). -/
def OpenFile (umask : Nat) (fs : FS) (p : List Str) (perm : Nat) : Except Err FS :=
  match fs p with
  | some (.file _ _) => .ok fs
  | some (.dir _) => .error .isDir
  | some .special => .error .openFailed
  | none =>
    match p.reverse with
    | [] => .error .notExist
    | _ :: parentRev =>
      match fs parentRev.reverse with
      | some (.dir _) => .ok (fs.set p (.file (createMode perm umask) []))
      | some _ => .error .notDir
      | none => .error .notExist

/-- The content of a file after data is written at its start, without
truncation: the bytes of the old content beyond the data stay. -/
def overlay (data old : Str) : Str := data ++ old.drop data.length

/-- The writes of io.Copy(f, tr) on the file just opened (the file was not
opened with O_TRUNC): the bytes go to the start of the file and replace what was
there. -/
def writeFromStart (fs : FS) (p : List Str) (data : Str) : FS :=
  match fs p with
  | some (.file mode old) => fs.set p (.file mode (overlay data old))
  | _ => fs

/-- The body of the loop of extractTarball for one entry of the stream: the new
state of the destination and the error returned, if any. The content of a
regular entry that the stream does not hold in full is written as far as it
goes, and the copy fails. -/
def extractEntry (umask : Nat) (dest : Str) (fs : FS) (e : TarEntry) : FS × Option Err :=
  let target := Join dest e.header.Name
  match e.header.Typeflag with
  | .TypeDir =>
    match MkdirAll umask fs (pathElems target) 0o755 with
    | .error err => (fs, some err)
    | .ok fs1 => (fs1, none)
  | .TypeReg =>
    match MkdirAll umask fs (pathElems (Dir target)) 0o755 with
    | .error err => (fs, some err)
    | .ok fs1 =>
      match OpenFile umask fs1 (pathElems target) e.header.Mode with
      | .error err => (fs1, some err)
      | .ok fs2 =>
        (writeFromStart fs2 (pathElems target) e.data,
          if e.data.length < e.header.Size then some .unexpectedEOF else none)
  | _ => (fs, none)

/-- The loop of extractTarball over the entries of the stream, up to the first
error. -/
def extractLoop (umask : Nat) (dest : Str) : List TarEntry → FS → FS × Option Err
  | [], fs => (fs, none)
  | e :: rest, fs =>
    match extractEntry umask dest fs e with
    | (fs1, some err) => (fs1, some err)
    | (fs1, none) => extractLoop umask dest rest fs1

/-- An archive as the tar reader delivers it: its entries in stream order, and
whether the stream ends with the end-of-archive marker (true) or breaks off
(false). -/
structure Archive where
  entries : List TarEntry
  intact : Bool

/-- The function extractTarball. The source is the archive read at src (none
when it cannot be opened or is not a gzip stream); umask is the umask of the
process. The result is the new state of the destination and the error returned,
if any. -/
def extractTarball (umask : Nat) (src : Option Archive) (dest : Str) (fs : FS) :
    FS × Option Err :=
  match src with
  | none => (fs, some .openFailed)
  | some archive =>
    match extractLoop umask dest archive.entries fs with
    | (fs1, some err) => (fs1, some err)
    | (fs1, none) => (fs1, if archive.intact then none else some .unexpectedEOF)

/-- The state of an empty destination: the root directory alone. -/
def emptyFS (rootMode : Nat) : FS :=
  fun q => if q = [] then some (.dir rootMode) else none


/-- An example state of the destination: /etc/x is a file of mode 0600 with the
content "wxyz". -/
def fsWithEtcX : FS := fun q =>
  if q = [] then some (.dir 0o755)
  else if q = ["etc".toList] then some (.dir 0o755)
  else if q = ["etc".toList, "x".toList] then some (.file 0o600 "wxyz".toList)
  else none

/-! ## Shape and content of a state -/

/-- An object without its content. -/
def Obj.kind : Obj → Obj
  | .file mode _ => .file mode []
  | o => o

/-- Two states have the same objects at the same paths, up to the content of
the files. -/
def sameShape (s t : FS) : Prop := ∀ q, (s q).map Obj.kind = (t q).map Obj.kind

/-- Every object of s is in t, up to the content of the files. -/
def grows (s t : FS) : Prop := ∀ q, s q ≠ none → (t q).map Obj.kind = (s q).map Obj.kind

/-- The content of the file at p; empty when there is no file at p. -/
def FS.content (s : FS) (p : List Str) : Str :=
  match s p with
  | some (.file _ data) => data
  | _ => []

/-- The successive writes of a list of payloads at the start of a file. -/
def overlays (payloads : List Str) (old : Str) : Str :=
  payloads.foldl (fun c d => overlay d c) old

/-- The payload that extractEntry writes to the file at p, if any. -/
def entryPayload (umask : Nat) (dest : Str) (fs : FS) (e : TarEntry) (p : List Str) :
    List Str :=
  let target := Join dest e.header.Name
  match e.header.Typeflag with
  | .TypeReg =>
    match MkdirAll umask fs (pathElems (Dir target)) 0o755 with
    | .error _ => []
    | .ok fs1 =>
      match OpenFile umask fs1 (pathElems target) e.header.Mode with
      | .error _ => []
      | .ok _ => if pathElems target = p then [e.data] else []
  | _ => []

/-- The payloads that extractLoop writes to the file at p, in order. -/
def loopPayloads (umask : Nat) (dest : Str) : List TarEntry → FS → List Str → List Str
  | [], _, _ => []
  | e :: rest, fs, p =>
    entryPayload umask dest fs e p ++
      (match extractEntry umask dest fs e with
        | (_, some _) => []
        | (fs1, none) => loopPayloads umask dest rest fs1 p)
/-! ## Clean rooted paths and well-formed trees -/

/-- A file name: not empty, without separator, and neither "." nor "..". -/
def goodName (n : Str) : Prop :=
  n ≠ [] ∧ '/' ∉ n ∧ n ≠ ['.'] ∧ n ≠ ['.', '.']

instance (n : Str) : Decidable (goodName n) := by
  unfold goodName
  infer_instance

/-- The clean rooted path with the given elements: "/" for no element. -/
def render (elems : List Str) : Str := '/' :: joinSlash elems

/-- The path s denotes the elements a: its non-empty elements are the file names
a, in order. -/
def denotes (s : Str) (a : List Str) : Prop :=
  (splitSlash s).filter (fun e => e ≠ []) = a ∧ ∀ e ∈ splitSlash s, e = [] ∨ goodName e

mutual
/-- A well-formed tree: in every directory the entry names are file names and
pairwise distinct. -/
def Node.wf : Node → Prop
  | .reg _ _ => True
  | .dir _ children => wfChildren children
  | .special _ _ _ => True
/-- Well-formed entries of a directory. -/
def wfChildren : List (Str × Node) → Prop
  | [] => True
  | (name, child) :: rest =>
    goodName name ∧ (∀ other ∈ rest, other.1 ≠ name) ∧ child.wf ∧ wfChildren rest
end

mutual
/-- The entries of the tree found at the position pos (a list of path elements),
each with its position, in walk order. -/
def Node.positions (pos : List Str) : Node → List (List Str × Node)
  | .dir mode children => (pos, .dir mode children) :: childrenPositions pos children
  | .reg mode data => [(pos, .reg mode data)]
  | .special tf mode content => [(pos, .special tf mode content)]
/-- The entries below the directory at pos, with their positions. -/
def childrenPositions (pos : List Str) : List (Str × Node) → List (List Str × Node)
  | [] => []
  | (name, child) :: rest =>
    child.positions (pos ++ [name]) ++ childrenPositions pos rest
end

/-! ## The state that a restore into an empty destination produces -/

/-- Whether a node is a regular file. -/
def Node.isReg : Node → Bool
  | .reg _ _ => true
  | _ => false

/-- The mode bits and content of the first regular file among the items whose
target path is q. An item is an archived entry with the elements of its target
path. -/
def regAt (items : List (List Str × Node)) (q : List Str) : Option (Nat × Str) :=
  items.findSome? (fun it =>
    match it.2 with
    | .reg mode data => if it.1 = q then some (mode, data) else none
    | _ => none)

/-- Whether q is the target path of an item or lies above one. -/
def covered (items : List (List Str × Node)) (q : List Str) : Bool :=
  items.any (fun it => q.isPrefixOf it.1)

/-- The destination after the restore of the items on the state base: at the
target of a regular file, the file with its content and its permission bits
(before umask); elsewhere the object of base, if there is one; at every other
path that is the target of an item or lies above one, a directory of mode 0755
(before umask); nothing elsewhere. -/
def restored (umask : Nat) (base : FS) (items : List (List Str × Node)) : FS := fun q =>
  match regAt items q with
  | some (mode, data) => some (.file (createMode mode umask) data)
  | none =>
    match base q with
    | some o => some o
    | none => if covered items q then some (.dir (createMode 0o755 umask)) else none

/-- The restored state after os.MkdirAll has added the directory at the path τ
and its missing parents. -/
def restoredMkdir (umask : Nat) (base : FS) (items : List (List Str × Node))
    (τ : List Str) : FS := fun q =>
  match regAt items q with
  | some (mode, data) => some (.file (createMode mode umask) data)
  | none =>
    match base q with
    | some o => some o
    | none =>
      if covered items q || q.isPrefixOf τ then some (.dir (createMode 0o755 umask))
      else none

/-- The destination root of elements d is empty in the state base: nothing
exists below it, and the root itself and the directories above it are
directories, as far as they exist. -/
def emptyBelow (base : FS) (d : List Str) : Prop :=
  (∀ q, q <+: d → base.blocked q = false) ∧ (∀ q, d <+: q → q ≠ d → base q = none)

/-- Two items do not collide: the target of a regular file is not the target of
the other item and does not lie above it. -/
def apart (a b : List Str × Node) : Prop :=
  (a.2.isReg = true → ¬ a.1 <+: b.1) ∧ (b.2.isReg = true → ¬ b.1 <+: a.1)

/-- The items are laid out as a tree: no two of them collide, and no regular
file is at the root. -/
def treeLike (items : List (List Str × Node)) : Prop :=
  items.Pairwise apart ∧ ∀ it ∈ items, it.2.isReg = true → it.1 ≠ []

/-- The archive that the tar reader delivers from what the writer produced. The
stream ends with the end-of-archive marker when the content of the last entry
was written in full: the deferred Close of the writer then succeeds. -/
def TarWriter.archive (tw : TarWriter) : Archive :=
  ⟨tw.entries, decide (tw.remaining = 0)⟩

/-- The archive that createTarball builds from the tree found at the clean
rooted path of elements rootElems, as the tar reader delivers it. -/
def builtArchive (tree : Node) (rootElems : List Str) (excludes : List Str) : Archive :=
  (createTarball false Faults.none
      (fun p => if p = render rootElems then some tree else none)
      [render rootElems] excludes).1.archive

/-- The entries of the tree at rootElems that no exclusion pattern matches, with
their positions. -/
def keptPositions (tree : Node) (rootElems : List Str) (excludes : List Str) :
    List (List Str × Node) :=
  (tree.positions rootElems).filter (fun v => !isExcluded (render v.1) excludes)


/-! ## Directories and their entries -/

/-- The directories of the file system on which the commands work: at the path
of a directory, given by its elements from the root directory (the empty list),
the names of its entries; none where no directory is. An entry of a directory
whose own path holds none is a file. -/
abbrev Dirs := List Str → Option (List Str)

/-- The state in which the listing at path p is replaced. -/
def Dirs.set (d : Dirs) (p : List Str) (v : Option (List Str)) : Dirs :=
  fun q => if q = p then v else d q

/-- The directories given by a table of paths and listings. -/
def Dirs.ofList (table : List (List Str × List Str)) : Dirs :=
  fun q => (table.find? (fun row => decide (row.1 = q))).map (fun row => row.2)

/-- Path resolution from the directory cur along the given names: none when
every name is found, else the error of the system call, ENOTDIR when a name is
looked up in what is not a directory and ENOENT when the directory has no such
entry. -/
def Dirs.statFrom (d : Dirs) : List Str → List Str → Option Err
  | _, [] => none
  | cur, n :: rest =>
    match d cur with
    | none => some .notDir
    | some names =>
      if n ∈ names then Dirs.statFrom d (cur ++ [n]) rest else some .notExist

/-- The call os.Stat(path): none when it succeeds, else its error. -/
def osStat (d : Dirs) (path : Str) : Option Err :=
  d.statFrom [] (pathElems path)

/-- The call os.ReadDir(path), by the names of the entries; the first argument
tells whether the listing fails for a cause outside the state. -/
def osReadDir (fails : Bool) (d : Dirs) (path : Str) : Option (List Str) :=
  if fails then none
  else
    match osStat d path with
    | some _ => none
    | none => d (pathElems path)

/-- The directories that os.MkdirAll makes below cur along the given names:
a name found in its directory is entered, a missing one is created empty. -/
def Dirs.mkdirAllFrom (d : Dirs) : List Str → List Str → Except Err Dirs
  | cur, [] => if (d cur).isSome then .ok d else .error .notDir
  | cur, n :: rest =>
    match d cur with
    | none => .error .notDir
    | some names =>
      if n ∈ names then Dirs.mkdirAllFrom d (cur ++ [n]) rest
      else
        Dirs.mkdirAllFrom ((d.set cur (some (names ++ [n]))).set (cur ++ [n]) (some []))
          (cur ++ [n]) rest

/-- The call os.MkdirAll(path, perm), without the mode bits; the first argument
tells whether it fails for a cause outside the state (read-only medium, no
space). On failure nothing is created. -/
def osMkdirAll (fails : Bool) (d : Dirs) (path : Str) : Except Err Dirs :=
  if fails then .error .ioFailed else d.mkdirAllFrom [] (pathElems path)

/-- The effect of os.Create(path) on the directories: the file is entered in its
directory unless it is there already; it fails when the directory cannot be
reached or the path is a directory. The first argument tells whether it fails
for a cause outside the state. -/
def osCreate (fails : Bool) (d : Dirs) (path : Str) : Except Err Dirs :=
  if fails then .error .createFailed
  else
    match (pathElems path).reverse with
    | [] => .error .isDir
    | n :: parentRev =>
      match d.statFrom [] parentRev.reverse with
      | some e => .error e
      | none =>
        match d parentRev.reverse with
        | none => .error .notDir
        | some names =>
          if n ∈ names then
            if (d (parentRev.reverse ++ [n])).isSome then .error .isDir else .ok d
          else .ok (d.set parentRev.reverse (some (names ++ [n])))

/-- The call os.Remove(path): a file or an empty directory is taken out of its
directory; it fails when the path does not resolve, on a directory that has
entries and on the root. The first argument tells whether the removal fails
for a cause outside the state. -/
def osRemovePath (fails : Bool) (d : Dirs) (path : Str) : Except Err Dirs :=
  match osStat d path with
  | some e => .error e
  | none =>
    if fails then .error .ioFailed
    else
      match (pathElems path).reverse with
      | [] => .error .ioFailed
      | n :: parentRev =>
        match d (pathElems path) with
        | some (_ :: _) => .error .notEmpty
        | _ =>
          match d parentRev.reverse with
          | none => .error .notDir
          | some names =>
            .ok ((d.set parentRev.reverse (some (names.filter (fun e => e ≠ n)))).set
              (pathElems path) none)

/-- The command cp src dest, by its exit status and the file it leaves: the
source must be a file; a destination that is a directory receives the file under
the name of the source. The first argument tells whether the command fails for
a cause outside the state; a failing command is taken to leave no file. -/
def cp (fails : Bool) (d : Dirs) (src dest : Str) : Except Err Dirs :=
  if fails then .error .ioFailed
  else
    match osStat d src with
    | some e => .error e
    | none =>
      if (d (pathElems src)).isSome then .error .isDir
      else if osStat d dest = none ∧ (d (pathElems dest)).isSome then
        osCreate false d (Join dest (Base src))
      else osCreate false d dest

/-! ## Copies on removable media -/

/-- The candidate mount points of findUSBMount, in the order tried. -/
def usbCandidates : List Str :=
  ["/mnt/usb".toList, "/media/usb".toList, "/run/media".toList]

/-- The loop of findUSBMount over the candidates. -/
def findUSBMountLoop (d : Dirs) : List Str → Str
  | [] => []
  | c :: rest => if osStat d c = none then c else findUSBMountLoop d rest

/-- The function findUSBMount. -/
def findUSBMount (d : Dirs) : Str := findUSBMountLoop d usbCandidates

/-- The errors of copyToUSB. -/
inductive UsbErr where
  | noMount
  | mkdirFailed (e : Err)
  | cpFailed (e : Err)
  deriving DecidableEq

/-- The function copyToUSB; mkdirFails and cpFails tell whether os.MkdirAll, by
path, and the command cp fail for a cause outside the state. The result is the error
returned, if any, and the new state. -/
def copyToUSB (mkdirFails : Str → Bool) (cpFails : Bool) (d : Dirs) (src : Str) :
    Option UsbErr × Dirs :=
  let usbMount := findUSBMount d
  if usbMount = [] then (some .noMount, d)
  else
    let dest := Join (Join usbMount "maculaos-backups".toList) (Base src)
    match osMkdirAll (mkdirFails (Dir dest)) d (Dir dest) with
    | .error e => (some (.mkdirFailed e), d)
    | .ok d1 =>
      match cp cpFails d1 src dest with
      | .error e => (some (.cpFailed e), d1)
      | .ok d2 => (none, d2)

/-- The function uploadToS3: the error it returns. -/
def uploadToS3 (_src : Str) : Option Str :=
  some "S3 upload not yet implemented".toList

/-! ## The build with its destination -/

/-- The faults of the destination of createTarball: os.Create fails; a write to
the destination fails during tw.WriteHeader or during io.Copy for the entry at a
path; a write fails when the deferred Close calls flush what the writers still
hold (compress/gzip and archive/tar buffer their output). -/
structure DestFaults where
  createFails : Bool
  headerFails : Str → Bool
  copyFails : Str → Bool
  closeFails : Bool

/-- A destination without fault. -/
def DestFaults.none : DestFaults := ⟨false, fun _ => false, fun _ => false, false⟩

/-- The callback that createTarball passes to filepath.Walk, with the faults of
the destination: tw.WriteHeader first refuses a header that follows incomplete
content, then writes to the destination. -/
def tarballWalkFnDest (dst : DestFaults) (faults : Faults) (excludes : List Str)
    (file : Str) (fi : Option Node) (err : Bool) (tw : TarWriter) : Step TarWriter :=
  if err then (tw, none)
  else if isExcluded file excludes then (tw, none)
  else
    match fi with
    | none => (tw, none)
    | some fi =>
      match FileInfoHeader fi file with
      | none => (tw, none)
      | some header =>
        let header := { header with Name := file }
        match tw.WriteHeader header with
        | .error e => (tw, some e)
        | .ok tw1 =>
          if dst.headerFails file then (tw, some .ioFailed)
          else if !fi.IsDir then
            match osOpen faults file fi with
            | .fails => (tw1, none)
            | .reads data complete =>
              if dst.copyFails file then (tw1, some .ioFailed)
              else tw1.Copy data complete
          else (tw1, none)

/-- The loop of createTarball over the roots, with the faults of the
destination. -/
def createLoopDest (dst : DestFaults) (faults : Faults) (lstat : Str → Option Node)
    (excludes : List Str) : List Str → TarWriter → Step TarWriter
  | [], tw => (tw, none)
  | path :: rest, tw =>
    match Walk faults (tarballWalkFnDest dst faults excludes) path (lstat path) tw with
    | (tw1, some e) => (tw1, some e)
    | (tw1, none) => createLoopDest dst faults lstat excludes rest tw1

/-- What a call of createTarball leaves: the entries written to the archive
stream, the error returned, the error of the deferred Close calls (which the
function drops), and the directories. -/
structure TarballResult where
  tw : TarWriter
  err : Option Err
  closeErr : Option Err
  dirs : Dirs

/-- The error of the deferred calls tw.Close, gzw.Close and file.Close:
tw.Close refuses incomplete content of the last entry, and the flushes fail
when the destination does. -/
def closeError (dst : DestFaults) (tw : TarWriter) : Option Err :=
  if tw.remaining > 0 then some .missedWriting
  else if dst.closeFails then some .ioFailed
  else none

/-- The function createTarball with its destination dest in the directories d.
The walk sees the file system through lstat and faults, as in createTarball
above. -/
def createTarballDest (dst : DestFaults) (faults : Faults) (lstat : Str → Option Node)
    (d : Dirs) (dest : Str) (paths : List Str) (excludes : List Str) : TarballResult :=
  match osCreate dst.createFails d dest with
  | .error e => ⟨TarWriter.new, some e, none, d⟩
  | .ok d1 =>
    ⟨(createLoopDest dst faults lstat excludes paths TarWriter.new).1,
      (createLoopDest dst faults lstat excludes paths TarWriter.new).2,
      closeError dst (createLoopDest dst faults lstat excludes paths TarWriter.new).1, d1⟩

/-! ## The commands create, restore and delete -/

/-- What createAction finds outside the directories: the host name and the
clock, the file system as the walk sees it, the faults of the destination, the
outcome of os.MkdirAll by path and of the command cp, the policy that
readBackupConfig returns (none on error), and the outcome of the listing and of
the removals of applyRetention. -/
structure CreateEnv where
  hostname : Str
  now : Time
  faults : Faults
  lstat : Str → Option Node
  dst : DestFaults
  mkdirFails : Str → Bool
  cpFails : Bool
  policy : Option BackupConfig
  readFails : Bool
  removeFails : Str → Bool

/-- The errors that createAction returns. -/
inductive CreateErr where
  | mkdirFailed (e : Err)
  | backupFailed (e : Err)
  deriving DecidableEq

/-- The roots that createAction selects. -/
def createPaths (fl : Flags) (d : Dirs) : List Str :=
  let paths := ["/var/lib/maculaos".toList]
  if fl.includeUserData then
    if osStat d "/var/lib/data".toList = none then paths ++ ["/var/lib/data".toList]
    else paths
  else paths

/-- The exclusion patterns of createAction. -/
def createExcludes : List Str :=
  ["/var/lib/maculaos/backups".toList, "*.log".toList, "*.tmp".toList]

/-- The switch of createAction on the target: the warning logged, if any, and
the new state. -/
def dispatch (fl : Flags) (env : CreateEnv) (d : Dirs) (backupPath : Str) :
    Bool × Dirs :=
  if fl.backupTarget = "usb".toList then
    match copyToUSB env.mkdirFails env.cpFails d backupPath with
    | (some _, d1) => (true, d1)
    | (none, d1) => (false, d1)
  else if fl.backupTarget = "s3".toList then
    ((uploadToS3 backupPath).isSome, d)
  else (false, d)

/-- The function applyRetention on the directories: the listing of the backup
directory is what os.ReadDir finds there, and the removals take names out of
it. -/
def applyRetentionIn (cfg : Option BackupConfig) (readFails : Bool)
    (removeFails : Str → Bool) (d : Dirs) : Bool × Dirs :=
  match osReadDir false d backupDir with
  | none => ((applyRetention cfg true removeFails []).1, d)
  | some names =>
    ((applyRetention cfg readFails removeFails names).1,
      d.set (pathElems backupDir) (some (applyRetention cfg readFails removeFails names).2))

/-- The function createAction: the error returned, if any, and the new state of
the directories. The output on the terminal, with the size of the archive, and
the warnings are left out. -/
def createAction (fl : Flags) (env : CreateEnv) (d : Dirs) : Option CreateErr × Dirs :=
  let paths := createPaths fl d
  let excludes := createExcludes
  if fl.dryRun then (none, d)
  else
    let name := backupName env.hostname env.now
    match osMkdirAll (env.mkdirFails backupDir) d backupDir with
    | .error e => (some (.mkdirFailed e), d)
    | .ok d1 =>
      let backupPath := Join backupDir name
      match (createTarballDest env.dst env.faults env.lstat d1 backupPath paths excludes).err with
      | some e =>
        (some (.backupFailed e),
          (createTarballDest env.dst env.faults env.lstat d1 backupPath paths excludes).dirs)
      | none =>
        (none, (applyRetentionIn env.policy env.readFails env.removeFails
          (dispatch fl env
            (createTarballDest env.dst env.faults env.lstat d1 backupPath paths excludes).dirs
            backupPath).2).2)

/-- The function strings.ToLower on ASCII letters; no other character has the
lower case y. -/
def ToLower (s : Str) : Str := s.map Char.toLower

/-- How a run of restoreAction ends: with an error before any extraction, after
the dry-run report, after a refused confirmation, or after the call of
extractTarball, with the error of that call if any. -/
inductive RestoreOutcome where
  | failed (msg : Str)
  | dryRun (backupPath : Str)
  | cancelled (backupPath : Str)
  | extracted (backupPath : Str) (err : Option Err)
  deriving DecidableEq

/-- Whether restoreAction returns an error. -/
def RestoreOutcome.isError : RestoreOutcome → Bool
  | .failed _ => true
  | .extracted _ (some _) => true
  | _ => false

/-- The function restoreAction. The arguments after the flags are the result of
os.ReadDir(backupDir), the path returned by findUSBBackup, the word that
fmt.Scanln reads at the prompt, and the archive read at a path (none when it
cannot be opened or is not a gzip stream). The state is the file system that the
extraction writes, rooted at "/". -/
def restoreAction (fl : Flags) (readDir : Option (List Str)) (usbBackup : Str)
    (confirm : Str) (readArchive : Str → Option Archive) (umask : Nat) (fs : FS) :
    RestoreOutcome × FS :=
  match restoreSelect fl readDir usbBackup with
  | .error msg => (.failed msg, fs)
  | .ok backupPath =>
    if fl.dryRun then (.dryRun backupPath, fs)
    else if ToLower confirm ≠ "y".toList then (.cancelled backupPath, fs)
    else
      match extractTarball umask (readArchive backupPath) "/".toList fs with
      | (fs1, err) => (.extracted backupPath err, fs1)

/-- The errors that deleteAction returns. -/
inductive DeleteErr where
  | usage
  | notFound (name : Str)
  | deleteFailed (e : Err)
  deriving DecidableEq

/-- The function deleteAction on the arguments of the command line. The second
argument tells whether os.Remove fails for a cause outside the state. -/
def deleteAction (args : List Str) (removeFails : Bool) (d : Dirs) :
    Option DeleteErr × Dirs :=
  match args with
  | [] => (some .usage, d)
  | name :: _ =>
    let backupPath := Join backupDir name
    if osStat d backupPath = some .notExist then (some (.notFound name), d)
    else
      match osRemovePath removeFails d backupPath with
      | .error e => (some (.deleteFailed e), d)
      | .ok d1 => (none, d1)

/-! ## States for the examples -/

/-- The elements of the path of the backup directory. -/
def backupElems : List Str :=
  ["var".toList, "lib".toList, "maculaos".toList, "backups".toList]

/-- A state with the policy file and two archives in the backup directory, and
the mount point /mnt/usb, empty. -/
def exampleDirs : Dirs := Dirs.ofList
  [([], ["var".toList, "mnt".toList]),
   (["var".toList], ["lib".toList]),
   (["var".toList, "lib".toList], ["maculaos".toList]),
   (["var".toList, "lib".toList, "maculaos".toList],
      ["backup.yaml".toList, "backups".toList]),
   (backupElems, ["old.tar.gz".toList, "older.tar.gz".toList]),
   (["mnt".toList], ["usb".toList]),
   (["mnt".toList, "usb".toList], [])]

/-- The same state without the mount point. -/
def exampleDirsNoUSB : Dirs := Dirs.ofList
  [([], ["var".toList]),
   (["var".toList], ["lib".toList]),
   (["var".toList, "lib".toList], ["maculaos".toList]),
   (["var".toList, "lib".toList, "maculaos".toList],
      ["backup.yaml".toList, "backups".toList]),
   (backupElems, ["old.tar.gz".toList, "older.tar.gz".toList])]

/-- An environment without fault: the host node at 2024-05-06 07:08:09, a state
directory with one file, and the given policy. -/
def exampleEnv (policy : Option BackupConfig) : CreateEnv :=
  { hostname := "node".toList
    now := ⟨2024, 5, 6, 7, 8, 9⟩
    faults := Faults.none
    lstat := fun p => if p = "/var/lib/maculaos".toList then
      some (.dir 0o755 [("backup.yaml".toList, .reg 0o644 "retention: 1".toList)]) else none
    dst := DestFaults.none
    mkdirFails := fun _ => false
    cpFails := false
    policy := policy
    readFails := false
    removeFails := fun _ => false }

/-- The path of the archive that createAction writes. -/
def createBackupPath (env : CreateEnv) : Str :=
  Join backupDir (backupName env.hostname env.now)

/-- The call of createTarball in createAction: d is the state in which the roots
are selected, d1 the state after os.MkdirAll. -/
def createBuild (fl : Flags) (env : CreateEnv) (d d1 : Dirs) : TarballResult :=
  createTarballDest env.dst env.faults env.lstat d1 (createBackupPath env)
    (createPaths fl d) createExcludes

/-- A policy with the given retention. -/
def examplePolicy (retention : Int) : BackupConfig :=
  ⟨true, "0 2 * * *".toList, retention, "local".toList, [], []⟩

/-- The flags of backup create with the given target, without dry-run and
without include-data. -/
def exampleFlags (target : Str) : Flags :=
  ⟨target, "local".toList, [], false, false, false⟩

/-! ## The removals of the retention loop -/

/-- The names on which the loop of applyRetention calls os.Remove, in the order
of the calls: the loop takes the first name of the list as long as the list is
longer than the retention. -/
def retentionAttempts (retention : Int) : List Str → List Str
  | [] => []
  | oldest :: rest =>
    if ((oldest :: rest).length : Int) > retention then
      oldest :: retentionAttempts retention rest
    else []

/-! ## Archives on removable media -/

/-- The errors of findUSBBackup. -/
inductive UsbFindErr where
  | noMount
  | readDirFailed
  | noBackup
  deriving DecidableEq

/-- The loop of findUSBBackup over the entries of the directory. -/
def findUSBBackupLoop (dir : Str) : List Str → Option Str
  | [] => none
  | e :: rest => if HasSuffix e tarGz then some (Join dir e) else findUSBBackupLoop dir rest

/-- The function findUSBBackup: the path and the error that it returns. The
listing that os.ReadDir returns is sorted by file name; readFails tells whether
it fails for a cause outside the state. -/
def findUSBBackup (readFails : Bool) (d : Dirs) : Str × Option UsbFindErr :=
  let usbMount := findUSBMount d
  if usbMount = [] then ([], some .noMount)
  else
    let backupDir := Join usbMount "maculaos-backups".toList
    match osReadDir readFails d backupDir with
    | none => ([], some .readDirFailed)
    | some entries =>
      match findUSBBackupLoop backupDir (sortStrings entries) with
      | some path => (path, none)
      | none => ([], some .noBackup)

/-- A state in which the medium mounted at /mnt/usb holds two archives. -/
def exampleDirsUSB : Dirs := Dirs.ofList
  [([], ["var".toList, "mnt".toList]),
   (["mnt".toList], ["usb".toList]),
   (["mnt".toList, "usb".toList], ["maculaos-backups".toList]),
   (["mnt".toList, "usb".toList, "maculaos-backups".toList],
      ["maculaos-node-2024-02-01_00-00-00.tar.gz".toList,
       "maculaos-node-2024-01-01_00-00-00.tar.gz".toList])]

/-! ## Health watch (pkg/cli/health/health.go) -/

/-- The type HealthCheck, by the fields that handleFailure reads. -/
structure HealthCheck where
  Name : Str
  Path : Str
  MaxRestarts : Int
  Action : Str
  deriving DecidableEq

/-- The type HealthResult, by the fields that watchAction reads. -/
structure HealthResult where
  Name : Str
  Status : Str
  deriving DecidableEq

/-- What the loop of watchAction keeps and does: the map restartCounts (a
missing key reads as 0), the services restarted with rc-service and the paths
cleaned up, in the order of the commands. -/
structure WatchState where
  restartCounts : Str → Int
  restarts : List Str
  cleanups : List Str

/-- The state in which watchAction enters its loop. -/
def WatchState.init : WatchState := ⟨fun _ => 0, [], []⟩

/-- The function handleFailure. The count is raised whether or not the restart
command succeeds. -/
def handleFailure (check : HealthCheck) (st : WatchState) : WatchState :=
  if check.Action = "alert".toList then st
  else if check.Action = "restart".toList then
    if st.restartCounts check.Name ≥ check.MaxRestarts then st
    else
      { st with
        restartCounts := fun n =>
          if n = check.Name then st.restartCounts check.Name + 1 else st.restartCounts n
        restarts := st.restarts ++ [check.Name] }
  else if check.Action = "cleanup".toList then
    { st with cleanups := st.cleanups ++ [check.Path] }
  else st

/-- The function runAllChecks: one result per check, under the name of the
check; probe gives the status that the check finds. -/
def runAllChecks (checks : List HealthCheck) (probe : HealthCheck → Str) :
    List HealthResult :=
  checks.map (fun check => ⟨check.Name, probe check⟩)

/-- The inner loop of watchAction over the configuration: the first check with
the name of the result. -/
def findCheck (checks : List HealthCheck) (name : Str) : Option HealthCheck :=
  checks.find? (fun check => decide (check.Name = name))

/-- The loop of watchAction over the results of one round. -/
def watchResults (checks : List HealthCheck) : List HealthResult → WatchState → WatchState
  | [], st => st
  | result :: rest, st =>
    if result.Status ≠ "ok".toList then
      match findCheck checks result.Name with
      | some check => watchResults checks rest (handleFailure check st)
      | none => watchResults checks rest st
    else watchResults checks rest st

/-- The rounds of the loop of watchAction, one for each probe of the list; the
loop itself never ends. -/
def watchRounds (checks : List HealthCheck) : List (HealthCheck → Str) → WatchState → WatchState
  | [], st => st
  | probe :: rest, st =>
    watchRounds checks rest (watchResults checks (runAllChecks checks probe) st)

/-! ## The size of an archive in words -/

/-- The value that int64 arithmetic keeps of a result. -/
def wrapInt64 (x : Int) : Int :=
  (x + 9223372036854775808) % 18446744073709551616 - 9223372036854775808

/-- The verb %d of fmt.Sprintf on an integer. -/
def formatDecimal (x : Int) : Str :=
  if x < 0 then '-' :: decimalDigits (x.natAbs + 1) x.natAbs
  else decimalDigits (x.natAbs + 1) x.natAbs

/-- The text of formatSize: the text of a count below the unit, or for a larger
count the count, the divisor and the unit letter, of which fmt.Sprintf prints the
quotient with one decimal. -/
inductive SizeText where
  | plain (text : Str)
  | scaled (bytes div : Int) (letter : Char)
  deriving DecidableEq

/-- How an evaluation of formatSize ends: with its text, or when the loop does
not end within the steps allowed, or when the index into the unit letters is
out of range (a run-time panic). -/
inductive FormatResult where
  | text (t : SizeText)
  | outOfFuel
  | indexOutOfRange
  deriving DecidableEq

/-- The loop of formatSize, for at most fuel tests of its condition: the
divisor and the exponent when it ends. -/
def formatLoop : Nat → Int → Int → Nat → Option (Int × Nat)
  | 0, _, _, _ => none
  | fuel + 1, n, div, exp =>
    if n ≥ 1024 then formatLoop fuel (Int.tdiv n 1024) (wrapInt64 (div * 1024)) (exp + 1)
    else some (div, exp)

/-- The function formatSize, for at most fuel tests of the loop condition. -/
def formatSize (fuel : Nat) (bytes : Int) : FormatResult :=
  if bytes < 1024 then .text (.plain (formatDecimal bytes ++ " B".toList))
  else
    match formatLoop fuel (Int.tdiv bytes 1024) 1024 0 with
    | none => .outOfFuel
    | some (div, exp) =>
      match "KMGTPE".toList[exp]? with
      | none => .indexOutOfRange
      | some letter => .text (.scaled bytes div letter)

/-! ## Archives for the examples -/

/-- An archive whose second entry breaks off: the directory /a, the file /a/f
announced with five bytes of which the stream holds two, and the directory
/b. -/
def exampleBrokenArchive : Archive :=
  ⟨[⟨⟨"/a".toList, .TypeDir, 0o755, 0⟩, []⟩,
    ⟨⟨"/a/f".toList, .TypeReg, 0o644, 5⟩, "xy".toList⟩,
    ⟨⟨"/b".toList, .TypeDir, 0o755, 0⟩, []⟩], true⟩

/-! ## States for the examples of retention after a create -/

/-- A state whose backup directory holds one archive of the host zeta, written
in 2020. -/
def exampleDirsOtherHost : Dirs := Dirs.ofList
  [([], ["var".toList]),
   (["var".toList], ["lib".toList]),
   (["var".toList, "lib".toList], ["maculaos".toList]),
   (["var".toList, "lib".toList, "maculaos".toList],
      ["backup.yaml".toList, "backups".toList]),
   (backupElems, ["maculaos-zeta-2020-01-01_00-00-00.tar.gz".toList])]

/-- A state whose backup directory holds two earlier archives of the host node
and a file of notes. -/
def exampleDirsSameHost : Dirs := Dirs.ofList
  [([], ["var".toList]),
   (["var".toList], ["lib".toList]),
   (["var".toList, "lib".toList], ["maculaos".toList]),
   (["var".toList, "lib".toList, "maculaos".toList],
      ["backup.yaml".toList, "backups".toList]),
   (backupElems,
      ["maculaos-node-2024-05-05_07-08-09.tar.gz".toList, "notes.txt".toList,
       "maculaos-node-2023-12-31_23-59-59.tar.gz".toList])]

theorem Contains_iff (s sub : Str) : Contains s sub = true ↔ sub <:+: s := by
  unfold Contains
  rw [List.any_eq_true]
  constructor
  · rintro ⟨t, ht, hp⟩
    rw [List.mem_tails] at ht
    rw [ List.isPrefixOf_iff_prefix] at hp
    exact List.infix_iff_prefix_suffix.mpr ⟨t, hp, ht⟩
  · intro h
    obtain ⟨t, hp, ht⟩ := List.infix_iff_prefix_suffix.mp h
    exact ⟨t, (List.mem_tails _ _).mpr ht, List.isPrefixOf_iff_prefix.mpr hp⟩

theorem Base_infix (p : Str) (hp : p ≠ []) : Base p <:+: p := by
  unfold Base
  simp only [hp, if_false]
  have hs : (p.reverse.dropWhile (· == '/')).reverse <+: p := by
    have := List.dropWhile_suffix (fun c : Char => c == '/') (l := p.reverse)
    have h2 := List.reverse_prefix.mpr this
    simpa using h2
  have hl : ((p.reverse.dropWhile (· == '/')).takeWhile (· != '/')).reverse <:+
      (p.reverse.dropWhile (· == '/')).reverse := by
    apply List.reverse_suffix.mpr
    exact List.takeWhile_prefix _
  split
  · rename_i hnil
    -- the stripped path is empty: the path consists of separators only
    have hstripped : p.reverse.dropWhile (· == '/') = [] := by
      rcases hd : p.reverse.dropWhile (· == '/') with _ | ⟨c, cs⟩
      · rfl
      · exfalso
        have hc : ¬ ((c == '/') = true) := by
          have := List.head_dropWhile_not (fun c : Char => c == '/') p.reverse
            (by rw [hd]; simp)
          simpa [hd] using this
        rw [hd] at hnil
        simp only [List.reverse_eq_nil_iff] at hnil
        rw [List.takeWhile_cons] at hnil
        simp at hc
        simp [hc] at hnil
    have hall : ∀ c ∈ p.reverse, (c == '/') = true := by
      have := List.dropWhile_eq_nil_iff.mp hstripped
      exact this
    rcases hrev : p.reverse with _ | ⟨c, cs⟩
    · simp at hrev; exact absurd hrev hp
    · have hc : c = '/' := by
        have := hall c (by rw [hrev]; simp)
        simpa using this
      have : ['/'] <+: p.reverse := by
        rw [hrev, hc]; exact ⟨cs, rfl⟩
      have h3 := List.reverse_suffix.mpr (by simpa using this : ['/'].reverse.reverse <+: p.reverse)
      simpa using h3.isInfix
  · exact hl.isInfix.trans hs.isInfix

theorem specPatternMatches_star (p b x : Str) :
    specPatternMatches p b ('*' :: x) = HasSuffix b x := rfl

theorem specPatternMatches_other (p b e : Str) (h : HasPrefix e ['*'] = false) :
    specPatternMatches p b e = Contains p e := by
  rcases e with _ | ⟨c, x⟩
  · rfl
  · have hc : c ≠ '*' := by
      intro hc
      subst hc
      simp [HasPrefix, List.isPrefixOf] at h
    unfold specPatternMatches
    split
    · rename_i heq
      injection heq with h1 h2
      exact absurd h1 hc
    · rfl

/-- C2, as stated, fails: the directory element "*.log" makes the full path of
a.txt contain the pattern "*.log", so the builder's test is true, while the base
name a.txt does not end with ".log". -/
theorem excludeTest_not_spec_rule :
    excludeTest "/state/*.log/a.txt".toList "*.log".toList = true ∧
    specPatternMatches "/state/*.log/a.txt".toList
      (Base "/state/*.log/a.txt".toList) "*.log".toList = false := by
  decide

/-- C2, amended: for every non-empty full path p with base name Base p and every
pattern e, the builder's test is true exactly when the rule of the specification
matches or e occurs as a substring of p; for a pattern that does not start with
an asterisk, that is exactly when e occurs in p. -/
theorem excludeTest_eq_spec_or_contains (p e : Str) (hp : p ≠ []) :
    excludeTest p e = (specPatternMatches p (Base p) e || Contains p e) ∧
    (HasPrefix e ['*'] = false → excludeTest p e = Contains p e) := by
  have hother : HasPrefix e ['*'] = false → excludeTest p e = Contains p e := by
    intro h
    unfold excludeTest matchGlob
    rw [h]
    simp only [Bool.false_eq_true, if_false]
    cases hb : (Base p == e)
    · simp
    · have : Base p = e := by simpa using hb
      have hc : Contains p e = true := by
        rw [Contains_iff, ← this]
        exact Base_infix p hp
      simp [hc]
  refine ⟨?_, hother⟩
  cases h : HasPrefix e ['*']
  · rw [hother h, specPatternMatches_other p (Base p) e h, Bool.or_self]
  · rcases e with _ | ⟨c, x⟩
    · simp [HasPrefix, List.isPrefixOf] at h
    · have hc : c = '*' := by
        have : '*' = c := by simpa [HasPrefix, List.isPrefixOf] using h
        exact this.symm
      subst hc
      rw [specPatternMatches_star]
      unfold excludeTest matchGlob
      rw [h]
      simp only [if_true, List.drop_succ_cons, List.drop_zero]
      exact Bool.or_comm _ _

theorem excludeTest_eq_spec_or_contains_witness :
    "/state/b.log".toList ≠ [] ∧
    excludeTest "/state/b.log".toList "*.log".toList =
      (specPatternMatches "/state/b.log".toList (Base "/state/b.log".toList) "*.log".toList ||
        Contains "/state/b.log".toList "*.log".toList) :=
  ⟨by decide, (excludeTest_eq_spec_or_contains _ _ (by decide)).1⟩

/-! ## Catalog: listing and selection -/

theorem HasSuffix_iff (s suf : Str) : HasSuffix s suf = true ↔ suf <:+ s := by
  unfold HasSuffix
  exact List.isSuffixOf_iff_suffix

theorem sortStrings_perm (l : List Str) : (sortStrings l).Perm l :=
  List.perm_insertionSort _ l

theorem sortStrings_sorted (l : List Str) : (sortStrings l).Sorted (· ≤ ·) :=
  List.sorted_insertionSort _ l

theorem mem_sortStrings (l : List Str) (a : Str) : a ∈ sortStrings l ↔ a ∈ l :=
  (sortStrings_perm l).mem_iff

theorem mem_archivesOf (dir : List Str) (a : Str) :
    a ∈ archivesOf dir ↔ a ∈ dir ∧ HasSuffix a tarGz = true := by
  unfold archivesOf
  simp [List.mem_filter]

theorem listLocalBackups_some (entries : List Str) :
    listLocalBackups (some entries) = some (sortStrings (archivesOf entries)) := rfl

theorem sorted_archives_strict (entries : List Str) (hnd : entries.Nodup) :
    (sortStrings (archivesOf entries)).Sorted (· < ·) := by
  apply List.Sorted.lt_of_le (sortStrings_sorted _)
  exact (sortStrings_perm _).nodup_iff.mpr (hnd.filter _)

/-- C8: for every content of the backup directory (entry names pairwise
distinct), listLocalBackups returns exactly the entry names that end in .tar.gz,
each once, in strictly ascending lexicographic order. -/
theorem listLocalBackups_exact_sorted (entries : List Str) (hnd : entries.Nodup) :
    ∃ backups, listLocalBackups (some entries) = some backups ∧
      (∀ name, name ∈ backups ↔ name ∈ entries ∧ HasSuffix name tarGz = true) ∧
      backups.Nodup ∧ backups.Sorted (· < ·) := by
  refine ⟨sortStrings (archivesOf entries), rfl, ?_, ?_, sorted_archives_strict entries hnd⟩
  · intro name
    rw [mem_sortStrings, mem_archivesOf]
  · exact (sortStrings_perm _).nodup_iff.mpr (hnd.filter _)

theorem listLocalBackups_exact_sorted_witness :
    ∃ backups, listLocalBackups (some ["b.tar.gz".toList, "notes".toList, "a.tar.gz".toList])
        = some backups ∧
      (∀ name, name ∈ backups ↔
        name ∈ ["b.tar.gz".toList, "notes".toList, "a.tar.gz".toList] ∧
          HasSuffix name tarGz = true) ∧
      backups.Nodup ∧ backups.Sorted (· < ·) :=
  listLocalBackups_exact_sorted ["b.tar.gz".toList, "notes".toList, "a.tar.gz".toList]
    (by decide)

theorem sorted_le_last (l : List Str) (hs : l.Sorted (· ≤ ·)) (a : Str) (ha : a ∈ l) :
    a ≤ l.getD (l.length - 1) [] := by
  obtain ⟨i, hi, rfl⟩ := List.mem_iff_getElem.mp ha
  have hlast : l.length - 1 < l.length := by omega
  rw [List.getD_eq_getElem l [] hlast]
  have := hs.rel_get_of_le (a := ⟨i, hi⟩) (b := ⟨l.length - 1, hlast⟩)
    (by simp only [Fin.mk_le_mk]; omega)
  simpa using this

theorem last_mem (l : List Str) (hne : l ≠ []) : l.getD (l.length - 1) [] ∈ l := by
  have hlast : l.length - 1 < l.length := by
    have := List.length_pos.mpr hne
    omega
  rw [List.getD_eq_getElem l [] hlast]
  exact List.getElem_mem _

/-- C6: when the backup directory holds at least one archive, restore from the
local source with the latest selector resolves to the path, in the backup
directory, of the archive whose name is the greatest among those present. -/
theorem restoreSelect_latest_greatest (fl : Flags) (entries : List Str) (usbBackup : Str)
    (hsrc : fl.restoreSource = "local".toList) (hlatest : fl.restoreLatest = true)
    (hne : ∃ a ∈ entries, HasSuffix a tarGz = true) :
    ∃ b, restoreSelect fl (some entries) usbBackup = .ok (Join backupDir b) ∧
      b ∈ entries ∧ HasSuffix b tarGz = true ∧
      ∀ a ∈ entries, HasSuffix a tarGz = true → a ≤ b := by
  obtain ⟨a0, ha0, hs0⟩ := hne
  have hmem0 : a0 ∈ sortStrings (archivesOf entries) := by
    rw [mem_sortStrings, mem_archivesOf]; exact ⟨ha0, hs0⟩
  have hnil : sortStrings (archivesOf entries) ≠ [] := List.ne_nil_of_mem hmem0
  have hlen : (sortStrings (archivesOf entries)).length ≠ 0 := by
    intro h; exact hnil (List.length_eq_zero.mp h)
  refine ⟨(sortStrings (archivesOf entries)).getD
    ((sortStrings (archivesOf entries)).length - 1) [], ?_, ?_, ?_, ?_⟩
  · unfold restoreSelect
    rw [if_pos hsrc, listLocalBackups_some]
    simp only [hlen, if_false, hlatest, if_true]
  · have := last_mem _ hnil
    rw [mem_sortStrings, mem_archivesOf] at this
    exact this.1
  · have := last_mem _ hnil
    rw [mem_sortStrings, mem_archivesOf] at this
    exact this.2
  · intro a ha hs
    apply sorted_le_last _ (sortStrings_sorted _)
    rw [mem_sortStrings, mem_archivesOf]; exact ⟨ha, hs⟩

theorem restoreSelect_latest_greatest_witness :
    ∃ b, restoreSelect ⟨[], "local".toList, [], true, false, false⟩
        (some ["b.tar.gz".toList, "c.tar.gz".toList, "a.tar.gz".toList]) [] =
          .ok (Join backupDir b) ∧
      b ∈ ["b.tar.gz".toList, "c.tar.gz".toList, "a.tar.gz".toList] ∧
      HasSuffix b tarGz = true ∧
      ∀ a ∈ ["b.tar.gz".toList, "c.tar.gz".toList, "a.tar.gz".toList],
        HasSuffix a tarGz = true → a ≤ b :=
  restoreSelect_latest_greatest ⟨[], "local".toList, [], true, false, false⟩
    ["b.tar.gz".toList, "c.tar.gz".toList, "a.tar.gz".toList] [] rfl rfl
    ⟨"b.tar.gz".toList, by decide, by decide⟩

theorem isRooted_backupDir_append (s : Str) : isRooted (backupDir ++ s) = true := by
  simp [isRooted, HasPrefix, backupDir, List.isPrefixOf]

theorem Join_backupDir_ne_nil (b : Str) : Join backupDir b ≠ [] := by
  unfold Join
  have h0 : backupDir ≠ [] := by decide
  rw [if_neg h0]
  split
  · unfold Clean
    have := isRooted_backupDir_append []
    rw [List.append_nil] at this
    simp [this]
  · unfold Clean
    simp [isRooted_backupDir_append]

theorem findByDate_none (date : Str) (l : List Str)
    (h : ∀ b ∈ l, Contains b date = false) : findByDate date l = [] := by
  induction l with
  | nil => rfl
  | cons b rest ih =>
    have hb : Contains b date = false := h b (by simp)
    simp only [findByDate, hb, Bool.false_eq_true, if_false]
    exact ih (fun x hx => h x (by simp [hx]))

theorem findByDate_first (date : Str) (l : List Str)
    (h : ∃ b ∈ l, Contains b date = true) :
    ∃ pre b post, l = pre ++ b :: post ∧ (∀ a ∈ pre, Contains a date = false) ∧
      Contains b date = true ∧ findByDate date l = Join backupDir b := by
  induction l with
  | nil => obtain ⟨b, hb, _⟩ := h; simp at hb
  | cons c rest ih =>
    cases hc : Contains c date
    · obtain ⟨b, hb, hbd⟩ := h
      have hb2 : b ∈ rest := by
        rcases List.mem_cons.mp hb with rfl | hb2
        · rw [hc] at hbd; cases hbd
        · exact hb2
      obtain ⟨pre, b1, post, hl, hpre, hb1, hf⟩ := ih ⟨b, hb2, hbd⟩
      refine ⟨c :: pre, b1, post, by rw [hl]; rfl, ?_, hb1, ?_⟩
      · intro a ha
        rcases List.mem_cons.mp ha with rfl | ha2
        · exact hc
        · exact hpre a ha2
      · simp only [findByDate, hc, Bool.false_eq_true, if_false]
        exact hf
    · exact ⟨[], c, rest, rfl, by simp, hc, by simp [findByDate, hc]⟩

/-- C7: restore from the local source by date (no latest selector, non-empty
date token). When some archive name contains the token, the archive resolved is
the first one, in ascending name order, whose name contains it; otherwise (also
with no archive at all) restoreAction fails with one of its two not-found
errors. The failure occurs exactly when no archive name contains the token. -/
theorem restoreSelect_by_date (fl : Flags) (entries : List Str) (usbBackup : Str)
    (hsrc : fl.restoreSource = "local".toList) (hlatest : fl.restoreLatest = false)
    (hdate : fl.restoreDate ≠ []) :
    ((∃ a ∈ entries, HasSuffix a tarGz = true ∧ Contains a fl.restoreDate = true) →
      ∃ b, restoreSelect fl (some entries) usbBackup = .ok (Join backupDir b) ∧
        b ∈ entries ∧ HasSuffix b tarGz = true ∧ Contains b fl.restoreDate = true ∧
        ∀ a ∈ entries, HasSuffix a tarGz = true → Contains a fl.restoreDate = true → b ≤ a) ∧
    ((¬ ∃ a ∈ entries, HasSuffix a tarGz = true ∧ Contains a fl.restoreDate = true) →
      restoreSelect fl (some entries) usbBackup = .error "no local backups found".toList ∨
      restoreSelect fl (some entries) usbBackup =
        .error ("no backup found for date: ".toList ++ fl.restoreDate)) ∧
    ((∃ msg, restoreSelect fl (some entries) usbBackup = .error msg) ↔
      ¬ ∃ a ∈ entries, HasSuffix a tarGz = true ∧ Contains a fl.restoreDate = true) := by
  have hfound : (∃ a ∈ entries, HasSuffix a tarGz = true ∧ Contains a fl.restoreDate = true) →
      ∃ b, restoreSelect fl (some entries) usbBackup = .ok (Join backupDir b) ∧
        b ∈ entries ∧ HasSuffix b tarGz = true ∧ Contains b fl.restoreDate = true ∧
        ∀ a ∈ entries, HasSuffix a tarGz = true → Contains a fl.restoreDate = true → b ≤ a := by
    rintro ⟨a0, ha0, hs0, hc0⟩
    have hmem0 : a0 ∈ sortStrings (archivesOf entries) := by
      rw [mem_sortStrings, mem_archivesOf]; exact ⟨ha0, hs0⟩
    have hlen : (sortStrings (archivesOf entries)).length ≠ 0 := by
      intro h; exact List.ne_nil_of_mem hmem0 (List.length_eq_zero.mp h)
    obtain ⟨pre, b, post, hl, hpre, hb, hf⟩ :=
      findByDate_first fl.restoreDate (sortStrings (archivesOf entries)) ⟨a0, hmem0, hc0⟩
    have hbmem : b ∈ sortStrings (archivesOf entries) := by rw [hl]; simp
    have hbmem2 := hbmem
    rw [mem_sortStrings, mem_archivesOf] at hbmem2
    refine ⟨b, ?_, hbmem2.1, hbmem2.2, hb, ?_⟩
    · unfold restoreSelect
      rw [if_pos hsrc, listLocalBackups_some]
      simp only [hlen, if_false, hlatest, Bool.false_eq_true, hdate, ne_eq, not_false_eq_true,
        if_true, hf, Join_backupDir_ne_nil]
    · intro a ha hs hc
      have hamem : a ∈ sortStrings (archivesOf entries) := by
        rw [mem_sortStrings, mem_archivesOf]; exact ⟨ha, hs⟩
      have hsorted := sortStrings_sorted (archivesOf entries)
      rw [hl] at hamem hsorted
      rcases List.mem_append.mp hamem with h1 | h2
      · rw [hpre a h1] at hc; cases hc
      · rcases List.mem_cons.mp h2 with rfl | h3
        · exact le_refl _
        · have := (List.pairwise_append.mp hsorted).2.1
          exact List.rel_of_pairwise_cons this h3
  have hnot : (¬ ∃ a ∈ entries, HasSuffix a tarGz = true ∧ Contains a fl.restoreDate = true) →
      restoreSelect fl (some entries) usbBackup = .error "no local backups found".toList ∨
      restoreSelect fl (some entries) usbBackup =
        .error ("no backup found for date: ".toList ++ fl.restoreDate) := by
    intro hno
    have hnone : findByDate fl.restoreDate (sortStrings (archivesOf entries)) = [] := by
      apply findByDate_none
      intro b hbm
      rw [mem_sortStrings, mem_archivesOf] at hbm
      cases hc : Contains b fl.restoreDate
      · rfl
      · exact absurd ⟨b, hbm.1, hbm.2, hc⟩ hno
    unfold restoreSelect
    rw [if_pos hsrc, listLocalBackups_some]
    by_cases hlen : (sortStrings (archivesOf entries)).length = 0
    · left; simp only [hlen, if_true]
    · right
      simp only [hlen, if_false, hlatest, Bool.false_eq_true, hdate, ne_eq, not_false_eq_true,
        if_true, hnone]
  refine ⟨hfound, hnot, ?_⟩
  constructor
  · rintro ⟨msg, hmsg⟩ hex
    obtain ⟨b, hb, _⟩ := hfound hex
    rw [hb] at hmsg
    cases hmsg
  · intro hno
    rcases hnot hno with h | h
    · exact ⟨_, h⟩
    · exact ⟨_, h⟩

theorem restoreSelect_by_date_witness :
    ∃ b, restoreSelect ⟨[], "local".toList, "01-05".toList, false, false, false⟩
        (some ["m-2024-01-05.tar.gz".toList, "m-2024-01-04.tar.gz".toList]) [] =
          .ok (Join backupDir b) ∧
      b ∈ ["m-2024-01-05.tar.gz".toList, "m-2024-01-04.tar.gz".toList] ∧
      HasSuffix b tarGz = true ∧ Contains b "01-05".toList = true ∧
      ∀ a ∈ ["m-2024-01-05.tar.gz".toList, "m-2024-01-04.tar.gz".toList],
        HasSuffix a tarGz = true → Contains a "01-05".toList = true → b ≤ a :=
  (restoreSelect_by_date ⟨[], "local".toList, "01-05".toList, false, false, false⟩
    [ "m-2024-01-05.tar.gz".toList, "m-2024-01-04.tar.gz".toList] [] rfl rfl (by decide)).1
    ⟨"m-2024-01-05.tar.gz".toList, by decide, by decide, by decide⟩

/-! ## Retention -/

theorem retentionLoop_eq (n : Nat) (removeFails : Str → Bool) (backups : List Str) :
    ∀ dir : List Str, (∀ a ∈ backups, removeFails a = false) →
      retentionLoop (n : Int) removeFails backups dir =
        dir.filter (fun e => decide (e ∉ backups.take (backups.length - n))) := by
  induction backups with
  | nil => intro dir _; simp [retentionLoop]
  | cons oldest rest ih =>
    intro dir hok
    unfold retentionLoop
    by_cases hgt : ((oldest :: rest).length : Int) > (n : Int)
    · rw [if_pos hgt]
      have hlen : n ≤ rest.length := by
        have : (n : Int) < ((rest.length + 1 : Nat) : Int) := by simpa using hgt
        omega
      have hrm : osRemove removeFails dir oldest = dir.filter (fun e => decide (e ≠ oldest)) := by
        unfold osRemove
        rw [hok oldest (by simp)]
        simp
      rw [hrm, ih _ (fun a ha => hok a (by simp [ha])), List.filter_filter]
      have htake : (oldest :: rest).length - n = (rest.length - n) + 1 := by
        simp only [List.length_cons]; omega
      rw [htake, List.take_succ_cons]
      apply List.filter_congr
      intro e _
      simp only [List.mem_cons, not_or, Bool.decide_and, ne_eq]
      exact Bool.and_comm _ _
    · rw [if_neg hgt]
      have hlen : (oldest :: rest).length - n = 0 := by
        have : ¬ ((n : Int) < (((oldest :: rest).length : Nat) : Int)) := hgt
        omega
      rw [hlen]
      simp

theorem retained_archives_perm (n : Nat) (dir : List Str) (hnd : dir.Nodup) :
    (archivesOf (dir.filter (fun e => decide (e ∉ (sortStrings (archivesOf dir)).take
      ((sortStrings (archivesOf dir)).length - n))))).Perm
      ((sortStrings (archivesOf dir)).drop ((sortStrings (archivesOf dir)).length - n)) := by
  have hLnd : (sortStrings (archivesOf dir)).Nodup :=
    (sortStrings_perm _).nodup_iff.mpr (hnd.filter _)
  have hsplit := List.take_append_drop ((sortStrings (archivesOf dir)).length - n)
    (sortStrings (archivesOf dir))
  have hdisj : ∀ a, a ∈ (sortStrings (archivesOf dir)).take
      ((sortStrings (archivesOf dir)).length - n) →
      a ∈ (sortStrings (archivesOf dir)).drop ((sortStrings (archivesOf dir)).length - n) →
      False := by
    intro a h1 h2
    rw [← hsplit] at hLnd
    exact (List.nodup_append.mp hLnd).2.2 h1 h2
  have hnd2 : (archivesOf (dir.filter (fun e => decide (e ∉ (sortStrings (archivesOf dir)).take
      ((sortStrings (archivesOf dir)).length - n))))).Nodup := by
    unfold archivesOf
    exact (hnd.filter _).filter _
  rw [List.perm_ext_iff_of_nodup hnd2 (hLnd.sublist (List.drop_sublist _ _))]
  intro a
  rw [mem_archivesOf, List.mem_filter]
  constructor
  · rintro ⟨⟨hd, hnt⟩, hs⟩
    have hnt2 : a ∉ (sortStrings (archivesOf dir)).take
        ((sortStrings (archivesOf dir)).length - n) := by simpa using hnt
    have hL : a ∈ sortStrings (archivesOf dir) := by
      rw [mem_sortStrings, mem_archivesOf]; exact ⟨hd, hs⟩
    rw [← hsplit] at hL
    rcases List.mem_append.mp hL with h | h
    · exact absurd h hnt2
    · exact h
  · intro h
    have hL : a ∈ sortStrings (archivesOf dir) := List.mem_of_mem_drop h
    rw [mem_sortStrings, mem_archivesOf] at hL
    refine ⟨⟨hL.1, ?_⟩, hL.2⟩
    simp only [decide_eq_true_eq]
    exact fun ht => hdisj a ht h

/-- C4: for every retention limit n > 0 read from the policy and every content
of the backup directory (entry names pairwise distinct) whose removals succeed,
applyRetention returns no error and leaves exactly min(n, prior count) archives;
they are archives that were there before, every archive that was removed is
smaller by name than every archive that is kept, and the entries that are not
archives stay. -/
theorem applyRetention_keeps_greatest (cfg : BackupConfig) (n : Nat)
    (removeFails : Str → Bool) (dir : List Str)
    (hn : 0 < n) (hcfg : cfg.Retention = (n : Int)) (hnd : dir.Nodup)
    (hok : ∀ a ∈ dir, removeFails a = false) :
    (applyRetention (some cfg) false removeFails dir).1 = false ∧
    (archivesOf (applyRetention (some cfg) false removeFails dir).2).length =
      min n (archivesOf dir).length ∧
    (∀ a ∈ archivesOf (applyRetention (some cfg) false removeFails dir).2,
      a ∈ archivesOf dir) ∧
    (∀ a ∈ archivesOf (applyRetention (some cfg) false removeFails dir).2,
      ∀ b ∈ archivesOf dir,
        b ∉ archivesOf (applyRetention (some cfg) false removeFails dir).2 → b < a) ∧
    (∀ e ∈ dir, HasSuffix e tarGz = false →
      e ∈ (applyRetention (some cfg) false removeFails dir).2) := by
  have hpos : ¬ cfg.Retention ≤ 0 := by rw [hcfg]; omega
  have hrun : applyRetention (some cfg) false removeFails dir =
      (false, dir.filter (fun e => decide (e ∉ (sortStrings (archivesOf dir)).take
        ((sortStrings (archivesOf dir)).length - n)))) := by
    unfold applyRetention
    simp only [hpos, if_false, Bool.false_eq_true, listLocalBackups_some]
    rw [hcfg, retentionLoop_eq n removeFails _ dir]
    intro a ha
    rw [mem_sortStrings, mem_archivesOf] at ha
    exact hok a ha.1
  rw [hrun]
  have hperm := retained_archives_perm n dir hnd
  have hsorted := sorted_archives_strict dir hnd
  have hsplit := List.take_append_drop ((sortStrings (archivesOf dir)).length - n)
    (sortStrings (archivesOf dir))
  refine ⟨rfl, ?_, ?_, ?_, ?_⟩
  · rw [hperm.length_eq, List.length_drop, (sortStrings_perm (archivesOf dir)).length_eq]
    omega
  · intro a ha
    have := List.mem_of_mem_drop (hperm.mem_iff.mp ha)
    exact (mem_sortStrings _ _).mp this
  · intro a ha b hb hnb
    have ha2 := hperm.mem_iff.mp ha
    have hb2 : b ∈ sortStrings (archivesOf dir) := (mem_sortStrings _ _).mpr hb
    have hb3 : b ∉ (sortStrings (archivesOf dir)).drop
        ((sortStrings (archivesOf dir)).length - n) := fun h => hnb (hperm.mem_iff.mpr h)
    rw [← hsplit] at hb2 hsorted
    rcases List.mem_append.mp hb2 with h | h
    · exact (List.pairwise_append.mp hsorted).2.2 b h a ha2
    · exact absurd h hb3
  · intro e he hs
    rw [List.mem_filter]
    refine ⟨he, ?_⟩
    simp only [decide_eq_true_eq]
    intro ht
    have := List.mem_of_mem_take ht
    rw [mem_sortStrings, mem_archivesOf] at this
    rw [this.2] at hs
    cases hs

theorem applyRetention_keeps_greatest_witness :
    (archivesOf (applyRetention (some ⟨true, [], 2, [], [], []⟩) false (fun _ => false)
      ["A.tar.gz".toList, "B.tar.gz".toList, "C.tar.gz".toList, "D.tar.gz".toList]).2) =
      ["C.tar.gz".toList, "D.tar.gz".toList] ∧
    (archivesOf (applyRetention (some ⟨true, [], 2, [], [], []⟩) false (fun _ => false)
      ["A.tar.gz".toList, "B.tar.gz".toList, "C.tar.gz".toList, "D.tar.gz".toList]).2).length =
      min 2 (archivesOf
        ["A.tar.gz".toList, "B.tar.gz".toList, "C.tar.gz".toList, "D.tar.gz".toList]).length :=
  ⟨by decide,
    (applyRetention_keeps_greatest ⟨true, [], 2, [], [], []⟩ 2 (fun _ => false)
      ["A.tar.gz".toList, "B.tar.gz".toList, "C.tar.gz".toList, "D.tar.gz".toList]
      (by decide) rfl (by decide) (fun _ _ => rfl)).2.1⟩

/-! ## Archive naming -/

theorem lex_append_of_lex_same_length :
    ∀ (a b r s : Str), List.Lex (· < ·) a b → a.length = b.length →
      List.Lex (· < ·) (a ++ r) (b ++ s)
  | [], [], _, _, h, _ => absurd h (List.Lex.not_nil_right _ _)
  | [], _ :: _, _, _, _, hl => by simp at hl
  | _ :: _, [], _, _, _, hl => by simp at hl
  | c :: a, d :: b, r, s, h, hl => by
    cases h with
    | cons h1 =>
      exact List.Lex.cons (lex_append_of_lex_same_length a b r s h1 (by simpa using hl))
    | rel h1 => exact List.Lex.rel h1

theorem lt_append_of_lt_same_length (a b r s : Str) (h : a < b)
    (hl : a.length = b.length) : a ++ r < b ++ s :=
  lex_append_of_lex_same_length a b r s h hl

theorem append_lt_append_left (a r s : Str) (h : r < s) : a ++ r < a ++ s :=
  List.Lex.append_left _ h a

theorem cons_lt_cons_same (c : Char) (r s : Str) (h : r < s) : c :: r < c :: s :=
  List.Lex.cons h

theorem fixedDigits_length (w x : Nat) : (fixedDigits w x).length = w := by
  induction w generalizing x with
  | zero => rfl
  | succ w ih => simp [fixedDigits, ih]

theorem fixedDigits_zero (w : Nat) : fixedDigits w 0 = List.replicate w '0' := by
  induction w with
  | zero => rfl
  | succ w ih =>
    simp only [fixedDigits, Nat.zero_div, Nat.zero_mod, ih]
    rw [List.replicate_succ']
    rfl

theorem decimalDigits_pad (w : Nat) :
    ∀ x fuel : Nat, x < 10 ^ (w + 1) → x < fuel →
      List.replicate (w + 1 - (decimalDigits fuel x).length) '0' ++ decimalDigits fuel x =
        fixedDigits (w + 1) x := by
  induction w with
  | zero =>
    intro x fuel hx hf
    obtain ⟨f, rfl⟩ : ∃ f, fuel = f + 1 := ⟨fuel - 1, by omega⟩
    have hx10 : x < 10 := by simpa using hx
    simp [decimalDigits, hx10, fixedDigits, Nat.mod_eq_of_lt hx10]
  | succ w ih =>
    intro x fuel hx hf
    obtain ⟨f, rfl⟩ : ∃ f, fuel = f + 1 := ⟨fuel - 1, by omega⟩
    by_cases hx10 : x < 10
    · have hdiv : x / 10 = 0 := Nat.div_eq_of_lt hx10
      simp only [decimalDigits, hx10, if_true, List.length_singleton, Nat.add_sub_cancel]
      rw [fixedDigits, hdiv, fixedDigits_zero, Nat.mod_eq_of_lt hx10]
    · have hdiv : x / 10 < 10 ^ (w + 1) := by
        apply Nat.div_lt_of_lt_mul
        rw [pow_succ] at hx
        omega
      have hfuel : x / 10 < f := by omega
      have := ih (x / 10) f hdiv hfuel
      simp only [decimalDigits, hx10, if_false, List.length_append, List.length_singleton,
        Nat.add_sub_add_right]
      rw [fixedDigits, ← this, List.append_assoc]

theorem appendInt_eq_fixedDigits (w x : Nat) (hx : x < 10 ^ (w + 1)) :
    appendInt x (w + 1) = fixedDigits (w + 1) x := by
  unfold appendInt
  exact decimalDigits_pad w x (x + 1) hx (Nat.lt_succ_self x)

theorem digitChar_lt (a b : Nat) (hab : a < b) (hb : b < 10) :
    Nat.digitChar a < Nat.digitChar b := by
  interval_cases b <;> interval_cases a <;> decide

theorem fixedDigits_lt (w : Nat) :
    ∀ x y : Nat, x < y → y < 10 ^ w → fixedDigits w x < fixedDigits w y := by
  induction w with
  | zero => intro x y hxy hy; simp at hy; omega
  | succ w ih =>
    intro x y hxy hy
    have hydiv : y / 10 < 10 ^ w := by
      apply Nat.div_lt_of_lt_mul
      rw [pow_succ] at hy
      omega
    simp only [fixedDigits]
    rcases Nat.lt_or_ge (x / 10) (y / 10) with hlt | hge
    · exact lt_append_of_lt_same_length _ _ _ _ (ih _ _ hlt hydiv)
        (by rw [fixedDigits_length, fixedDigits_length])
    · have heq : x / 10 = y / 10 := by omega
      rw [heq]
      apply append_lt_append_left
      have hmod : x % 10 < y % 10 := by omega
      exact List.Lex.rel (digitChar_lt _ _ hmod (Nat.mod_lt _ (by norm_num)))

/-- Comparison of two names at one zero-padded field: a smaller field decides,
an equal field defers to what follows. -/
theorem field_lt (w x y : Nat) (r s : Str) (hy : y < 10 ^ (w + 1)) (hx : x < 10 ^ (w + 1))
    (h : x < y ∨ (x = y ∧ r < s)) :
    appendInt x (w + 1) ++ r < appendInt y (w + 1) ++ s := by
  rw [appendInt_eq_fixedDigits w x hx, appendInt_eq_fixedDigits w y hy]
  rcases h with h | ⟨rfl, h⟩
  · exact lt_append_of_lt_same_length _ _ _ _ (fixedDigits_lt _ _ _ h hy)
      (by rw [fixedDigits_length, fixedDigits_length])
  · exact append_lt_append_left _ _ _ h

theorem Format_lt (t u : Time) (ht : t.inRange) (hu : u.inRange) (h : t.before u) (e : Str) :
    Format t ++ e < Format u ++ e := by
  obtain ⟨ht1, ht2, ht3, ht4, ht5, ht6⟩ := ht
  obtain ⟨hu1, hu2, hu3, hu4, hu5, hu6⟩ := hu
  unfold Format
  simp only [List.append_assoc, List.cons_append]
  unfold Time.before at h
  apply field_lt 3 _ _ _ _ hu1 ht1
  rcases h with h | ⟨h0, h⟩
  · exact Or.inl h
  refine Or.inr ⟨h0, cons_lt_cons_same _ _ _ ?_⟩
  apply field_lt 1 _ _ _ _ hu2 ht2
  rcases h with h | ⟨h0, h⟩
  · exact Or.inl h
  refine Or.inr ⟨h0, cons_lt_cons_same _ _ _ ?_⟩
  apply field_lt 1 _ _ _ _ hu3 ht3
  rcases h with h | ⟨h0, h⟩
  · exact Or.inl h
  refine Or.inr ⟨h0, cons_lt_cons_same _ _ _ ?_⟩
  apply field_lt 1 _ _ _ _ hu4 ht4
  rcases h with h | ⟨h0, h⟩
  · exact Or.inl h
  refine Or.inr ⟨h0, cons_lt_cons_same _ _ _ ?_⟩
  apply field_lt 1 _ _ _ _ hu5 ht5
  rcases h with h | ⟨h0, h⟩
  · exact Or.inl h
  refine Or.inr ⟨h0, cons_lt_cons_same _ _ _ ?_⟩
  rw [appendInt_eq_fixedDigits 1 _ ht6, appendInt_eq_fixedDigits 1 _ hu6]
  exact lt_append_of_lt_same_length _ _ _ _ (fixedDigits_lt _ _ _ h hu6)
    (by rw [fixedDigits_length, fixedDigits_length])

/-- C5, as stated, fails: the host name stands before the timestamp in the name,
so the archive that host "b" creates in 2024 has a greater name than the one
that host "a" creates a year later. -/
theorem backupName_order_fails_across_hosts :
    Time.before ⟨2024, 1, 5, 2, 0, 0⟩ ⟨2025, 1, 5, 2, 0, 0⟩ ∧
    ¬ (backupName "b".toList ⟨2024, 1, 5, 2, 0, 0⟩ <
        backupName "a".toList ⟨2025, 1, 5, 2, 0, 0⟩) := by
  decide

/-- C5, amended: for two archives that createAction names under the same host
name, at clock readings with years of at most four digits, the archive created
at the earlier reading has the lexicographically smaller name. -/
theorem backupName_lt_of_before (hostname : Str) (t u : Time)
    (ht : t.inRange) (hu : u.inRange) (h : t.before u) :
    backupName hostname t < backupName hostname u := by
  unfold backupName
  apply append_lt_append_left
  apply append_lt_append_left
  exact cons_lt_cons_same _ _ _ (Format_lt t u ht hu h _)

theorem backupName_lt_of_before_witness :
    backupName "node1".toList ⟨2024, 1, 5, 23, 59, 59⟩ <
      backupName "node1".toList ⟨2024, 1, 6, 0, 0, 0⟩ :=
  backupName_lt_of_before "node1".toList ⟨2024, 1, 5, 23, 59, 59⟩ ⟨2024, 1, 6, 0, 0, 0⟩
    (by unfold Time.inRange; decide) (by unfold Time.inRange; decide) (by decide)

/-! ## Archive construction -/

theorem appendData_snoc (es : List TarEntry) (e : TarEntry) (bytes : Str) :
    appendData (es ++ [e]) bytes = es ++ [⟨e.header, e.data ++ bytes⟩] := by
  induction es with
  | nil => rfl
  | cons a rest ih =>
    rcases hrest : rest ++ [e] with _ | ⟨b, tl⟩
    · simp at hrest
    · rw [List.cons_append, hrest, appendData, ← hrest, ih]
      · rfl
      · intro h; cases h

theorem includedEntries_append (excludes : List Str) (a b : List (Str × Node)) :
    includedEntries excludes (a ++ b) =
      includedEntries excludes a ++ includedEntries excludes b := by
  simp [includedEntries]

/-- The callback on a directory or a readable regular file, with the previous
entry complete: the entry is skipped when a pattern matches, and written whole
otherwise. -/
theorem tarballWalkFn_plain (excludes : List Str) (file : Str) (fi : Node) (tw : TarWriter)
    (hplain : ∀ tf mode content, fi ≠ .special tf mode content) (h0 : tw.remaining = 0) :
    tarballWalkFn Faults.none excludes file (some fi) false tw =
      (⟨tw.entries ++ includedEntries excludes [(file, fi)], 0⟩, none) := by
  obtain ⟨entries, remaining⟩ := tw
  simp only at h0
  subst h0
  unfold tarballWalkFn
  simp only [Bool.false_eq_true, if_false]
  cases hex : isExcluded file excludes
  · simp only [Bool.false_eq_true, if_false]
    cases fi with
    | reg mode data =>
      simp [FileInfoHeader, TarWriter.WriteHeader, Node.IsDir, osOpen, Faults.none,
        TarWriter.Copy, includedEntries, hex, archiveEntry, appendData_snoc]
    | dir mode children =>
      simp [FileInfoHeader, TarWriter.WriteHeader, Node.IsDir, includedEntries, hex,
        archiveEntry]
    | special tf mode content => exact absurd rfl (hplain tf mode content)
  · simp [includedEntries, hex]

mutual
theorem walk_plain (excludes : List Str) :
    ∀ (info : Node) (path : Str) (tw : TarWriter), info.plain = true → tw.remaining = 0 →
      walk Faults.none (tarballWalkFn Faults.none excludes) path info tw =
        (⟨tw.entries ++ includedEntries excludes (info.walkEntries path), 0⟩, none)
  | .reg mode data, path, tw, _, h0 => by
    rw [walk, Node.walkEntries]
    exact tarballWalkFn_plain excludes path _ tw (by intro _ _ _ h; cases h) h0
  | .special tf mode content, _, _, hp, _ => by simp [Node.plain] at hp
  | .dir mode children, path, tw, hp, h0 => by
    rw [walk, Node.walkEntries]
    have hcb := tarballWalkFn_plain excludes path (.dir mode children) tw
      (by intro _ _ _ h; cases h) h0
    have hnf : Faults.none.readDirFails path = false := rfl
    simp only [hnf, hcb, Bool.false_eq_true, if_false]
    rw [walkChildren_plain excludes children path _ (by simpa [Node.plain] using hp) rfl]
    simp only [List.append_assoc]
    rw [← includedEntries_append]
    rfl
theorem walkChildren_plain (excludes : List Str) :
    ∀ (children : List (Str × Node)) (path : Str) (tw : TarWriter),
      plainChildren children = true → tw.remaining = 0 →
      walkChildren Faults.none (tarballWalkFn Faults.none excludes) path children tw =
        (⟨tw.entries ++ includedEntries excludes (childrenEntries path children), 0⟩, none)
  | [], path, tw, _, h0 => by
    obtain ⟨entries, remaining⟩ := tw
    simp only at h0
    subst h0
    simp [walkChildren, childrenEntries, includedEntries]
  | (name, child) :: rest, path, tw, hp, h0 => by
    rw [walkChildren, childrenEntries]
    have hp2 : child.plain = true ∧ plainChildren rest = true := by
      simpa [plainChildren] using hp
    have hnf : Faults.none.lstatFails (Join path name) = false := rfl
    simp only [hnf, Bool.false_eq_true, if_false]
    rw [walk_plain excludes child (Join path name) tw hp2.1 h0]
    simp only
    rw [walkChildren_plain excludes rest path _ hp2.2 rfl]
    simp only [List.append_assoc]
    rw [← includedEntries_append]
end

theorem createLoop_plain (lstat : Str → Option Node) (excludes : List Str) :
    ∀ (paths : List Str) (tw : TarWriter),
      (∀ root ∈ paths, ∀ info, lstat root = some info → info.plain = true) →
      tw.remaining = 0 →
      createLoop Faults.none lstat excludes paths tw =
        (⟨tw.entries ++ includedEntries excludes (paths.flatMap (rootEntries lstat)), 0⟩, none)
  | [], tw, _, h0 => by
    obtain ⟨entries, remaining⟩ := tw
    simp only at h0
    subst h0
    simp [createLoop, includedEntries]
  | root :: rest, tw, hp, h0 => by
    rw [createLoop]
    have hrest : ∀ r ∈ rest, ∀ info, lstat r = some info → info.plain = true :=
      fun r hr => hp r (by simp [hr])
    rcases hl : lstat root with _ | info
    · have hw : Walk Faults.none (tarballWalkFn Faults.none excludes) root none tw =
          (tw, none) := by
        simp [Walk, tarballWalkFn]
      rw [hw]
      simp only
      rw [createLoop_plain lstat excludes rest tw hrest h0]
      simp [rootEntries, hl]
    · have hw : Walk Faults.none (tarballWalkFn Faults.none excludes) root (some info) tw =
          (⟨tw.entries ++ includedEntries excludes (info.walkEntries root), 0⟩, none) := by
        rw [Walk]
        exact walk_plain excludes info root tw (hp root (by simp) info hl) h0
      rw [hw]
      simp only
      rw [createLoop_plain lstat excludes rest _ hrest rfl]
      simp only [List.append_assoc, List.flatMap_cons, rootEntries, hl, includedEntries_append]

theorem includedEntries_not_excluded (excludes : List Str) (visited : List (Str × Node))
    (e : TarEntry) (he : e ∈ includedEntries excludes visited) :
    isExcluded e.header.Name excludes = false := by
  unfold includedEntries at he
  obtain ⟨v, hv, rfl⟩ := List.mem_map.mp he
  have hv2 := (List.mem_filter.mp hv).2
  have hname : (archiveEntry v).header.Name = v.1 := by
    obtain ⟨p, n⟩ := v
    cases n <;> rfl
  rw [hname]
  simpa using hv2

/-- The state tree of the scenario: /state holds a.txt and b.log. -/
theorem scenario_tree_plain :
    (Node.dir 0o755 [("a.txt".toList, .reg 0o644 "alpha".toList),
      ("b.log".toList, .reg 0o600 "beta".toList)]).plain = true := by
  decide

/-- C1, as stated, fails: with the root /state listed twice, the regular file
/state/a.txt gets two headers in the archive, and the build reports no
error. -/
theorem createTarball_repeated_root_two_headers :
    (createTarball false Faults.none
      (fun p => if p = "/state".toList then
        some (.dir 0o755 [("a.txt".toList, .reg 0o644 "alpha".toList),
          ("b.log".toList, .reg 0o600 "beta".toList)]) else none)
      ["/state".toList, "/state".toList] ["*.log".toList]).2 = none ∧
    ((createTarball false Faults.none
      (fun p => if p = "/state".toList then
        some (.dir 0o755 [("a.txt".toList, .reg 0o644 "alpha".toList),
          ("b.log".toList, .reg 0o600 "beta".toList)]) else none)
      ["/state".toList, "/state".toList] ["*.log".toList]).1.entries.filter
        (fun e => e.header.Name = "/state/a.txt".toList ∧
          e.header.Typeflag = .TypeReg)).length = 2 := by
  decide

theorem createTarball_plain_run (lstat : Str → Option Node) (paths excludes : List Str)
    (hplain : ∀ root ∈ paths, ∀ info, lstat root = some info → info.plain = true) :
    createTarball false Faults.none lstat paths excludes =
      (⟨includedEntries excludes (paths.flatMap (rootEntries lstat)), 0⟩, none) := by
  unfold createTarball
  simp only [Bool.false_eq_true, if_false]
  rw [createLoop_plain lstat excludes paths TarWriter.new hplain rfl]
  simp [TarWriter.new]

/-- C1, amended: for every list of roots and every list of exclusion patterns,
over trees of directories and regular files whose entries are all readable,
createTarball returns no error and the archive holds, for each root of the list
in order, exactly one entry (header, and content for a regular file) for each
entry of the tree of that root that no pattern matches, in walk order, and
nothing else; no entry of the archive is matched by a pattern. A file below
several listed roots, or below a root listed twice, gets one header per
listing. -/
theorem createTarball_plain (lstat : Str → Option Node) (paths excludes : List Str)
    (hplain : ∀ root ∈ paths, ∀ info, lstat root = some info → info.plain = true) :
    createTarball false Faults.none lstat paths excludes =
      (⟨includedEntries excludes (paths.flatMap (rootEntries lstat)), 0⟩, none) ∧
    (∀ e ∈ (createTarball false Faults.none lstat paths excludes).1.entries,
      isExcluded e.header.Name excludes = false) := by
  have hrun := createTarball_plain_run lstat paths excludes hplain
  refine ⟨hrun, ?_⟩
  rw [hrun]
  intro e he
  exact includedEntries_not_excluded excludes _ e he

theorem createTarball_plain_witness :
    (createTarball false Faults.none
      (fun p => if p = "/state".toList then
        some (.dir 0o755 [("a.txt".toList, .reg 0o644 "alpha".toList),
          ("b.log".toList, .reg 0o600 "beta".toList)]) else none)
      ["/state".toList] ["*.log".toList]).1.entries.map (fun e => e.header.Name) =
      ["/state".toList, "/state/a.txt".toList] := by
  have h := (createTarball_plain
    (fun p => if p = "/state".toList then
        some (.dir 0o755 [("a.txt".toList, .reg 0o644 "alpha".toList),
          ("b.log".toList, .reg 0o600 "beta".toList)]) else none)
    ["/state".toList] ["*.log".toList]
    (by
      intro root hroot info hinfo
      have hr : root = "/state".toList := by simpa using hroot
      subst hr
      have : info = .dir 0o755 [("a.txt".toList, .reg 0o644 "alpha".toList),
          ("b.log".toList, .reg 0o600 "beta".toList)] := by
        simpa using hinfo.symm
      rw [this]
      exact scenario_tree_plain)).1
  rw [h]
  decide

/-! ## Extraction: overwriting an existing file -/

/-- C9 at the failing input: the archive holds /etc/x with mode 0644 and the
payload "ab"; the destination already has /etc/x with mode 0600 and the content
"wxyz". Extraction succeeds and leaves the content "abyz" with mode 0600. -/
theorem extractTarball_existing_file_keeps_tail :
    (extractTarball 0o022
      (some ⟨[⟨⟨"/etc/x".toList, .TypeReg, 0o644, 2⟩, "ab".toList⟩], true⟩)
      "/".toList fsWithEtcX).2 = none ∧
    (extractTarball 0o022
      (some ⟨[⟨⟨"/etc/x".toList, .TypeReg, 0o644, 2⟩, "ab".toList⟩], true⟩)
      "/".toList fsWithEtcX).1 ["etc".toList, "x".toList] =
        some (.file 0o600 "abyz".toList) := by
  decide

/-! ## Extraction: running twice -/

theorem overlay_drop_congr (d a b : Str) (n : Nat) (h : a.drop n = b.drop n) :
    (overlay d a).drop n = (overlay d b).drop n := by
  unfold overlay
  rcases Nat.lt_or_ge n d.length with hlt | hge
  · rw [List.drop_append_of_le_length (Nat.le_of_lt hlt),
      List.drop_append_of_le_length (Nat.le_of_lt hlt)]
    have h2 : ∀ c : Str, c.drop d.length = (c.drop n).drop (d.length - n) := by
      intro c
      rw [List.drop_drop]
      congr 1
      omega
    rw [h2 a, h2 b, h]
  · have h2 : ∀ c : Str, (d ++ c.drop d.length).drop n = c.drop n := by
      intro c
      rw [List.drop_append_eq_append_drop, List.drop_of_length_le hge, List.nil_append,
        List.drop_drop]
      congr 1
      omega
    rw [h2 a, h2 b, h]

theorem overlays_drop_congr (ds : List Str) (n : Nat) :
    ∀ a b : Str, a.drop n = b.drop n → (overlays ds a).drop n = (overlays ds b).drop n := by
  induction ds with
  | nil => intro a b h; exact h
  | cons d rest ih =>
    intro a b h
    simp only [overlays, List.foldl_cons]
    exact ih _ _ (overlay_drop_congr d a b n h)

theorem overlay_eq_of_drop (d a b : Str) (h : a.drop d.length = b.drop d.length) :
    overlay d a = overlay d b := by
  unfold overlay
  rw [h]

theorem overlay_drop_self (d c : Str) : (overlay d c).drop d.length = c.drop d.length := by
  unfold overlay
  rw [List.drop_append_eq_append_drop, List.drop_of_length_le (le_refl _), List.nil_append,
    Nat.sub_self, List.drop_zero]

theorem overlays_snoc (ds : List Str) (d c : Str) :
    overlays (ds ++ [d]) c = overlay d (overlays ds c) := by
  simp [overlays, List.foldl_append]

theorem overlays_append (ds es : List Str) (c : Str) :
    overlays (ds ++ es) c = overlays es (overlays ds c) := by
  simp [overlays, List.foldl_append]

/-- Writing a sequence of payloads twice at the start of a file gives the same
content as writing it once. -/
theorem overlays_idem (ds : List Str) : ∀ c : Str, overlays ds (overlays ds c) = overlays ds c := by
  induction ds using List.reverseRecOn with
  | nil => intro c; rfl
  | append_singleton ds d ih =>
    intro c
    rw [overlays_snoc, overlays_snoc]
    apply overlay_eq_of_drop
    have h1 := overlays_drop_congr ds d.length _ _ (overlay_drop_self d (overlays ds c))
    rw [h1, ih]

theorem sameShape_refl (s : FS) : sameShape s s := fun _ => rfl

theorem sameShape_symm {s t : FS} (h : sameShape s t) : sameShape t s := fun q => (h q).symm

theorem sameShape_trans {s t r : FS} (h1 : sameShape s t) (h2 : sameShape t r) :
    sameShape s r := fun q => (h1 q).trans (h2 q)

theorem grows_refl (s : FS) : grows s s := fun _ _ => rfl

theorem grows_trans {s t r : FS} (h1 : grows s t) (h2 : grows t r) : grows s r := by
  intro q hq
  have h := h1 q hq
  have ht : t q ≠ none := by
    intro hn
    rw [hn] at h
    cases hs : s q with
    | none => exact hq hs
    | some o => rw [hs] at h; cases h
  rw [h2 q ht, h]

theorem grows_of_sameShape {s t : FS} (h : sameShape s t) : grows s t :=
  fun q _ => (h q).symm

theorem isDir_of_grows {s t : FS} (h : grows s t) (q : List Str) (m : Nat)
    (hq : s q = some (.dir m)) : t q = some (.dir m) := by
  have := h q (by rw [hq]; simp)
  rw [hq] at this
  cases ht : t q with
  | none => rw [ht] at this; cases this
  | some o =>
    rw [ht] at this
    cases o <;> simp [Obj.kind] at this
    rw [this]

theorem isDir_of_sameShape {s t : FS} (h : sameShape s t) (q : List Str) (m : Nat)
    (hq : s q = some (.dir m)) : t q = some (.dir m) :=
  isDir_of_grows (grows_of_sameShape h) q m hq

theorem isFile_of_grows {s t : FS} (h : grows s t) (q : List Str) (m : Nat) (d : Str)
    (hq : s q = some (.file m d)) : ∃ d2, t q = some (.file m d2) := by
  have := h q (by rw [hq]; simp)
  rw [hq] at this
  cases ht : t q with
  | none => rw [ht] at this; cases this
  | some o =>
    rw [ht] at this
    cases o <;> simp [Obj.kind] at this
    exact ⟨_, by rw [this]⟩

theorem blocked_of_grows {s t : FS} (h : grows s t) (q : List Str)
    (hq : s.blocked q = true) : t.blocked q = true := by
  unfold FS.blocked at hq ⊢
  cases hs : s q with
  | none => rw [hs] at hq; cases hq
  | some o =>
    have := h q (by rw [hs]; simp)
    rw [hs] at this hq
    cases ht : t q with
    | none => rw [ht] at this; cases this
    | some o2 =>
      rw [ht] at this
      cases o <;> cases o2 <;> simp_all [Obj.kind]

theorem fs_eq_of_shape_content {s t : FS} (h : sameShape s t)
    (hc : ∀ p, s.content p = t.content p) : s = t := by
  funext q
  have h1 := h q
  have h2 := hc q
  unfold FS.content at h2
  cases hs : s q with
  | none =>
    cases ht : t q with
    | none => rfl
    | some o => rw [hs, ht] at h1; cases h1
  | some o =>
    cases ht : t q with
    | none => rw [hs, ht] at h1; cases h1
    | some o2 =>
      rw [hs, ht] at h1
      rw [hs, ht] at h2
      cases o <;> cases o2 <;> simp_all [Obj.kind]

/-! ### os.MkdirAll -/

theorem MkdirAll_error {u : Nat} {s : FS} {p : List Str} {perm : Nat} {e : Err}
    (h : MkdirAll u s p perm = .error e) : e = .notDir ∧ p.inits.any s.blocked = true := by
  unfold MkdirAll at h
  split at h
  · rename_i hb
    injection h with h
    exact ⟨h.symm, hb⟩
  · cases h

theorem MkdirAll_ok {u : Nat} {s s1 : FS} {p : List Str} {perm : Nat}
    (h : MkdirAll u s p perm = .ok s1) :
    p.inits.any s.blocked = false ∧
    s1 = (fun q => if q.isPrefixOf p && (s q).isNone then
      some (.dir (createMode perm u)) else s q) := by
  unfold MkdirAll at h
  split at h
  · cases h
  · rename_i hb
    injection h with h
    exact ⟨by simpa using hb, h.symm⟩

theorem MkdirAll_grows {u : Nat} {s s1 : FS} {p : List Str} {perm : Nat}
    (h : MkdirAll u s p perm = .ok s1) : grows s s1 := by
  obtain ⟨_, rfl⟩ := MkdirAll_ok h
  intro q hq
  have : (s q).isNone = false := by
    cases hs : s q with
    | none => exact absurd hs hq
    | some o => rfl
  simp [this]

theorem MkdirAll_post {u : Nat} {s s1 : FS} {p : List Str} {perm : Nat}
    (h : MkdirAll u s p perm = .ok s1) (q : List Str) (hq : q <+: p) :
    ∃ m, s1 q = some (.dir m) := by
  obtain ⟨hb, rfl⟩ := MkdirAll_ok h
  have hpre : q.isPrefixOf p = true := List.isPrefixOf_iff_prefix.mpr hq
  have hnb : s.blocked q = false := by
    cases hbq : s.blocked q with
    | false => rfl
    | true =>
      have : p.inits.any s.blocked = true :=
        List.any_eq_true.mpr ⟨q, (List.mem_inits _ _).mpr hq, hbq⟩
      rw [hb] at this
      cases this
  cases hs : s q with
  | none => exact ⟨createMode perm u, by simp [hpre, hs]⟩
  | some o =>
    unfold FS.blocked at hnb
    rw [hs] at hnb
    cases o with
    | dir m => exact ⟨m, by simp [hs]⟩
    | file m d => simp at hnb
    | special => simp at hnb

theorem MkdirAll_noop (u : Nat) (t : FS) (p : List Str) (perm : Nat)
    (h : ∀ q, q <+: p → ∃ m, t q = some (.dir m)) : MkdirAll u t p perm = .ok t := by
  unfold MkdirAll
  have hb : p.inits.any t.blocked = false := by
    rw [Bool.eq_false_iff]
    intro hany
    obtain ⟨q, hq, hbq⟩ := List.any_eq_true.mp hany
    obtain ⟨m, hm⟩ := h q ((List.mem_inits _ _).mp hq)
    unfold FS.blocked at hbq
    rw [hm] at hbq
    cases hbq
  rw [hb]
  simp only [Bool.false_eq_true, if_false]
  congr 1
  funext q
  by_cases hq : q <+: p
  · obtain ⟨m, hm⟩ := h q hq
    simp [hm]
  · have : q.isPrefixOf p = false := by
      rw [Bool.eq_false_iff]
      intro hp
      exact hq (List.isPrefixOf_iff_prefix.mp hp)
    simp [this]

theorem MkdirAll_content {u : Nat} {s s1 : FS} {p : List Str} {perm : Nat}
    (h : MkdirAll u s p perm = .ok s1) (q : List Str) : s1.content q = s.content q := by
  obtain ⟨_, rfl⟩ := MkdirAll_ok h
  unfold FS.content
  cases hs : s q with
  | none =>
    by_cases hq : q.isPrefixOf p = true
    · simp [hq, hs]
    · simp [hq, hs]
  | some o => simp [hs]

/-- A directory creation that succeeded is absorbed by every state that
contains the state it produced. -/
theorem MkdirAll_absorbed {u : Nat} {s s1 t F : FS} {p : List Str} {perm : Nat}
    (h : MkdirAll u s p perm = .ok s1) (hg : grows s1 F) (ht : sameShape t F) :
    MkdirAll u t p perm = .ok t := by
  apply MkdirAll_noop
  intro q hq
  obtain ⟨m, hm⟩ := MkdirAll_post h q hq
  exact ⟨m, isDir_of_sameShape (sameShape_symm ht) q m (isDir_of_grows hg q m hm)⟩

theorem MkdirAll_fails_again {u : Nat} {s t F : FS} {p : List Str} {perm : Nat} {e : Err}
    (h : MkdirAll u s p perm = .error e) (hg : grows s F) (ht : sameShape t F) :
    MkdirAll u t p perm = .error e := by
  obtain ⟨rfl, hb⟩ := MkdirAll_error h
  obtain ⟨q, hq, hbq⟩ := List.any_eq_true.mp hb
  have hbt : t.blocked q = true :=
    blocked_of_grows (grows_trans hg (grows_of_sameShape (sameShape_symm ht))) q hbq
  unfold MkdirAll
  rw [List.any_eq_true.mpr ⟨q, hq, hbt⟩]
  rfl

/-! ### os.OpenFile and the copy -/

theorem OpenFile_ok {u : Nat} {s s1 : FS} {p : List Str} {perm : Nat}
    (h : OpenFile u s p perm = .ok s1) :
    (∃ m d, s p = some (.file m d) ∧ s1 = s) ∨
    (s p = none ∧ s1 = s.set p (.file (createMode perm u) [])) := by
  unfold OpenFile at h
  cases hs : s p with
  | some o =>
    rw [hs] at h
    cases o with
    | file m d =>
      injection h with h
      exact Or.inl ⟨m, d, rfl, h.symm⟩
    | dir m => cases h
    | special => cases h
  | none =>
    rw [hs] at h
    right
    refine ⟨rfl, ?_⟩
    simp only at h
    split at h
    · cases h
    · split at h
      · injection h with h
        exact h.symm
      · cases h
      · cases h

theorem OpenFile_post {u : Nat} {s s1 : FS} {p : List Str} {perm : Nat}
    (h : OpenFile u s p perm = .ok s1) : ∃ m d, s1 p = some (.file m d) := by
  rcases OpenFile_ok h with ⟨m, d, hs, rfl⟩ | ⟨_, rfl⟩
  · exact ⟨m, d, hs⟩
  · exact ⟨createMode perm u, [], by simp [FS.set]⟩

theorem OpenFile_grows {u : Nat} {s s1 : FS} {p : List Str} {perm : Nat}
    (h : OpenFile u s p perm = .ok s1) : grows s s1 := by
  rcases OpenFile_ok h with ⟨m, d, _, rfl⟩ | ⟨hn, rfl⟩
  · exact grows_refl _
  · intro q hq
    have : q ≠ p := by
      intro hqp
      rw [hqp] at hq
      exact hq hn
    simp [FS.set, this]

theorem OpenFile_content {u : Nat} {s s1 : FS} {p : List Str} {perm : Nat}
    (h : OpenFile u s p perm = .ok s1) (q : List Str) : s1.content q = s.content q := by
  rcases OpenFile_ok h with ⟨m, d, _, rfl⟩ | ⟨hn, rfl⟩
  · rfl
  · unfold FS.content FS.set
    by_cases hq : q = p
    · subst hq
      simp [hn]
    · simp [hq]

theorem OpenFile_noop (u : Nat) (t : FS) (p : List Str) (perm : Nat) (m : Nat) (d : Str)
    (h : t p = some (.file m d)) : OpenFile u t p perm = .ok t := by
  unfold OpenFile
  rw [h]

theorem OpenFile_absorbed {u : Nat} {s s1 t F : FS} {p : List Str} {perm : Nat}
    (h : OpenFile u s p perm = .ok s1) (hg : grows s1 F) (ht : sameShape t F) :
    OpenFile u t p perm = .ok t := by
  obtain ⟨m, d, hm⟩ := OpenFile_post h
  obtain ⟨d2, hF⟩ := isFile_of_grows hg p m d hm
  obtain ⟨d3, ht3⟩ := isFile_of_grows (grows_of_sameShape (sameShape_symm ht)) p m d2 hF
  exact OpenFile_noop u t p perm m d3 ht3

theorem kind_eq_cases {a b : Option Obj} (h : a.map Obj.kind = b.map Obj.kind) :
    (a = none ∧ b = none) ∨ (∃ m, a = some (.dir m) ∧ b = some (.dir m)) ∨
    (∃ m d1 d2, a = some (.file m d1) ∧ b = some (.file m d2)) ∨
    (a = some .special ∧ b = some .special) := by
  cases a with
  | none =>
    cases b with
    | none => exact Or.inl ⟨rfl, rfl⟩
    | some o => cases h
  | some o =>
    cases b with
    | none => cases h
    | some o2 =>
      cases o <;> cases o2 <;> simp [Obj.kind] at h
      · subst h; exact Or.inr (Or.inl ⟨_, rfl, rfl⟩)
      · subst h; exact Or.inr (Or.inr (Or.inl ⟨_, _, _, rfl, rfl⟩))
      · exact Or.inr (Or.inr (Or.inr ⟨rfl, rfl⟩))

theorem OpenFile_fails_again {u : Nat} {s t : FS} {p : List Str} {perm : Nat} {e : Err}
    (h : OpenFile u s p perm = .error e) (ht : sameShape t s) :
    OpenFile u t p perm = .error e := by
  unfold OpenFile at h ⊢
  rcases kind_eq_cases (ht p) with ⟨h1, h2⟩ | ⟨m, h1, h2⟩ | ⟨m, d1, d2, h1, h2⟩ | ⟨h1, h2⟩
  · rw [h2] at h
    rw [h1]
    simp only at h ⊢
    cases hrev : p.reverse with
    | nil => rw [hrev] at h; exact h
    | cons a parentRev =>
      rw [hrev] at h
      simp only at h ⊢
      rcases kind_eq_cases (ht parentRev.reverse) with
        ⟨h3, h4⟩ | ⟨m, h3, h4⟩ | ⟨m, d1, d2, h3, h4⟩ | ⟨h3, h4⟩
      · rw [h4] at h; rw [h3]; exact h
      · rw [h4] at h; cases h
      · rw [h4] at h; rw [h3]; exact h
      · rw [h4] at h; rw [h3]; exact h
  · rw [h2] at h; rw [h1]; exact h
  · rw [h2] at h; cases h
  · rw [h2] at h; rw [h1]; exact h

theorem writeFromStart_sameShape (s : FS) (p : List Str) (d : Str) :
    sameShape (writeFromStart s p d) s := by
  intro q
  unfold writeFromStart
  cases hs : s p with
  | none => rfl
  | some o =>
    cases o with
    | dir m => rfl
    | special => rfl
    | file m old =>
      simp only [FS.set]
      by_cases hq : q = p
      · subst hq
        simp [hs, Obj.kind]
      · simp [hq]

theorem writeFromStart_content (s : FS) (p : List Str) (d : Str) (m : Nat) (old : Str)
    (hs : s p = some (.file m old)) (q : List Str) :
    (writeFromStart s p d).content q =
      overlays (if p = q then [d] else []) (s.content q) := by
  unfold writeFromStart FS.content
  rw [hs]
  simp only [FS.set]
  by_cases hq : q = p
  · subst hq
    simp [hs, overlays]
  · have hq2 : ¬ p = q := fun h => hq h.symm
    simp [hq, hq2, overlays]

/-! ### One entry, then the loop -/

theorem extractEntry_TypeDir (u : Nat) (dest : Str) (s : FS) (e : TarEntry)
    (h : e.header.Typeflag = .TypeDir) :
    extractEntry u dest s e =
      match MkdirAll u s (pathElems (Join dest e.header.Name)) 0o755 with
      | .error err => (s, some err)
      | .ok s1 => (s1, none) := by
  unfold extractEntry
  rw [h]

theorem extractEntry_TypeReg (u : Nat) (dest : Str) (s : FS) (e : TarEntry)
    (h : e.header.Typeflag = .TypeReg) :
    extractEntry u dest s e =
      match MkdirAll u s (pathElems (Dir (Join dest e.header.Name))) 0o755 with
      | .error err => (s, some err)
      | .ok s1 =>
        match OpenFile u s1 (pathElems (Join dest e.header.Name)) e.header.Mode with
        | .error err => (s1, some err)
        | .ok s2 =>
          (writeFromStart s2 (pathElems (Join dest e.header.Name)) e.data,
            if e.data.length < e.header.Size then some .unexpectedEOF else none) := by
  unfold extractEntry
  rw [h]

theorem extractEntry_other (u : Nat) (dest : Str) (s : FS) (e : TarEntry)
    (hd : e.header.Typeflag ≠ .TypeDir) (hr : e.header.Typeflag ≠ .TypeReg) :
    extractEntry u dest s e = (s, none) := by
  unfold extractEntry
  cases h : e.header.Typeflag <;> simp_all

theorem entryPayload_TypeReg (u : Nat) (dest : Str) (s : FS) (e : TarEntry) (p : List Str)
    (h : e.header.Typeflag = .TypeReg) :
    entryPayload u dest s e p =
      match MkdirAll u s (pathElems (Dir (Join dest e.header.Name))) 0o755 with
      | .error _ => []
      | .ok s1 =>
        match OpenFile u s1 (pathElems (Join dest e.header.Name)) e.header.Mode with
        | .error _ => []
        | .ok _ => if pathElems (Join dest e.header.Name) = p then [e.data] else [] := by
  unfold entryPayload
  rw [h]

theorem entryPayload_other (u : Nat) (dest : Str) (s : FS) (e : TarEntry) (p : List Str)
    (hr : e.header.Typeflag ≠ .TypeReg) : entryPayload u dest s e p = [] := by
  unfold entryPayload
  cases h : e.header.Typeflag <;> simp_all

theorem extractLoop_cons (u : Nat) (dest : Str) (e : TarEntry) (rest : List TarEntry) (s : FS) :
    extractLoop u dest (e :: rest) s =
      match extractEntry u dest s e with
      | (s1, some err) => (s1, some err)
      | (s1, none) => extractLoop u dest rest s1 := rfl

theorem loopPayloads_cons (u : Nat) (dest : Str) (e : TarEntry) (rest : List TarEntry) (s : FS)
    (p : List Str) :
    loopPayloads u dest (e :: rest) s p =
      entryPayload u dest s e p ++
        (match extractEntry u dest s e with
          | (_, some _) => []
          | (s1, none) => loopPayloads u dest rest s1 p) := rfl

theorem extractTarball_some (u : Nat) (archive : Archive) (dest : Str) (s : FS) :
    extractTarball u (some archive) dest s =
      match extractLoop u dest archive.entries s with
      | (s1, some err) => (s1, some err)
      | (s1, none) => (s1, if archive.intact then none else some .unexpectedEOF) := rfl

theorem extractEntry_dir_error (u : Nat) (dest : Str) (s : FS) (e : TarEntry) (err : Err)
    (h : e.header.Typeflag = .TypeDir)
    (hmk : MkdirAll u s (pathElems (Join dest e.header.Name)) 0o755 = .error err) :
    extractEntry u dest s e = (s, some err) := by
  rw [extractEntry_TypeDir u dest s e h, hmk]

theorem extractEntry_dir_ok (u : Nat) (dest : Str) (s s1 : FS) (e : TarEntry)
    (h : e.header.Typeflag = .TypeDir)
    (hmk : MkdirAll u s (pathElems (Join dest e.header.Name)) 0o755 = .ok s1) :
    extractEntry u dest s e = (s1, none) := by
  rw [extractEntry_TypeDir u dest s e h, hmk]

theorem extractEntry_reg_mkdir_error (u : Nat) (dest : Str) (s : FS) (e : TarEntry) (err : Err)
    (h : e.header.Typeflag = .TypeReg)
    (hmk : MkdirAll u s (pathElems (Dir (Join dest e.header.Name))) 0o755 = .error err)
    (p : List Str) :
    extractEntry u dest s e = (s, some err) ∧ entryPayload u dest s e p = [] := by
  rw [extractEntry_TypeReg u dest s e h, entryPayload_TypeReg u dest s e p h, hmk]
  exact ⟨rfl, rfl⟩

theorem extractEntry_reg_open_error (u : Nat) (dest : Str) (s s1 : FS) (e : TarEntry)
    (err : Err) (h : e.header.Typeflag = .TypeReg)
    (hmk : MkdirAll u s (pathElems (Dir (Join dest e.header.Name))) 0o755 = .ok s1)
    (hof : OpenFile u s1 (pathElems (Join dest e.header.Name)) e.header.Mode = .error err)
    (p : List Str) :
    extractEntry u dest s e = (s1, some err) ∧ entryPayload u dest s e p = [] := by
  rw [extractEntry_TypeReg u dest s e h, entryPayload_TypeReg u dest s e p h, hmk]
  dsimp only
  rw [hof]
  exact ⟨rfl, rfl⟩

theorem extractEntry_reg_ok (u : Nat) (dest : Str) (s s1 s2 : FS) (e : TarEntry)
    (h : e.header.Typeflag = .TypeReg)
    (hmk : MkdirAll u s (pathElems (Dir (Join dest e.header.Name))) 0o755 = .ok s1)
    (hof : OpenFile u s1 (pathElems (Join dest e.header.Name)) e.header.Mode = .ok s2)
    (p : List Str) :
    extractEntry u dest s e =
      (writeFromStart s2 (pathElems (Join dest e.header.Name)) e.data,
        if e.data.length < e.header.Size then some .unexpectedEOF else none) ∧
    entryPayload u dest s e p =
      (if pathElems (Join dest e.header.Name) = p then [e.data] else []) := by
  rw [extractEntry_TypeReg u dest s e h, entryPayload_TypeReg u dest s e p h, hmk]
  dsimp only
  rw [hof]
  exact ⟨rfl, rfl⟩

theorem extractEntry_grows (u : Nat) (dest : Str) (s : FS) (e : TarEntry) :
    grows s (extractEntry u dest s e).1 := by
  by_cases hd : e.header.Typeflag = .TypeDir
  · cases hmk : MkdirAll u s (pathElems (Join dest e.header.Name)) 0o755 with
    | error err => rw [extractEntry_dir_error u dest s e err hd hmk]; exact grows_refl _
    | ok s1 => rw [extractEntry_dir_ok u dest s s1 e hd hmk]; exact MkdirAll_grows hmk
  by_cases hr : e.header.Typeflag = .TypeReg
  · cases hmk : MkdirAll u s (pathElems (Dir (Join dest e.header.Name))) 0o755 with
    | error err =>
      rw [(extractEntry_reg_mkdir_error u dest s e err hr hmk []).1]; exact grows_refl _
    | ok s1 =>
      cases hof : OpenFile u s1 (pathElems (Join dest e.header.Name)) e.header.Mode with
      | error err =>
        rw [(extractEntry_reg_open_error u dest s s1 e err hr hmk hof []).1]
        exact MkdirAll_grows hmk
      | ok s2 =>
        rw [(extractEntry_reg_ok u dest s s1 s2 e hr hmk hof []).1]
        exact grows_trans (MkdirAll_grows hmk) (grows_trans (OpenFile_grows hof)
          (grows_of_sameShape (sameShape_symm (writeFromStart_sameShape _ _ _))))
  rw [extractEntry_other u dest s e hd hr]
  exact grows_refl _

theorem extractEntry_content (u : Nat) (dest : Str) (s : FS) (e : TarEntry) (q : List Str) :
    (extractEntry u dest s e).1.content q =
      overlays (entryPayload u dest s e q) (s.content q) := by
  by_cases hd : e.header.Typeflag = .TypeDir
  · have hr : e.header.Typeflag ≠ .TypeReg := by rw [hd]; decide
    rw [entryPayload_other u dest s e q hr]
    cases hmk : MkdirAll u s (pathElems (Join dest e.header.Name)) 0o755 with
    | error err => rw [extractEntry_dir_error u dest s e err hd hmk]; rfl
    | ok s1 => rw [extractEntry_dir_ok u dest s s1 e hd hmk]; exact MkdirAll_content hmk q
  by_cases hr : e.header.Typeflag = .TypeReg
  · cases hmk : MkdirAll u s (pathElems (Dir (Join dest e.header.Name))) 0o755 with
    | error err =>
      obtain ⟨h1, h2⟩ := extractEntry_reg_mkdir_error u dest s e err hr hmk q
      rw [h1, h2]; rfl
    | ok s1 =>
      cases hof : OpenFile u s1 (pathElems (Join dest e.header.Name)) e.header.Mode with
      | error err =>
        obtain ⟨h1, h2⟩ := extractEntry_reg_open_error u dest s s1 e err hr hmk hof q
        rw [h1, h2]
        exact MkdirAll_content hmk q
      | ok s2 =>
        obtain ⟨h1, h2⟩ := extractEntry_reg_ok u dest s s1 s2 e hr hmk hof q
        rw [h1, h2]
        obtain ⟨m, d, hm⟩ := OpenFile_post hof
        show (writeFromStart s2 _ e.data).content q = _
        rw [writeFromStart_content s2 _ e.data m d hm q, OpenFile_content hof q,
          MkdirAll_content hmk q]
  rw [extractEntry_other u dest s e hd hr, entryPayload_other u dest s e q hr]
  rfl

/-- One entry, replayed on a state t that has the shape of a state F containing
the result of its first extraction: the entry ends with the same status, leaves
the shape of t as it is, and writes the same payload. -/
theorem extractEntry_replay (u : Nat) (dest : Str) (s t F : FS) (e : TarEntry)
    (hg : grows (extractEntry u dest s e).1 F) (ht : sameShape t F)
    (hf : (extractEntry u dest s e).2 ≠ none → sameShape t (extractEntry u dest s e).1) :
    (extractEntry u dest t e).2 = (extractEntry u dest s e).2 ∧
    sameShape (extractEntry u dest t e).1 t ∧
    ∀ p, entryPayload u dest t e p = entryPayload u dest s e p := by
  by_cases hd : e.header.Typeflag = .TypeDir
  · have hr : e.header.Typeflag ≠ .TypeReg := by rw [hd]; decide
    have hpay : ∀ p, entryPayload u dest t e p = entryPayload u dest s e p := fun p => by
      rw [entryPayload_other u dest t e p hr, entryPayload_other u dest s e p hr]
    cases hmk : MkdirAll u s (pathElems (Join dest e.header.Name)) 0o755 with
    | error err =>
      rw [extractEntry_dir_error u dest s e err hd hmk] at hg ⊢
      rw [extractEntry_dir_error u dest t e err hd (MkdirAll_fails_again hmk hg ht)]
      exact ⟨rfl, sameShape_refl _, hpay⟩
    | ok s1 =>
      rw [extractEntry_dir_ok u dest s s1 e hd hmk] at hg ⊢
      rw [extractEntry_dir_ok u dest t t e hd (MkdirAll_absorbed hmk hg ht)]
      exact ⟨rfl, sameShape_refl _, hpay⟩
  by_cases hr : e.header.Typeflag = .TypeReg
  · cases hmk : MkdirAll u s (pathElems (Dir (Join dest e.header.Name))) 0o755 with
    | error err =>
      rw [(extractEntry_reg_mkdir_error u dest s e err hr hmk []).1] at hg ⊢
      have hmt := MkdirAll_fails_again hmk hg ht
      rw [(extractEntry_reg_mkdir_error u dest t e err hr hmt []).1]
      refine ⟨rfl, sameShape_refl _, fun p => ?_⟩
      rw [(extractEntry_reg_mkdir_error u dest t e err hr hmt p).2,
        (extractEntry_reg_mkdir_error u dest s e err hr hmk p).2]
    | ok s1 =>
      cases hof : OpenFile u s1 (pathElems (Join dest e.header.Name)) e.header.Mode with
      | error err =>
        rw [(extractEntry_reg_open_error u dest s s1 e err hr hmk hof []).1] at hg hf ⊢
        have hts1 : sameShape t s1 := hf (by intro h; cases h)
        have hmt := MkdirAll_absorbed hmk (grows_refl s1) hts1
        have hot := OpenFile_fails_again hof hts1
        rw [(extractEntry_reg_open_error u dest t t e err hr hmt hot []).1]
        refine ⟨rfl, sameShape_refl _, fun p => ?_⟩
        rw [(extractEntry_reg_open_error u dest t t e err hr hmt hot p).2,
          (extractEntry_reg_open_error u dest s s1 e err hr hmk hof p).2]
      | ok s2 =>
        rw [(extractEntry_reg_ok u dest s s1 s2 e hr hmk hof []).1] at hg ⊢
        have hg2 : grows s2 F :=
          grows_trans (grows_of_sameShape (sameShape_symm (writeFromStart_sameShape _ _ _))) hg
        have hg1 : grows s1 F := grows_trans (OpenFile_grows hof) hg2
        have hmt := MkdirAll_absorbed hmk hg1 ht
        have hot := OpenFile_absorbed hof hg2 ht
        rw [(extractEntry_reg_ok u dest t t t e hr hmt hot []).1]
        refine ⟨rfl, writeFromStart_sameShape _ _ _, fun p => ?_⟩
        rw [(extractEntry_reg_ok u dest t t t e hr hmt hot p).2,
          (extractEntry_reg_ok u dest s s1 s2 e hr hmk hof p).2]
  rw [extractEntry_other u dest s e hd hr, extractEntry_other u dest t e hd hr]
  refine ⟨rfl, sameShape_refl _, fun p => ?_⟩
  rw [entryPayload_other u dest t e p hr, entryPayload_other u dest s e p hr]

theorem extractLoop_grows (u : Nat) (dest : Str) (entries : List TarEntry) :
    ∀ s : FS, grows s (extractLoop u dest entries s).1 := by
  induction entries with
  | nil => intro s; exact grows_refl _
  | cons e rest ih =>
    intro s
    rw [extractLoop_cons]
    have hge := extractEntry_grows u dest s e
    rcases hstep : extractEntry u dest s e with ⟨s1, _ | err⟩
    · rw [hstep] at hge
      exact grows_trans hge (ih s1)
    · rw [hstep] at hge
      exact hge

theorem extractLoop_content (u : Nat) (dest : Str) (entries : List TarEntry) (q : List Str) :
    ∀ s : FS, (extractLoop u dest entries s).1.content q =
      overlays (loopPayloads u dest entries s q) (s.content q) := by
  induction entries with
  | nil => intro s; rfl
  | cons e rest ih =>
    intro s
    rw [extractLoop_cons, loopPayloads_cons]
    have hc := extractEntry_content u dest s e q
    rcases hstep : extractEntry u dest s e with ⟨s1, _ | err⟩
    · rw [hstep] at hc
      show (extractLoop u dest rest s1).1.content q = _
      rw [overlays_append, ih s1, hc]
    · rw [hstep] at hc
      show s1.content q = overlays (entryPayload u dest s e q ++ []) _
      rw [List.append_nil]
      exact hc

/-- The loop, replayed on a state that has the shape of its first result: same
status, same shape, same payloads. -/
theorem extractLoop_replay (u : Nat) (dest : Str) (entries : List TarEntry) :
    ∀ s t : FS, sameShape t (extractLoop u dest entries s).1 →
      (extractLoop u dest entries t).2 = (extractLoop u dest entries s).2 ∧
      sameShape (extractLoop u dest entries t).1 t ∧
      ∀ p, loopPayloads u dest entries t p = loopPayloads u dest entries s p := by
  induction entries with
  | nil => intro s t _; exact ⟨rfl, sameShape_refl _, fun _ => rfl⟩
  | cons e rest ih =>
    intro s t ht
    rw [extractLoop_cons] at ht
    rw [extractLoop_cons, extractLoop_cons]
    rcases hstep : extractEntry u dest s e with ⟨s1, _ | err⟩
    · rw [hstep] at ht
      have ht2 : sameShape t (extractLoop u dest rest s1).1 := ht
      have hrep := extractEntry_replay u dest s t _ e
        (by rw [hstep]; exact extractLoop_grows u dest rest s1) ht2
        (by rw [hstep]; intro h; exact absurd rfl h)
      rw [hstep] at hrep
      obtain ⟨h1, h2, h3⟩ := hrep
      rcases hstept : extractEntry u dest t e with ⟨t1, errt⟩
      rw [hstept] at h1 h2
      have h1b : errt = none := h1
      subst h1b
      have h2b : sameShape t1 t := h2
      obtain ⟨i1, i2, i3⟩ := ih s1 t1 (sameShape_trans h2b ht2)
      refine ⟨i1, sameShape_trans i2 h2b, ?_⟩
      intro p
      rw [loopPayloads_cons, loopPayloads_cons, hstep, hstept, h3 p]
      show _ ++ loopPayloads u dest rest t1 p = _ ++ loopPayloads u dest rest s1 p
      rw [i3 p]
    · rw [hstep] at ht
      have ht2 : sameShape t s1 := ht
      have hrep := extractEntry_replay u dest s t s1 e
        (by rw [hstep]; exact grows_refl _) ht2
        (by rw [hstep]; intro _; exact ht2)
      rw [hstep] at hrep
      obtain ⟨h1, h2, h3⟩ := hrep
      rcases hstept : extractEntry u dest t e with ⟨t1, errt⟩
      rw [hstept] at h1 h2
      have h1b : errt = some err := h1
      subst h1b
      refine ⟨rfl, h2, ?_⟩
      intro p
      rw [loopPayloads_cons, loopPayloads_cons, hstep, hstept, h3 p]

theorem extractLoop_idempotent (u : Nat) (dest : Str) (entries : List TarEntry) (s : FS) :
    extractLoop u dest entries (extractLoop u dest entries s).1 =
      extractLoop u dest entries s := by
  obtain ⟨h1, h2, h3⟩ := extractLoop_replay u dest entries s
    (extractLoop u dest entries s).1 (sameShape_refl _)
  apply Prod.ext
  · apply fs_eq_of_shape_content h2
    intro p
    rw [extractLoop_content, h3 p, extractLoop_content, overlays_idem]
  · exact h1

/-- C10: for every archive (also one that cannot be opened or breaks off), every
destination root, every umask and every initial state of the destination,
running extractTarball a second time on the state that the first run left gives
the same state (objects, contents and modes at every path), and the same
status. -/
theorem extractTarball_idempotent (umask : Nat) (src : Option Archive) (dest : Str) (fs : FS) :
    (extractTarball umask src dest (extractTarball umask src dest fs).1).1 =
      (extractTarball umask src dest fs).1 ∧
    (extractTarball umask src dest (extractTarball umask src dest fs).1).2 =
      (extractTarball umask src dest fs).2 := by
  cases src with
  | none => exact ⟨rfl, rfl⟩
  | some archive =>
    have hfst : (extractTarball umask (some archive) dest fs).1 =
        (extractLoop umask dest archive.entries fs).1 := by
      rw [extractTarball_some]
      rcases extractLoop umask dest archive.entries fs with ⟨s1, _ | err⟩ <;> rfl
    rw [hfst, extractTarball_some, extractTarball_some,
      extractLoop_idempotent umask dest archive.entries fs]
    rcases extractLoop umask dest archive.entries fs with ⟨s1, _ | err⟩ <;> exact ⟨rfl, rfl⟩

/-! ## Clean rooted paths -/

theorem splitSlash_ne_nil (s : Str) : splitSlash s ≠ [] := by
  cases s with
  | nil => simp [splitSlash]
  | cons c cs =>
    unfold splitSlash
    split
    · simp
    · split <;> simp

theorem splitSlash_slash_cons (s : Str) : splitSlash ('/' :: s) = [] :: splitSlash s := by
  simp [splitSlash]

theorem splitSlash_append_slash (a b : Str) :
    splitSlash (a ++ '/' :: b) = splitSlash a ++ splitSlash b := by
  induction a with
  | nil => simp [splitSlash]
  | cons c a ih =>
    by_cases hc : c = '/'
    · subst hc
      simp only [List.cons_append, splitSlash_slash_cons, ih]
    · rcases hsa : splitSlash a with _ | ⟨e, es⟩
      · exact absurd hsa (splitSlash_ne_nil a)
      · simp only [List.cons_append]
        rw [splitSlash, if_neg hc, ih, hsa]
        simp only [List.cons_append]
        rw [splitSlash, if_neg hc, hsa]
        rfl

theorem splitSlash_of_no_slash (n : Str) (h : '/' ∉ n) : splitSlash n = [n] := by
  induction n with
  | nil => rfl
  | cons c n ih =>
    have hc : c ≠ '/' := by
      intro hc
      exact h (by simp [hc])
    have hn : '/' ∉ n := fun hn => h (by simp [hn])
    rw [splitSlash, if_neg hc, ih hn]

theorem joinSlash_cons_cons (e e2 : Str) (rest : List Str) :
    joinSlash (e :: e2 :: rest) = e ++ '/' :: joinSlash (e2 :: rest) := rfl

theorem joinSlash_snoc (a : List Str) (n : Str) :
    joinSlash (a ++ [n]) = if a = [] then n else joinSlash a ++ '/' :: n := by
  induction a with
  | nil => rfl
  | cons e rest ih =>
    cases rest with
    | nil => simp [joinSlash]
    | cons e2 rest2 =>
      simp only [List.cons_append, joinSlash_cons_cons]
      simp only [List.cons_append] at ih
      rw [ih]
      simp

theorem splitSlash_joinSlash (a : List Str) (ha : ∀ e ∈ a, goodName e) (hne : a ≠ []) :
    splitSlash (joinSlash a) = a := by
  induction a with
  | nil => exact absurd rfl hne
  | cons e rest ih =>
    have he := ha e (by simp)
    cases rest with
    | nil => exact splitSlash_of_no_slash e he.2.1
    | cons e2 rest2 =>
      rw [joinSlash_cons_cons, splitSlash_append_slash, splitSlash_of_no_slash e he.2.1,
        ih (fun x hx => ha x (by simp [hx])) (by simp)]
      rfl

theorem splitSlash_render (a : List Str) (ha : ∀ e ∈ a, goodName e) :
    splitSlash (render a) = if a = [] then [[], []] else [] :: a := by
  unfold render
  rw [splitSlash_slash_cons]
  by_cases hne : a = []
  · subst hne
    rfl
  · rw [if_neg hne, splitSlash_joinSlash a ha hne]

theorem filter_nonempty_good (a : List Str) (ha : ∀ e ∈ a, goodName e) :
    a.filter (fun e => decide (e ≠ [])) = a := by
  apply List.filter_eq_self.mpr
  intro e he
  simpa using (ha e he).1

theorem denotes_render (a : List Str) (ha : ∀ e ∈ a, goodName e) : denotes (render a) a := by
  unfold denotes
  rw [splitSlash_render a ha]
  by_cases hne : a = []
  · subst hne
    simp
  · rw [if_neg hne]
    constructor
    · rw [List.filter_cons]
      simp only [ne_eq, not_true_eq_false, decide_False, Bool.false_eq_true, if_false]
      exact filter_nonempty_good a ha
    · intro e he
      rcases List.mem_cons.mp he with rfl | he2
      · exact Or.inl rfl
      · exact Or.inr (ha e he2)

theorem denotes_nil : denotes [] [] := by
  unfold denotes
  simp [splitSlash]

theorem denotes_name (n : Str) (hn : goodName n) : denotes n [n] := by
  unfold denotes
  rw [splitSlash_of_no_slash n hn.2.1]
  constructor
  · simp [hn.1]
  · intro e he
    have : e = n := by simpa using he
    rw [this]
    exact Or.inr hn

theorem denotes_append (s t : Str) (a b : List Str) (hs : denotes s a) (ht : denotes t b) :
    denotes (s ++ '/' :: t) (a ++ b) := by
  unfold denotes at *
  rw [splitSlash_append_slash]
  constructor
  · rw [List.filter_append, hs.1, ht.1]
  · intro e he
    rcases List.mem_append.mp he with h | h
    · exact hs.2 e h
    · exact ht.2 e h

theorem cleanElemsAux_simple (rooted : Bool) (l : List Str)
    (hl : ∀ e ∈ l, e = [] ∨ goodName e) :
    ∀ acc : List Str, cleanElemsAux rooted l acc =
      acc.reverse ++ l.filter (fun e => decide (e ≠ [])) := by
  induction l with
  | nil => intro acc; simp [cleanElemsAux]
  | cons e es ih =>
    intro acc
    have hes : ∀ x ∈ es, x = [] ∨ goodName x := fun x hx => hl x (by simp [hx])
    rcases hl e (by simp) with he | he
    · subst he
      have hstep : cleanElemsAux rooted ([] :: es) acc = cleanElemsAux rooted es acc := by
        simp [cleanElemsAux]
      rw [hstep, ih hes acc]
      simp
    · have h1 : ¬ (e = [] ∨ e = ['.']) := by
        intro h
        rcases h with h | h
        · exact he.1 h
        · exact he.2.2.1 h
      have hstep : cleanElemsAux rooted (e :: es) acc = cleanElemsAux rooted es (e :: acc) := by
        rw [cleanElemsAux.eq_def]
        simp only
        rw [if_neg h1, if_neg he.2.2.2]
      rw [hstep, ih hes (e :: acc), List.filter_cons]
      simp [he.1]

theorem cleanElems_of_denotes (s : Str) (a : List Str) (h : denotes s a) :
    cleanElems s = a := by
  unfold cleanElems
  rw [cleanElemsAux_simple _ _ h.2 []]
  simpa using h.1

theorem Clean_of_denotes (s : Str) (a : List Str) (h : denotes s a)
    (hr : isRooted s = true) : Clean s = render a := by
  unfold Clean
  rw [cleanElems_of_denotes s a h]
  simp [hr, render]

theorem isRooted_render_append (a : List Str) (s : Str) : isRooted (render a ++ s) = true := by
  simp [isRooted, HasPrefix, render, List.isPrefixOf]

theorem render_ne_nil (a : List Str) : render a ≠ [] := by
  simp [render]

theorem Clean_render (a : List Str) (ha : ∀ e ∈ a, goodName e) : Clean (render a) = render a := by
  apply Clean_of_denotes _ _ (denotes_render a ha)
  have := isRooted_render_append a []
  simpa using this

/-- Joining a file name to a clean rooted path appends an element. -/
theorem Join_render_name (a : List Str) (n : Str) (ha : ∀ e ∈ a, goodName e)
    (hn : goodName n) : Join (render a) n = render (a ++ [n]) := by
  unfold Join
  rw [if_neg (render_ne_nil a), if_neg hn.1]
  exact Clean_of_denotes _ _ (denotes_append _ _ _ _ (denotes_render a ha) (denotes_name n hn))
    (isRooted_render_append a _)

/-- Joining two clean rooted paths concatenates their elements. -/
theorem Join_render_render (d a : List Str) (hd : ∀ e ∈ d, goodName e)
    (ha : ∀ e ∈ a, goodName e) : Join (render d) (render a) = render (d ++ a) := by
  unfold Join
  rw [if_neg (render_ne_nil d), if_neg (render_ne_nil a)]
  exact Clean_of_denotes _ _
    (denotes_append _ _ _ _ (denotes_render d hd) (denotes_render a ha))
    (isRooted_render_append d _)

theorem pathElems_render (a : List Str) (ha : ∀ e ∈ a, goodName e) :
    pathElems (render a) = a := by
  unfold pathElems
  rw [cleanElems_of_denotes _ _ (denotes_render a ha)]
  apply List.filter_eq_self.mpr
  intro e he
  simpa using (ha e he).2.2.2

theorem render_snoc (a : List Str) (n : Str) :
    render (a ++ [n]) = (if a = [] then ['/'] else render a ++ ['/']) ++ n := by
  unfold render
  rw [joinSlash_snoc]
  by_cases h : a = []
  · simp [h]
  · simp [h]

theorem dropWhile_reverse_name (x n : Str) (hn : '/' ∉ n) (hx : x.getLast? = some '/') :
    (((x ++ n).reverse).dropWhile (fun c => c != '/')).reverse = x := by
  rw [List.reverse_append]
  have h1 : ∀ (l r : Str), (∀ c ∈ l, (c != '/') = true) →
      (l ++ r).dropWhile (fun c => c != '/') = r.dropWhile (fun c => c != '/') := by
    intro l r hl
    induction l with
    | nil => rfl
    | cons c l ih =>
      have hc := hl c (by simp)
      rw [List.cons_append, List.dropWhile_cons, if_pos hc]
      exact ih (fun y hy => hl y (by simp [hy]))
  rw [h1 n.reverse x.reverse (by
    intro c hc
    have hc2 : c ∈ n := List.mem_reverse.mp hc
    have : c ≠ '/' := fun h => hn (h ▸ hc2)
    simpa using this)]
  rcases hxr : x.reverse with _ | ⟨c, rest⟩
  · have : x = [] := by simpa using hxr
    rw [this] at hx
    simp at hx
  · have hlast : x.getLast? = some c := by
      rw [List.getLast?_eq_head?_reverse, hxr]
      rfl
    rw [hx] at hlast
    have hc : c = '/' := by
      injection hlast with h
      exact h.symm
    subst hc
    rw [List.dropWhile_cons]
    simp only [bne_self_eq_false, Bool.false_eq_true, if_false]
    rw [← hxr, List.reverse_reverse]

/-- The directory of a clean rooted path is the path without its last
element. -/
theorem Dir_render_snoc (a : List Str) (n : Str) (ha : ∀ e ∈ a, goodName e)
    (hn : goodName n) : Dir (render (a ++ [n])) = render a := by
  unfold Dir
  rw [render_snoc]
  by_cases h : a = []
  · subst h
    simp only [if_true]
    rw [dropWhile_reverse_name ['/'] n hn.2.1 (by rfl)]
    have := Clean_render [] (by simp)
    simpa [render, joinSlash] using this
  · rw [if_neg h]
    rw [dropWhile_reverse_name (render a ++ ['/']) n hn.2.1 (by simp)]
    have hd := denotes_append _ _ _ _ (denotes_render a ha) denotes_nil
    rw [List.append_nil] at hd
    exact Clean_of_denotes _ _ hd (isRooted_render_append a _)

/-! ## Restore into an empty destination -/

theorem restored_nil (u : Nat) (base : FS) : restored u base [] = base := by
  funext q
  unfold restored
  cases hb : base q <;> simp [regAt, covered]

theorem regAt_append (a b : List (List Str × Node)) (q : List Str) :
    regAt (a ++ b) q = (regAt a q).or (regAt b q) := by
  unfold regAt
  exact List.findSome?_append

theorem covered_append (a b : List (List Str × Node)) (q : List Str) :
    covered (a ++ b) q = (covered a q || covered b q) := by
  unfold covered
  exact List.any_append

theorem regAt_some {items : List (List Str × Node)} {q : List Str} {m : Nat} {d : Str}
    (h : regAt items q = some (m, d)) : (q, Node.reg m d) ∈ items := by
  induction items with
  | nil => simp [regAt] at h
  | cons it rest ih =>
    unfold regAt at h
    rw [List.findSome?_cons] at h
    obtain ⟨τ, node⟩ := it
    cases node with
    | reg m2 d2 =>
      by_cases hq : τ = q
      · simp only [hq, if_true] at h
        injection h with h
        injection h with h1 h2
        subst h1 h2 hq
        simp
      · simp only [hq, if_false] at h
        exact List.mem_cons_of_mem _ (ih h)
    | dir m2 cs => exact List.mem_cons_of_mem _ (ih h)
    | special tf m2 c => exact List.mem_cons_of_mem _ (ih h)

theorem regAt_single_dir (τ q : List Str) (m : Nat) (cs : List (Str × Node)) :
    regAt [(τ, Node.dir m cs)] q = none := rfl

theorem regAt_single_reg (τ q : List Str) (m : Nat) (d : Str) :
    regAt [(τ, Node.reg m d)] q = if τ = q then some (m, d) else none := by
  by_cases h : τ = q <;> simp [regAt, List.findSome?_cons, h]

theorem covered_single (it : List Str × Node) (q : List Str) :
    covered [it] q = q.isPrefixOf it.1 := by
  simp [covered]

theorem apart_symm : Symmetric apart := fun _ _ h => ⟨h.2, h.1⟩

/-- No regular file of the items is at a path that lies at or above the target
of an item apart from them all. -/
theorem regAt_none_of_apart (items : List (List Str × Node)) (τ q : List Str)
    (h : ∀ a ∈ items, a.2.isReg = true → ¬ a.1 <+: τ) (hq : q <+: τ) :
    regAt items q = none := by
  cases hr : regAt items q with
  | none => rfl
  | some md =>
    obtain ⟨m, d⟩ := md
    have hmem := regAt_some hr
    exact absurd hq (h _ hmem rfl)

/-- The state after os.MkdirAll on the restored state, path by path. -/
theorem restored_mkdir (u : Nat) (base : FS) (items : List (List Str × Node)) (τ : List Str)
    (h : ∀ a ∈ items, a.2.isReg = true → ¬ a.1 <+: τ)
    (hbase : ∀ q, q <+: τ → base.blocked q = false) :
    MkdirAll u (restored u base items) τ 0o755 = .ok (restoredMkdir u base items τ) := by
  unfold MkdirAll
  have hb : τ.inits.any (restored u base items).blocked = false := by
    rw [Bool.eq_false_iff]
    intro hany
    obtain ⟨q, hq, hbq⟩ := List.any_eq_true.mp hany
    have hq2 := (List.mem_inits _ _).mp hq
    have hnone := regAt_none_of_apart items τ q h hq2
    have hbb := hbase q hq2
    unfold FS.blocked restored at hbq
    unfold FS.blocked at hbb
    rw [hnone] at hbq
    cases hbq0 : base q with
    | some o =>
      rw [hbq0] at hbq hbb
      cases o <;> simp at hbq hbb
    | none =>
      rw [hbq0] at hbq
      by_cases hc : covered items q = true
      · simp [hc] at hbq
      · simp [hc] at hbq
  rw [hb]
  simp only [Bool.false_eq_true, if_false]
  congr 1
  funext q
  unfold restored restoredMkdir
  cases hr : regAt items q with
  | some md => obtain ⟨m, d⟩ := md; simp
  | none =>
    cases hbq0 : base q with
    | some o => simp
    | none =>
      by_cases hc : covered items q = true
      · simp [hc]
      · by_cases hp : q.isPrefixOf τ = true
        · simp [hc, hp]
        · simp [hc, hp]

/-- The restore of one more directory. -/
theorem restored_step_dir (u : Nat) (base : FS) (items : List (List Str × Node))
    (τ : List Str) (m : Nat) (cs : List (Str × Node))
    (h : treeLike (items ++ [(τ, Node.dir m cs)]))
    (hbase : ∀ q, q <+: τ → base.blocked q = false) :
    MkdirAll u (restored u base items) τ 0o755 =
      .ok (restored u base (items ++ [(τ, Node.dir m cs)])) := by
  have hap : ∀ a ∈ items, a.2.isReg = true → ¬ a.1 <+: τ := by
    intro a ha hreg
    exact ((List.pairwise_append.mp h.1).2.2 a ha (τ, Node.dir m cs) (by simp)).1 hreg
  rw [restored_mkdir u base items τ hap hbase]
  congr 1
  funext q
  unfold restored restoredMkdir
  rw [regAt_append, regAt_single_dir, covered_append, covered_single]
  cases regAt items q <;> rfl

theorem isPrefixOf_dropLast (q a : List Str) (n : Str) (hq : q ≠ a ++ [n]) :
    q.isPrefixOf (a ++ [n]) = q.isPrefixOf a := by
  rw [Bool.eq_iff_iff, List.isPrefixOf_iff_prefix, List.isPrefixOf_iff_prefix,
    List.prefix_concat_iff]
  constructor
  · rintro (h | h)
    · exact absurd h hq
    · exact h
  · exact Or.inr

/-- The restore of one more regular file. -/
theorem restored_step_reg (u : Nat) (base : FS) (items : List (List Str × Node))
    (a : List Str) (n : Str) (m : Nat) (d : Str)
    (h : treeLike (items ++ [(a ++ [n], Node.reg m d)]))
    (hbase : ∀ q, q <+: a → base.blocked q = false) (hfree : base (a ++ [n]) = none) :
    MkdirAll u (restored u base items) a 0o755 = .ok (restoredMkdir u base items a) ∧
    OpenFile u (restoredMkdir u base items a) (a ++ [n]) m =
      .ok ((restoredMkdir u base items a).set (a ++ [n]) (.file (createMode m u) [])) ∧
    writeFromStart ((restoredMkdir u base items a).set (a ++ [n])
        (.file (createMode m u) [])) (a ++ [n]) d =
      restored u base (items ++ [(a ++ [n], Node.reg m d)]) := by
  have hcross := (List.pairwise_append.mp h.1).2.2
  have hap : ∀ x ∈ items, x.2.isReg = true → ¬ x.1 <+: a := by
    intro x hx hreg hpre
    exact ((hcross x hx (a ++ [n], Node.reg m d) (by simp)).1 hreg)
      (hpre.trans (List.prefix_append a [n]))
  have hmk := restored_mkdir u base items a hap hbase
  have hreg0 : regAt items (a ++ [n]) = none := by
    apply regAt_none_of_apart items (a ++ [n]) (a ++ [n]) _ (List.prefix_refl _)
    intro x hx hreg
    exact (hcross x hx (a ++ [n], Node.reg m d) (by simp)).1 hreg
  refine ⟨hmk, ?_, ?_⟩
  · -- the target is absent and its parent is a directory
    have hcov : covered items (a ++ [n]) = false := by
      rw [Bool.eq_false_iff]
      intro hc
      obtain ⟨x, hx, hpx⟩ := List.any_eq_true.mp hc
      exact ((hcross x hx (a ++ [n], Node.reg m d) (by simp)).2 rfl)
        (List.isPrefixOf_iff_prefix.mp hpx)
    have hnp : (a ++ [n]).isPrefixOf a = false := by
      rw [Bool.eq_false_iff]
      intro hp
      have := (List.isPrefixOf_iff_prefix.mp hp).length_le
      simp at this
    obtain ⟨md, hmd⟩ := MkdirAll_post hmk a (List.prefix_refl a)
    have htarget : restoredMkdir u base items a (a ++ [n]) = none := by
      unfold restoredMkdir
      simp [hreg0, hcov, hnp, hfree]
    unfold OpenFile
    rw [htarget]
    simp only [List.reverse_append, List.reverse_cons, List.reverse_nil, List.nil_append,
      List.singleton_append, List.reverse_reverse]
    rw [hmd]
  · funext q
    unfold writeFromStart
    simp only [FS.set, if_true]
    unfold restored restoredMkdir
    rw [regAt_append, regAt_single_reg, covered_append, covered_single]
    by_cases hq : q = a ++ [n]
    · subst hq
      simp [hreg0, overlay]
    · have hq2 : ¬ a ++ [n] = q := fun hh => hq hh.symm
      simp only [hq, hq2, if_false, Option.or_none]
      rw [isPrefixOf_dropLast q a n hq]

/-! ### The positions of a well-formed tree -/

mutual
theorem positions_prefix : ∀ (tree : Node) (pos : List Str) (v : List Str × Node),
    v ∈ tree.positions pos → pos <+: v.1
  | .reg _ _, pos, v, hv => by
    simp only [Node.positions, List.mem_singleton] at hv
    rw [hv]
  | .special _ _ _, pos, v, hv => by
    simp only [Node.positions, List.mem_singleton] at hv
    rw [hv]
  | .dir _ children, pos, v, hv => by
    simp only [Node.positions, List.mem_cons] at hv
    rcases hv with rfl | hv
    · exact List.prefix_refl _
    · obtain ⟨c, _, hc⟩ := childrenPositions_form children pos v hv
      exact (List.prefix_append pos [c.1]).trans hc
theorem childrenPositions_form : ∀ (children : List (Str × Node)) (pos : List Str)
    (v : List Str × Node), v ∈ childrenPositions pos children →
      ∃ c ∈ children, pos ++ [c.1] <+: v.1
  | [], _, v, hv => by simp [childrenPositions] at hv
  | (name, child) :: rest, pos, v, hv => by
    simp only [childrenPositions, List.mem_append] at hv
    rcases hv with hv | hv
    · exact ⟨(name, child), by simp, positions_prefix child (pos ++ [name]) v hv⟩
    · obtain ⟨c, hc, hpre⟩ := childrenPositions_form rest pos v hv
      exact ⟨c, List.mem_cons_of_mem _ hc, hpre⟩
end

mutual
theorem positions_good : ∀ (tree : Node) (pos : List Str), tree.wf →
    (∀ e ∈ pos, goodName e) → ∀ v ∈ tree.positions pos, ∀ e ∈ v.1, goodName e
  | .reg _ _, pos, _, hpos, v, hv => by
    simp only [Node.positions, List.mem_singleton] at hv
    rw [hv]; exact hpos
  | .special _ _ _, pos, _, hpos, v, hv => by
    simp only [Node.positions, List.mem_singleton] at hv
    rw [hv]; exact hpos
  | .dir _ children, pos, hwf, hpos, v, hv => by
    simp only [Node.positions, List.mem_cons] at hv
    rcases hv with rfl | hv
    · exact hpos
    · exact childrenPositions_good children pos (by simpa [Node.wf] using hwf) hpos v hv
theorem childrenPositions_good : ∀ (children : List (Str × Node)) (pos : List Str),
    wfChildren children → (∀ e ∈ pos, goodName e) →
      ∀ v ∈ childrenPositions pos children, ∀ e ∈ v.1, goodName e
  | [], _, _, _, v, hv => by simp [childrenPositions] at hv
  | (name, child) :: rest, pos, hwf, hpos, v, hv => by
    simp only [wfChildren] at hwf
    simp only [childrenPositions, List.mem_append] at hv
    rcases hv with hv | hv
    · apply positions_good child (pos ++ [name]) hwf.2.2.1 _ v hv
      intro e he
      rcases List.mem_append.mp he with h | h
      · exact hpos e h
      · have : e = name := by simpa using h
        rw [this]; exact hwf.1
    · exact childrenPositions_good rest pos hwf.2.2.2 hpos v hv
end

mutual
theorem positions_plain : ∀ (tree : Node) (pos : List Str), tree.plain = true →
    ∀ v ∈ tree.positions pos, ∀ tf m c, v.2 ≠ Node.special tf m c
  | .reg _ _, pos, _, v, hv => by
    simp only [Node.positions, List.mem_singleton] at hv
    rw [hv]; intro _ _ _ h; cases h
  | .special _ _ _, pos, hp, v, hv => by simp [Node.plain] at hp
  | .dir _ children, pos, hp, v, hv => by
    simp only [Node.positions, List.mem_cons] at hv
    rcases hv with rfl | hv
    · intro _ _ _ h; cases h
    · exact childrenPositions_plain children pos (by simpa [Node.plain] using hp) v hv
theorem childrenPositions_plain : ∀ (children : List (Str × Node)) (pos : List Str),
    plainChildren children = true →
      ∀ v ∈ childrenPositions pos children, ∀ tf m c, v.2 ≠ Node.special tf m c
  | [], _, _, v, hv => by simp [childrenPositions] at hv
  | (name, child) :: rest, pos, hp, v, hv => by
    have hp2 : child.plain = true ∧ plainChildren rest = true := by
      simpa [plainChildren] using hp
    simp only [childrenPositions, List.mem_append] at hv
    rcases hv with hv | hv
    · exact positions_plain child (pos ++ [name]) hp2.1 v hv
    · exact childrenPositions_plain rest pos hp2.2 v hv
end

theorem not_prefix_of_siblings (pos : List Str) (n1 n2 : Str) (a b : List Str)
    (hne : n2 ≠ n1) (ha : pos ++ [n1] <+: a) (hb : pos ++ [n2] <+: b) : ¬ a <+: b := by
  intro hab
  have h1 : pos ++ [n1] <+: b := ha.trans hab
  have h2 : pos ++ [n1] = pos ++ [n2] :=
    List.IsPrefix.eq_of_length (List.prefix_of_prefix_length_le h1 hb (by simp)) (by simp)
  have : n1 = n2 := by simpa using h2
  exact hne this.symm

mutual
theorem positions_apart : ∀ (tree : Node) (pos : List Str), tree.wf →
    (tree.positions pos).Pairwise apart
  | .reg _ _, pos, _ => by simp [Node.positions]
  | .special _ _ _, pos, _ => by simp [Node.positions]
  | .dir mode children, pos, hwf => by
    simp only [Node.positions]
    rw [List.pairwise_cons]
    refine ⟨?_, childrenPositions_apart children pos (by simpa [Node.wf] using hwf)⟩
    intro b hb
    constructor
    · intro h; simp [Node.isReg] at h
    · intro _ hpre
      obtain ⟨c, _, hc⟩ := childrenPositions_form children pos b hb
      have h1 := (hc.trans hpre).length_le
      simp at h1
theorem childrenPositions_apart : ∀ (children : List (Str × Node)) (pos : List Str),
    wfChildren children → (childrenPositions pos children).Pairwise apart
  | [], _, _ => by simp [childrenPositions]
  | (name, child) :: rest, pos, hwf => by
    simp only [wfChildren] at hwf
    simp only [childrenPositions]
    rw [List.pairwise_append]
    refine ⟨positions_apart child (pos ++ [name]) hwf.2.2.1,
      childrenPositions_apart rest pos hwf.2.2.2, ?_⟩
    intro a ha b hb
    have hpa := positions_prefix child (pos ++ [name]) a ha
    obtain ⟨c, hc, hpb⟩ := childrenPositions_form rest pos b hb
    have hne : c.1 ≠ name := hwf.2.1 c hc
    exact ⟨fun _ => not_prefix_of_siblings pos name c.1 a.1 b.1 hne hpa hpb,
      fun _ => not_prefix_of_siblings pos c.1 name b.1 a.1 (Ne.symm hne) hpb hpa⟩
end

mutual
theorem walkEntries_eq_positions : ∀ (tree : Node) (pos : List Str), tree.wf →
    (∀ e ∈ pos, goodName e) →
    tree.walkEntries (render pos) = (tree.positions pos).map (fun v => (render v.1, v.2))
  | .reg _ _, pos, _, _ => by simp [Node.walkEntries, Node.positions]
  | .special _ _ _, pos, _, _ => by simp [Node.walkEntries, Node.positions]
  | .dir mode children, pos, hwf, hpos => by
    simp only [Node.walkEntries, Node.positions, List.map_cons]
    rw [childrenEntries_eq_positions children pos (by simpa [Node.wf] using hwf) hpos]
theorem childrenEntries_eq_positions : ∀ (children : List (Str × Node)) (pos : List Str),
    wfChildren children → (∀ e ∈ pos, goodName e) →
    childrenEntries (render pos) children =
      (childrenPositions pos children).map (fun v => (render v.1, v.2))
  | [], _, _, _ => by simp [childrenEntries, childrenPositions]
  | (name, child) :: rest, pos, hwf, hpos => by
    simp only [wfChildren] at hwf
    simp only [childrenEntries, childrenPositions, List.map_append]
    rw [Join_render_name pos name hpos hwf.1,
      walkEntries_eq_positions child (pos ++ [name]) hwf.2.2.1 (by
        intro e he
        rcases List.mem_append.mp he with h | h
        · exact hpos e h
        · have : e = name := by simpa using h
          rw [this]; exact hwf.1),
      childrenEntries_eq_positions rest pos hwf.2.2.2 hpos]
end

/-! ### Round trip -/

theorem treeLike_sublist {a b : List (List Str × Node)} (hs : a.Sublist b) (h : treeLike b) :
    treeLike a :=
  ⟨h.1.sublist hs, fun it hit => h.2 it (hs.subset hit)⟩

theorem good_append (d pos : List Str) (hd : ∀ e ∈ d, goodName e)
    (hpos : ∀ e ∈ pos, goodName e) : ∀ e ∈ d ++ pos, goodName e := by
  intro e he
  rcases List.mem_append.mp he with h | h
  · exact hd e h
  · exact hpos e h

/-- The extraction of an archived directory on the restored state. -/
theorem extractEntry_restored_dir (u : Nat) (base : FS) (d pos : List Str)
    (items : List (List Str × Node)) (m : Nat) (cs : List (Str × Node))
    (hd : ∀ e ∈ d, goodName e) (hpos : ∀ e ∈ pos, goodName e)
    (h : treeLike (items ++ [(d ++ pos, Node.dir m cs)]))
    (hbase : ∀ q, q <+: d ++ pos → base.blocked q = false) :
    extractEntry u (render d) (restored u base items)
        (archiveEntry (render pos, Node.dir m cs)) =
      (restored u base (items ++ [(d ++ pos, Node.dir m cs)]), none) := by
  apply extractEntry_dir_ok u (render d) _ _ _ rfl
  show MkdirAll u _ (pathElems (Join (render d) (render pos))) 0o755 = _
  rw [Join_render_render d pos hd hpos, pathElems_render _ (good_append d pos hd hpos)]
  exact restored_step_dir u base items (d ++ pos) m cs h hbase

/-- The extraction of an archived regular file on the restored state. -/
theorem extractEntry_restored_reg (u : Nat) (base : FS) (d pos : List Str)
    (items : List (List Str × Node)) (m : Nat) (data : Str)
    (hd : ∀ e ∈ d, goodName e) (hpos : ∀ e ∈ pos, goodName e)
    (h : treeLike (items ++ [(d ++ pos, Node.reg m data)]))
    (hbase : ∀ q, q <+: d ++ pos → base.blocked q = false)
    (hfree : base (d ++ pos) = none) :
    extractEntry u (render d) (restored u base items)
        (archiveEntry (render pos, Node.reg m data)) =
      (restored u base (items ++ [(d ++ pos, Node.reg m data)]), none) := by
  have hne : d ++ pos ≠ [] := h.2 (d ++ pos, Node.reg m data) (by simp) rfl
  rcases List.eq_nil_or_concat (d ++ pos) with h0 | ⟨a, n, hcat⟩
  · exact absurd h0 hne
  rw [List.concat_eq_append] at hcat
  have hgood := good_append d pos hd hpos
  rw [hcat] at hgood h hbase hfree
  have hga : ∀ e ∈ a, goodName e := fun e he => hgood e (by simp [he])
  have hgn : goodName n := hgood n (by simp)
  obtain ⟨h1, h2, h3⟩ := restored_step_reg u base items a n m data h
    (fun q hq => hbase q (hq.trans (List.prefix_append a [n]))) hfree
  have hjoin : Join (render d) (render pos) = render (a ++ [n]) := by
    rw [Join_render_render d pos hd hpos, hcat]
  have hrun := (extractEntry_reg_ok u (render d) (restored u base items)
    (restoredMkdir u base items a)
    ((restoredMkdir u base items a).set (a ++ [n]) (.file (createMode m u) []))
    (archiveEntry (render pos, Node.reg m data)) rfl
    (by
      show MkdirAll u _ (pathElems (Dir (Join (render d) (render pos)))) 0o755 = _
      rw [hjoin, Dir_render_snoc a n hga hgn, pathElems_render a hga]
      exact h1)
    (by
      show OpenFile u _ (pathElems (Join (render d) (render pos))) m = _
      rw [hjoin, pathElems_render _ hgood]
      exact h2) []).1
  rw [hrun, hcat]
  have hp : pathElems (Join (render d) (archiveEntry (render pos, Node.reg m data)).header.Name)
      = a ++ [n] := by
    show pathElems (Join (render d) (render pos)) = _
    rw [hjoin, pathElems_render _ hgood]
  rw [hp]
  have hd2 : (archiveEntry (render pos, Node.reg m data)).data = data := rfl
  have hsz : (archiveEntry (render pos, Node.reg m data)).header.Size = data.length := rfl
  rw [hd2, hsz, h3]
  simp

/-- The extraction of the archived entries of a tree-like list of positions, on
the restored state. -/
theorem extractLoop_restored (u : Nat) (base : FS) (d : List Str)
    (hd : ∀ e ∈ d, goodName e) :
    ∀ (todo : List (List Str × Node)) (items : List (List Str × Node)),
      (∀ v ∈ todo, (∀ e ∈ v.1, goodName e) ∧ (∀ tf m c, v.2 ≠ Node.special tf m c) ∧
        (∀ q, q <+: d ++ v.1 → base.blocked q = false) ∧
        (v.2.isReg = true → base (d ++ v.1) = none)) →
      treeLike (items ++ todo.map (fun v => (d ++ v.1, v.2))) →
      extractLoop u (render d) (todo.map (fun v => archiveEntry (render v.1, v.2)))
          (restored u base items) =
        (restored u base (items ++ todo.map (fun v => (d ++ v.1, v.2))), none)
  | [], items, _, _ => by simp [extractLoop]
  | v :: rest, items, hv, htl => by
    obtain ⟨pos, node⟩ := v
    have hvg := hv (pos, node) (by simp)
    have hrestg : ∀ w ∈ rest, (∀ e ∈ w.1, goodName e) ∧
        (∀ tf m c, w.2 ≠ Node.special tf m c) ∧
        (∀ q, q <+: d ++ w.1 → base.blocked q = false) ∧
        (w.2.isReg = true → base (d ++ w.1) = none) :=
      fun w hw => hv w (by simp [hw])
    have htl2 : treeLike ((items ++ [(d ++ pos, node)]) ++
        rest.map (fun v => (d ++ v.1, v.2))) := by
      simpa using htl
    have htl1 : treeLike (items ++ [(d ++ pos, node)]) :=
      treeLike_sublist (List.sublist_append_left _ _) htl2
    have hstep : extractEntry u (render d) (restored u base items)
        (archiveEntry (render pos, node)) =
          (restored u base (items ++ [(d ++ pos, node)]), none) := by
      cases node with
      | reg m data =>
        exact extractEntry_restored_reg u base d pos items m data hd hvg.1 htl1 hvg.2.2.1
          (hvg.2.2.2 rfl)
      | dir m cs =>
        exact extractEntry_restored_dir u base d pos items m cs hd hvg.1 htl1 hvg.2.2.1
      | special tf m c => exact absurd rfl (hvg.2.1 tf m c)
    rw [List.map_cons, extractLoop_cons, hstep]
    show extractLoop u (render d) _ (restored u base (items ++ [(d ++ pos, node)])) = _
    rw [extractLoop_restored u base d hd rest (items ++ [(d ++ pos, node)]) hrestg htl2]
    simp

theorem regAt_of_mem (items : List (List Str × Node)) (h : items.Pairwise apart)
    (τ : List Str) (m : Nat) (data : Str) (hmem : (τ, Node.reg m data) ∈ items) :
    regAt items τ = some (m, data) := by
  induction items with
  | nil => simp at hmem
  | cons it rest ih =>
    rw [List.pairwise_cons] at h
    unfold regAt
    rw [List.findSome?_cons]
    rcases List.mem_cons.mp hmem with heq | hrest
    · rw [← heq]
      simp
    · obtain ⟨τ2, node⟩ := it
      have hap := h.1 _ hrest
      cases node with
      | reg m2 d2 =>
        have hne : τ2 ≠ τ := by
          intro he
          exact hap.1 rfl (by rw [he])
        simp only [hne, if_false]
        exact ih h.2 hrest
      | dir m2 cs => exact ih h.2 hrest
      | special tf m2 c => exact ih h.2 hrest

theorem positions_reg_ne_nil (tree : Node) (rootElems : List Str) (hdir : tree.IsDir = true)
    (v : List Str × Node) (hv : v ∈ tree.positions rootElems) (hreg : v.2.isReg = true) :
    v.1 ≠ [] := by
  cases tree with
  | reg _ _ => simp [Node.IsDir] at hdir
  | special _ _ _ => simp [Node.IsDir] at hdir
  | dir mode children =>
    simp only [Node.positions, List.mem_cons] at hv
    rcases hv with rfl | hv
    · simp [Node.isReg] at hreg
    · obtain ⟨c, _, hc⟩ := childrenPositions_form children rootElems v hv
      intro h1
      rw [h1] at hc
      have := hc.length_le
      simp at this

theorem keptPositions_treeLike (tree : Node) (rootElems d : List Str) (excludes : List Str)
    (hwf : tree.wf) (hdir : tree.IsDir = true) :
    treeLike ((keptPositions tree rootElems excludes).map (fun v => (d ++ v.1, v.2))) := by
  have hall : treeLike ((tree.positions rootElems).map (fun v => (d ++ v.1, v.2))) := by
    constructor
    · apply List.Pairwise.map _ _ (positions_apart tree rootElems hwf)
      intro a b hab
      exact ⟨fun hr hp => hab.1 hr ((List.prefix_append_right_inj d).mp hp),
        fun hr hp => hab.2 hr ((List.prefix_append_right_inj d).mp hp)⟩
    · intro it hit hreg
      obtain ⟨v, hv, rfl⟩ := List.mem_map.mp hit
      intro hnil
      exact positions_reg_ne_nil tree rootElems hdir v hv hreg (List.append_eq_nil.mp hnil).2
  exact treeLike_sublist ((List.filter_sublist _).map _) hall

theorem emptyBelow_not_blocked (base : FS) (d x q : List Str) (h : emptyBelow base d)
    (hq : q <+: d ++ x) : base.blocked q = false := by
  rcases List.prefix_or_prefix_of_prefix hq (List.prefix_append d x) with h1 | h1
  · exact h.1 q h1
  · by_cases hqd : q = d
    · rw [hqd]; exact h.1 d (List.prefix_refl d)
    · unfold FS.blocked
      rw [h.2 q h1 hqd]

theorem builtArchive_eq (tree : Node) (rootElems : List Str) (excludes : List Str)
    (hwf : tree.wf) (hplain : tree.plain = true) (hroot : ∀ e ∈ rootElems, goodName e) :
    builtArchive tree rootElems excludes =
      ⟨(keptPositions tree rootElems excludes).map (fun v => archiveEntry (render v.1, v.2)),
        true⟩ := by
  unfold builtArchive
  have hc := createTarball_plain_run
    (fun p => if p = render rootElems then some tree else none) [render rootElems] excludes
    (by
      intro root hr info hinfo
      have hr2 : root = render rootElems := by simpa using hr
      subst hr2
      have : info = tree := by simpa using hinfo.symm
      rw [this]; exact hplain)
  rw [hc]
  simp only [List.flatMap_cons, List.flatMap_nil, List.append_nil, rootEntries, if_true]
  unfold includedEntries keptPositions TarWriter.archive
  rw [walkEntries_eq_positions tree rootElems hwf hroot, List.filter_map, List.map_map]
  rfl

/-- The state of the destination after the round trip. -/
theorem roundtrip_state (tree : Node) (rootElems d : List Str) (excludes : List Str)
    (u : Nat) (base : FS) (hwf : tree.wf) (hplain : tree.plain = true)
    (hdir : tree.IsDir = true) (hroot : ∀ e ∈ rootElems, goodName e)
    (hd : ∀ e ∈ d, goodName e) (hbase : emptyBelow base d) :
    extractTarball u (some (builtArchive tree rootElems excludes)) (render d) base =
      (restored u base
        ((keptPositions tree rootElems excludes).map (fun v => (d ++ v.1, v.2))), none) := by
  rw [extractTarball_some, builtArchive_eq tree rootElems excludes hwf hplain hroot]
  have hloop := extractLoop_restored u base d hd (keptPositions tree rootElems excludes) []
    (by
      intro v hv
      have hv2 : v ∈ tree.positions rootElems := (List.mem_filter.mp hv).1
      refine ⟨positions_good tree rootElems hwf hroot v hv2,
        positions_plain tree rootElems hplain v hv2,
        fun q hq => emptyBelow_not_blocked base d v.1 q hbase hq, ?_⟩
      intro hreg
      apply hbase.2 _ (List.prefix_append d v.1)
      intro heq
      have : v.1 = [] := by
        have h2 : d ++ v.1 = d ++ [] := by rw [heq, List.append_nil]
        exact List.append_cancel_left h2
      exact positions_reg_ne_nil tree rootElems hdir v hv2 hreg this)
    (by simpa using keptPositions_treeLike tree rootElems d excludes hwf hdir)
  rw [restored_nil] at hloop
  show (match extractLoop u (render d) _ base with
    | (s1, some err) => (s1, some err)
    | (s1, none) => (s1, if true = true then none else some Err.unexpectedEOF)) = _
  rw [hloop]
  rfl

theorem emptyBelow_emptyFS (rootMode : Nat) (d : List Str) : emptyBelow (emptyFS rootMode) d := by
  constructor
  · intro q _
    unfold FS.blocked emptyFS
    by_cases hq : q = [] <;> simp [hq]
  · intro q hq hne
    unfold emptyFS
    have : q ≠ [] := by
      intro h
      rw [h] at hq hne
      exact hne (List.prefix_nil.mp hq).symm
    simp [this]

theorem createMode_zero (perm : Nat) : createMode perm 0 = perm % 512 := by
  unfold createMode
  have h : (511 : Nat) ^^^ (0 % 512) = 2 ^ 9 - 1 := by decide
  rw [h, Nat.and_pow_two_sub_one_eq_mod]
  simp

theorem mem_keptPositions (tree : Node) (rootElems : List Str) (excludes : List Str)
    (v : List Str × Node) :
    v ∈ keptPositions tree rootElems excludes ↔
      v ∈ tree.positions rootElems ∧ isExcluded (render v.1) excludes = false := by
  unfold keptPositions
  simp [List.mem_filter]

/-- C3, as stated, fails: the directory /state has mode 0700 in the tree; after
the round trip into /restore (umask 0) the directory /restore/state has mode
0755, the constant that extractTarball passes to os.MkdirAll. -/
theorem roundtrip_directory_mode_not_restored :
    (extractTarball 0
      (some (builtArchive (.dir 0o700 [("a.txt".toList, .reg 0o644 "alpha".toList)])
        ["state".toList] []))
      "/restore".toList (emptyFS 0o755)).2 = none ∧
    (extractTarball 0
      (some (builtArchive (.dir 0o700 [("a.txt".toList, .reg 0o644 "alpha".toList)])
        ["state".toList] []))
      "/restore".toList (emptyFS 0o755)).1 ["restore".toList, "state".toList] =
        some (.dir 0o755) ∧
    (0o755 : Nat) ≠ 0o700 := by
  decide

/-- C3, amended: let T be a well-formed tree of directories and readable regular
files whose root directory is at a clean rooted path, and take any exclusion
list, any umask, and any clean rooted destination root that is empty (nothing
exists below it; the root and the directories above it are directories, as far
as they exist). Extracting the archive that createTarball built from T succeeds,
and afterwards, under the destination root: every regular file of T that no
pattern matches is at its path with its content and with its permission bits as
far as the umask leaves them (all nine under umask 0); every directory of T that
no pattern matches is a directory at its path, and so is every directory above a
restored entry, also one that a pattern matches; the directories that the
extraction creates have mode 0755 (before umask) and not their mode in T; what
existed before stays as it was, and nothing else is there. -/
theorem roundtrip_restores (tree : Node) (rootElems d : List Str) (excludes : List Str)
    (u : Nat) (base : FS) (hwf : tree.wf) (hplain : tree.plain = true)
    (hdir : tree.IsDir = true) (hroot : ∀ e ∈ rootElems, goodName e)
    (hd : ∀ e ∈ d, goodName e) (hbase : emptyBelow base d) :
    (extractTarball u (some (builtArchive tree rootElems excludes)) (render d) base).2 = none ∧
    (∀ pos mode data, (pos, Node.reg mode data) ∈ tree.positions rootElems →
      isExcluded (render pos) excludes = false →
      (extractTarball u (some (builtArchive tree rootElems excludes)) (render d) base).1
        (d ++ pos) = some (.file (createMode mode u) data)) ∧
    (∀ v ∈ tree.positions rootElems, isExcluded (render v.1) excludes = false →
      ∀ q, q <+: d ++ v.1 → base q = none → (v.2.isReg = true → q ≠ d ++ v.1) →
      (extractTarball u (some (builtArchive tree rootElems excludes)) (render d) base).1 q =
        some (.dir (createMode 0o755 u))) ∧
    (∀ q o, base q = some o →
      (extractTarball u (some (builtArchive tree rootElems excludes)) (render d) base).1 q =
        some o) ∧
    (∀ q, (extractTarball u (some (builtArchive tree rootElems excludes)) (render d) base).1 q
        ≠ none →
      base q ≠ none ∨ ∃ v ∈ tree.positions rootElems,
        isExcluded (render v.1) excludes = false ∧ q <+: d ++ v.1) := by
  rw [roundtrip_state tree rootElems d excludes u base hwf hplain hdir hroot hd hbase]
  have htl := keptPositions_treeLike tree rootElems d excludes hwf hdir
  refine ⟨rfl, ?_, ?_, ?_, ?_⟩
  · intro pos mode data hmem hex
    have hk : (d ++ pos, Node.reg mode data) ∈
        (keptPositions tree rootElems excludes).map (fun v => (d ++ v.1, v.2)) :=
      List.mem_map.mpr ⟨(pos, Node.reg mode data),
        (mem_keptPositions _ _ _ _).mpr ⟨hmem, hex⟩, rfl⟩
    show restored u base _ (d ++ pos) = _
    unfold restored
    rw [regAt_of_mem _ htl.1 (d ++ pos) mode data hk]
  · intro v hv hex q hq hq0 hqv
    have hk : (d ++ v.1, v.2) ∈
        (keptPositions tree rootElems excludes).map (fun v => (d ++ v.1, v.2)) :=
      List.mem_map.mpr ⟨v, (mem_keptPositions _ _ _ _).mpr ⟨hv, hex⟩, rfl⟩
    have hnone : regAt ((keptPositions tree rootElems excludes).map
        (fun v => (d ++ v.1, v.2))) q = none := by
      cases hr : regAt ((keptPositions tree rootElems excludes).map
          (fun v => (d ++ v.1, v.2))) q with
      | none => rfl
      | some md =>
        obtain ⟨m, data⟩ := md
        have hmem := regAt_some hr
        exfalso
        by_cases heq : (q, Node.reg m data) = (d ++ v.1, v.2)
        · injection heq with h1 h2
          exact hqv (by rw [← h2]; rfl) h1
        · exact (List.Pairwise.forall apart_symm htl.1 hmem hk heq).1 rfl hq
    have hcov : covered ((keptPositions tree rootElems excludes).map
        (fun v => (d ++ v.1, v.2))) q = true :=
      List.any_eq_true.mpr ⟨_, hk, List.isPrefixOf_iff_prefix.mpr hq⟩
    show restored u base _ q = _
    unfold restored
    rw [hnone, hq0]
    simp [hcov]
  · intro q o hq
    show restored u base _ q = _
    unfold restored
    cases hr : regAt ((keptPositions tree rootElems excludes).map
        (fun v => (d ++ v.1, v.2))) q with
    | none => simp [hq]
    | some md =>
      obtain ⟨m, data⟩ := md
      exfalso
      have hmem := regAt_some hr
      obtain ⟨v, hv, hveq⟩ := List.mem_map.mp hmem
      have hv2 := (mem_keptPositions _ _ _ _).mp hv
      injection hveq with h1 h2
      have hne : v.1 ≠ [] :=
        positions_reg_ne_nil tree rootElems hdir v hv2.1 (by rw [h2]; rfl)
      have hfree : base (d ++ v.1) = none := by
        apply hbase.2 _ (List.prefix_append d v.1)
        intro heq
        have h3 : d ++ v.1 = d ++ [] := by rw [heq, List.append_nil]
        exact hne (List.append_cancel_left h3)
      rw [h1, hq] at hfree
      cases hfree
  · intro q hq
    have hq2 : restored u base ((keptPositions tree rootElems excludes).map
        (fun v => (d ++ v.1, v.2))) q ≠ none := hq
    unfold restored at hq2
    cases hr : regAt ((keptPositions tree rootElems excludes).map
        (fun v => (d ++ v.1, v.2))) q with
    | some md =>
      obtain ⟨m, data⟩ := md
      have hmem := regAt_some hr
      obtain ⟨v, hv, hveq⟩ := List.mem_map.mp hmem
      have hv2 := (mem_keptPositions _ _ _ _).mp hv
      right
      refine ⟨v, hv2.1, hv2.2, ?_⟩
      injection hveq with h1 h2
      rw [h1]
    | none =>
      rw [hr] at hq2
      cases hb : base q with
      | some o => left; simp
      | none =>
        right
        rw [hb] at hq2
        by_cases hc : covered ((keptPositions tree rootElems excludes).map
            (fun v => (d ++ v.1, v.2))) q = true
        · obtain ⟨it, hit, hpre⟩ := List.any_eq_true.mp hc
          obtain ⟨v, hv, hveq⟩ := List.mem_map.mp hit
          have hv2 := (mem_keptPositions _ _ _ _).mp hv
          refine ⟨v, hv2.1, hv2.2, ?_⟩
          rw [← hveq] at hpre
          exact List.isPrefixOf_iff_prefix.mp hpre
        · simp [hc] at hq2

theorem roundtrip_restores_witness :
    (extractTarball 0
      (some (builtArchive (.dir 0o700 [("a.txt".toList, .reg 0o644 "alpha".toList),
        ("b.log".toList, .reg 0o600 "beta".toList)]) ["state".toList] ["*.log".toList]))
      (render ["restore".toList]) (emptyFS 0o755)).1
        (["restore".toList] ++ ["state".toList, "a.txt".toList]) =
      some (.file (createMode 0o644 0) "alpha".toList) :=
  (roundtrip_restores (.dir 0o700 [("a.txt".toList, .reg 0o644 "alpha".toList),
      ("b.log".toList, .reg 0o600 "beta".toList)]) ["state".toList] ["restore".toList]
    ["*.log".toList] 0 (emptyFS 0o755)
    (by simp [Node.wf, wfChildren, goodName])
    (by decide) rfl
    (by intro e he; have : e = "state".toList := by simpa using he
        rw [this]; decide)
    (by intro e he; have : e = "restore".toList := by simpa using he
        rw [this]; decide)
    (emptyBelow_emptyFS 0o755 _)).2.1
    ["state".toList, "a.txt".toList] 0o644 "alpha".toList
    (by simp [Node.positions, childrenPositions])
    (by decide)


/-! ## The exclusion decision over a pattern list -/

/-- The loop of the callback over the patterns is the test that some pattern of
the list matches. -/
theorem isExcluded_eq_any (file : Str) (excludes : List Str) :
    isExcluded file excludes = excludes.any (excludeTest file) := by
  induction excludes with
  | nil => rfl
  | cons e rest ih =>
    rw [isExcluded, List.any_cons, ih]
    cases excludeTest file e <;> rfl

/-- An entry is excluded exactly when some pattern of the list matches it. -/
theorem isExcluded_iff (file : Str) (excludes : List Str) :
    isExcluded file excludes = true ↔ ∃ e ∈ excludes, excludeTest file e = true := by
  rw [isExcluded_eq_any, List.any_eq_true]

/-- The exclusion decision does not depend on the order of the patterns. -/
theorem isExcluded_of_perm (file : Str) {l1 l2 : List Str} (h : l1.Perm l2) :
    isExcluded file l1 = isExcluded file l2 := by
  rw [Bool.eq_iff_iff, isExcluded_iff, isExcluded_iff]
  constructor
  · rintro ⟨e, he, ht⟩
    exact ⟨e, h.mem_iff.mp he, ht⟩
  · rintro ⟨e, he, ht⟩
    exact ⟨e, h.mem_iff.mpr he, ht⟩

/-- C18: for every entry and every two exclusion-pattern lists that are
permutations of each other, the exclusion decision of the callback of
createTarball is the same, and so is the whole step of the callback on that
entry; the entry is excluded if and only if at least one pattern of the list
matches it. -/
theorem isExcluded_perm_invariant (file : Str) (l1 l2 : List Str) (h : l1.Perm l2) :
    isExcluded file l1 = isExcluded file l2 ∧
    (isExcluded file l1 = true ↔ ∃ e ∈ l1, excludeTest file e = true) ∧
    (isExcluded file l2 = true ↔ ∃ e ∈ l2, excludeTest file e = true) ∧
    ∀ (faults : Faults) (fi : Option Node) (err : Bool) (tw : TarWriter),
      tarballWalkFn faults l1 file fi err tw = tarballWalkFn faults l2 file fi err tw := by
  refine ⟨isExcluded_of_perm file h, isExcluded_iff file l1, isExcluded_iff file l2, ?_⟩
  intro faults fi err tw
  unfold tarballWalkFn
  rw [isExcluded_of_perm file h]

/-- C18 on an instance: the two orders of the patterns *.log and *.tmp exclude
the entry /var/lib/maculaos/a.tmp alike. -/
theorem isExcluded_perm_invariant_witness :
    isExcluded "/var/lib/maculaos/a.tmp".toList ["*.log".toList, "*.tmp".toList] = true ∧
    isExcluded "/var/lib/maculaos/a.tmp".toList ["*.tmp".toList, "*.log".toList] = true := by
  have h := isExcluded_perm_invariant "/var/lib/maculaos/a.tmp".toList
    ["*.log".toList, "*.tmp".toList] ["*.tmp".toList, "*.log".toList]
    (List.Perm.swap _ _ _)
  have h1 : isExcluded "/var/lib/maculaos/a.tmp".toList
      ["*.log".toList, "*.tmp".toList] = true := by decide
  exact ⟨h1, h.1 ▸ h1⟩

/-! ## Retention without a policy -/

/-- Without a policy, or with a retention of 0 or less, applyRetention returns
at once. -/
theorem applyRetention_off (cfg : Option BackupConfig) (readFails : Bool)
    (removeFails : Str → Bool) (dir : List Str)
    (h : ∀ c, cfg = some c → c.Retention ≤ 0) :
    applyRetention cfg readFails removeFails dir = (false, dir) := by
  cases cfg with
  | none => rfl
  | some c =>
    have hc := h c rfl
    simp [applyRetention, hc]

/-! ## Unreadable entries during the build -/

/-- C14 fails on the code: in the tree /state with the files a (one byte, cannot
be opened) and b, the header of a is written before the open is tried, so the
header of b is refused (the content of a is missing), createTarball returns that
error and b is not written. When instead os.Lstat fails on a, the walk reports
the error, a is skipped and b is written. -/
theorem createTarball_unopenable_file_aborts :
    (createTarball false
      ⟨fun _ => false, fun _ => false, fun p => decide (p = "/state/a".toList)⟩
      (fun p => if p = "/state".toList then
        some (.dir 0o755 [("a".toList, .reg 0o600 "x".toList),
          ("b".toList, .reg 0o644 "y".toList)]) else none)
      ["/state".toList] []).2 = some .missedWriting ∧
    ((createTarball false
      ⟨fun _ => false, fun _ => false, fun p => decide (p = "/state/a".toList)⟩
      (fun p => if p = "/state".toList then
        some (.dir 0o755 [("a".toList, .reg 0o600 "x".toList),
          ("b".toList, .reg 0o644 "y".toList)]) else none)
      ["/state".toList] []).1.entries.map (fun e => e.header.Name)) =
      ["/state".toList, "/state/a".toList] ∧
    (createTarball false
      ⟨fun p => decide (p = "/state/a".toList), fun _ => false, fun _ => false⟩
      (fun p => if p = "/state".toList then
        some (.dir 0o755 [("a".toList, .reg 0o600 "x".toList),
          ("b".toList, .reg 0o644 "y".toList)]) else none)
      ["/state".toList] []).2 = none ∧
    ((createTarball false
      ⟨fun p => decide (p = "/state/a".toList), fun _ => false, fun _ => false⟩
      (fun p => if p = "/state".toList then
        some (.dir 0o755 [("a".toList, .reg 0o600 "x".toList),
          ("b".toList, .reg 0o644 "y".toList)]) else none)
      ["/state".toList] []).1.entries.map (fun e => e.header.Name)) =
      ["/state".toList, "/state/b".toList] := by
  decide

/-! ## The roots that createAction archives -/

/-- The selected roots are the primary state directory, followed by the
user-data directory when it was asked for and os.Stat finds it. -/
theorem createPaths_eq (fl : Flags) (d : Dirs) :
    createPaths fl d = "/var/lib/maculaos".toList ::
      (if fl.includeUserData = true ∧ osStat d "/var/lib/data".toList = none
        then ["/var/lib/data".toList] else []) := by
  unfold createPaths
  by_cases h1 : fl.includeUserData = true
  · by_cases h2 : osStat d "/var/lib/data".toList = none
    · rw [if_pos h1, if_pos h2, if_pos ⟨h1, h2⟩]
      rfl
    · rw [if_pos h1, if_neg h2, if_neg (fun h => h2 h.2)]
  · rw [if_neg h1, if_neg (fun h => h1 h.1)]

/-- C13: the ordered list of roots that createAction archives starts with the
primary state directory /var/lib/maculaos, and contains the user-data directory
/var/lib/data if and only if include-data is set and os.Stat finds that
directory when the roots are selected; it contains no other root, and with the
user-data directory missing createAction behaves as without include-data, so
the missing directory is not an error. -/
theorem createPaths_roots (fl : Flags) (env : CreateEnv) (d : Dirs) :
    (createPaths fl d).head? = some "/var/lib/maculaos".toList ∧
    ("/var/lib/data".toList ∈ createPaths fl d ↔
      (fl.includeUserData = true ∧ osStat d "/var/lib/data".toList = none)) ∧
    (∀ p ∈ createPaths fl d,
      p = "/var/lib/maculaos".toList ∨ p = "/var/lib/data".toList) ∧
    (createPaths fl d).Nodup ∧
    (osStat d "/var/lib/data".toList ≠ none →
      createAction fl env d = createAction { fl with includeUserData := false } env d) := by
  refine ⟨?_, ?_, ?_, ?_, ?_⟩
  · rw [createPaths_eq]
    rfl
  · rw [createPaths_eq]
    by_cases h : fl.includeUserData = true ∧ osStat d "/var/lib/data".toList = none
    · rw [if_pos h]
      exact ⟨fun _ => h, fun _ => by decide⟩
    · rw [if_neg h]
      exact ⟨fun hm => absurd hm (by decide), fun hc => absurd hc h⟩
  · intro p hp
    rw [createPaths_eq] at hp
    by_cases h : fl.includeUserData = true ∧ osStat d "/var/lib/data".toList = none
    · rw [if_pos h] at hp
      rcases List.mem_cons.mp hp with h1 | h1
      · exact Or.inl h1
      · exact Or.inr (List.mem_singleton.mp h1)
    · rw [if_neg h] at hp
      exact Or.inl (List.mem_singleton.mp hp)
  · rw [createPaths_eq]
    by_cases h : fl.includeUserData = true ∧ osStat d "/var/lib/data".toList = none
    · rw [if_pos h]
      decide
    · rw [if_neg h]
      decide
  · intro hmiss
    have hp : createPaths fl d = createPaths { fl with includeUserData := false } d := by
      rw [createPaths_eq, createPaths_eq, if_neg (fun h => hmiss h.2),
        if_neg (fun h => hmiss h.2)]
    unfold createAction dispatch
    rw [hp]

/-- C13 on an instance: with include-data set and no /var/lib/data in the
state, the only root is /var/lib/maculaos. -/
theorem createPaths_roots_witness :
    createPaths ⟨"local".toList, "local".toList, [], false, false, true⟩ exampleDirs =
      ["/var/lib/maculaos".toList] ∧
    createAction ⟨"local".toList, "local".toList, [], false, false, true⟩
        (exampleEnv none) exampleDirs =
      createAction ⟨"local".toList, "local".toList, [], false, false, false⟩
        (exampleEnv none) exampleDirs :=
  ⟨by decide,
    (createPaths_roots ⟨"local".toList, "local".toList, [], false, false, true⟩
      (exampleEnv none) exampleDirs).2.2.2.2 (by decide)⟩

/-! ## Dry runs and the confirmation of a restore -/

/-- The only characters whose lower case is y. -/
theorem toLower_eq_y (c : Char) : c.toLower = 'y' ↔ c = 'y' ∨ c = 'Y' := by
  constructor
  · intro h
    unfold Char.toLower at h
    simp only at h
    split at h
    · rename_i hr
      right
      have h4 : c = Char.ofNat c.toNat := (Char.ofNat_toNat c).symm
      generalize c.toNat = n at h hr h4
      obtain ⟨h65, h90⟩ := hr
      subst h4
      interval_cases n <;> first | rfl | exact absurd h (by decide)
    · left
      exact h
  · rintro (h | h) <;> subst h <;> decide

/-- The answers that pass the confirmation test of restoreAction. -/
theorem ToLower_eq_y (s : Str) :
    ToLower s = "y".toList ↔ s = "y".toList ∨ s = "Y".toList := by
  unfold ToLower
  constructor
  · intro h
    cases s with
    | nil => exact absurd (congrArg List.length h) (by simp)
    | cons c t =>
      cases t with
      | cons c2 t2 => exact absurd (congrArg List.length h) (by simp)
      | nil =>
        have hc : c.toLower = 'y' := by
          have h1 : [c.toLower] = ['y'] := h
          exact List.head_eq_of_cons_eq h1
        rcases (toLower_eq_y c).mp hc with h2 | h2
        · left
          rw [h2]
          rfl
        · right
          rw [h2]
          rfl
  · rintro (h | h) <;> subst h <;> decide

/-- A run of restoreAction whose selection fails. -/
theorem restoreAction_failed (fl : Flags) (readDir : Option (List Str))
    (usbBackup confirm : Str) (readArchive : Str → Option Archive) (umask : Nat) (fs : FS)
    (msg : Str) (hsel : restoreSelect fl readDir usbBackup = .error msg) :
    restoreAction fl readDir usbBackup confirm readArchive umask fs = (.failed msg, fs) := by
  unfold restoreAction
  rw [hsel]

/-- A dry run of restoreAction. -/
theorem restoreAction_dryRun (fl : Flags) (readDir : Option (List Str))
    (usbBackup confirm : Str) (readArchive : Str → Option Archive) (umask : Nat) (fs : FS)
    (p : Str) (hsel : restoreSelect fl readDir usbBackup = .ok p) (hd : fl.dryRun = true) :
    restoreAction fl readDir usbBackup confirm readArchive umask fs = (.dryRun p, fs) := by
  unfold restoreAction
  rw [hsel]
  dsimp only
  rw [if_pos hd]

/-- A run of restoreAction in which the confirmation is refused. -/
theorem restoreAction_cancelled (fl : Flags) (readDir : Option (List Str))
    (usbBackup confirm : Str) (readArchive : Str → Option Archive) (umask : Nat) (fs : FS)
    (p : Str) (hsel : restoreSelect fl readDir usbBackup = .ok p) (hd : ¬ fl.dryRun = true)
    (hc : ToLower confirm ≠ "y".toList) :
    restoreAction fl readDir usbBackup confirm readArchive umask fs = (.cancelled p, fs) := by
  unfold restoreAction
  rw [hsel]
  dsimp only
  rw [if_neg hd, if_pos hc]

/-- Every run of restoreAction that reaches extractTarball, or changes the file
system, is a run without dry-run in which the answer at the prompt was y or
Y. -/
theorem restoreAction_gate (fl : Flags) (readDir : Option (List Str)) (usbBackup confirm : Str)
    (readArchive : Str → Option Archive) (umask : Nat) (fs : FS)
    (h : (∃ p e, (restoreAction fl readDir usbBackup confirm readArchive umask fs).1 =
        .extracted p e) ∨
      (restoreAction fl readDir usbBackup confirm readArchive umask fs).2 ≠ fs) :
    fl.dryRun = false ∧ (confirm = "y".toList ∨ confirm = "Y".toList) := by
  cases hsel : restoreSelect fl readDir usbBackup with
  | error msg =>
    rw [restoreAction_failed fl readDir usbBackup confirm readArchive umask fs msg hsel] at h
    rcases h with ⟨p, e, h⟩ | h
    · cases h
    · exact absurd rfl h
  | ok backupPath =>
    by_cases hd : fl.dryRun = true
    · rw [restoreAction_dryRun fl readDir usbBackup confirm readArchive umask fs _ hsel hd] at h
      rcases h with ⟨p, e, h⟩ | h
      · cases h
      · exact absurd rfl h
    · by_cases hc : ToLower confirm = "y".toList
      · exact ⟨by simpa using hd, (ToLower_eq_y confirm).mp hc⟩
      · rw [restoreAction_cancelled fl readDir usbBackup confirm readArchive umask fs _ hsel
          hd hc] at h
        rcases h with ⟨p, e, h⟩ | h
        · cases h
        · exact absurd rfl h

/-- C17: with dry-run set, createAction returns without error and leaves the
directories as they are (nothing is created, written, truncated or deleted,
and retention is not applied), and restoreAction leaves the file system as it
is and does not reach the extraction, whatever is answered at the prompt. -/
theorem dryRun_changes_nothing (fl : Flags) (env : CreateEnv) (d : Dirs)
    (readDir : Option (List Str)) (usbBackup confirm : Str)
    (readArchive : Str → Option Archive) (umask : Nat) (fs : FS)
    (h : fl.dryRun = true) :
    createAction fl env d = (none, d) ∧
    (restoreAction fl readDir usbBackup confirm readArchive umask fs).2 = fs ∧
    (∀ p e, (restoreAction fl readDir usbBackup confirm readArchive umask fs).1 ≠
      .extracted p e) ∧
    ((restoreAction fl readDir usbBackup confirm readArchive umask fs).1.isError = true ↔
      ∃ msg, restoreSelect fl readDir usbBackup = .error msg) := by
  refine ⟨?_, ?_, ?_, ?_⟩
  · unfold createAction
    simp [h]
  · by_contra hne
    have := (restoreAction_gate fl readDir usbBackup confirm readArchive umask fs
      (Or.inr hne)).1
    rw [h] at this
    cases this
  · intro p e hpe
    have := (restoreAction_gate fl readDir usbBackup confirm readArchive umask fs
      (Or.inl ⟨p, e, hpe⟩)).1
    rw [h] at this
    cases this
  · cases hsel : restoreSelect fl readDir usbBackup with
    | error msg =>
      rw [restoreAction_failed fl readDir usbBackup confirm readArchive umask fs msg hsel]
      exact ⟨fun _ => ⟨msg, rfl⟩, fun _ => rfl⟩
    | ok backupPath =>
      rw [restoreAction_dryRun fl readDir usbBackup confirm readArchive umask fs _ hsel h]
      constructor
      · intro hx
        cases hx
      · rintro ⟨msg, hm⟩
        cases hm

/-- C17 on an instance: a dry run of create with a retention of 1 keeps both
archives of the example state, and a dry run of restore --latest answered with
y leaves the empty file system empty. -/
theorem dryRun_changes_nothing_witness :
    (createAction ⟨"local".toList, "local".toList, [], true, true, false⟩
      (exampleEnv (some ⟨true, "0 2 * * *".toList, 1, "local".toList, [], []⟩))
      exampleDirs).2 backupElems = some ["old.tar.gz".toList, "older.tar.gz".toList] ∧
    (restoreAction ⟨"local".toList, "local".toList, [], true, true, false⟩
      (some ["old.tar.gz".toList]) [] "y".toList
      (fun _ => some ⟨[⟨⟨"/etc".toList, .TypeDir, 0o755, 0⟩, []⟩], true⟩) 0o022
      (emptyFS 0o755)).2 = emptyFS 0o755 := by
  have h := dryRun_changes_nothing ⟨"local".toList, "local".toList, [], true, true, false⟩
    (exampleEnv (some ⟨true, "0 2 * * *".toList, 1, "local".toList, [], []⟩)) exampleDirs
    (some ["old.tar.gz".toList]) [] "y".toList
    (fun _ => some ⟨[⟨⟨"/etc".toList, .TypeDir, 0o755, 0⟩, []⟩], true⟩) 0o022
    (emptyFS 0o755) rfl
  refine ⟨?_, h.2.1⟩
  rw [h.1]
  decide

/-! ## Path resolution in the directories -/

/-- Resolution along a concatenation resolves the first part, then the second
from where the first one ends. -/
theorem statFrom_append (d : Dirs) (a b : List Str) (cur : List Str) :
    d.statFrom cur (a ++ b) =
      match d.statFrom cur a with
      | none => d.statFrom (cur ++ a) b
      | some e => some e := by
  induction a generalizing cur with
  | nil => simp [Dirs.statFrom]
  | cons n rest ih =>
    rw [List.cons_append, Dirs.statFrom, Dirs.statFrom]
    cases hd : d cur with
    | none => rfl
    | some names =>
      dsimp only
      by_cases hn : n ∈ names
      · rw [if_pos hn, if_pos hn, ih (cur ++ [n])]
        simp
      · rw [if_neg hn, if_neg hn]

/-- Resolution reads the directories only at the proper prefixes of the path. -/
theorem statFrom_congr (d d2 : Dirs) (a : List Str) (cur : List Str)
    (h : ∀ k, k < a.length → d2 (cur ++ a.take k) = d (cur ++ a.take k)) :
    d2.statFrom cur a = d.statFrom cur a := by
  induction a generalizing cur with
  | nil => rfl
  | cons n rest ih =>
    have h0 : d2 cur = d cur := by
      simpa using h 0 (by simp)
    have hrest : ∀ k, k < rest.length →
        d2 (cur ++ [n] ++ rest.take k) = d (cur ++ [n] ++ rest.take k) := by
      intro k hk
      have := h (k + 1) (by simpa using hk)
      simpa using this
    rw [Dirs.statFrom, Dirs.statFrom, h0, ih (cur ++ [n]) hrest]

/-- Replacing the listing of a directory does not change how its own path
resolves. -/
theorem statFrom_set_self (d : Dirs) (p : List Str) (v : Option (List Str)) :
    (d.set p v).statFrom [] p = d.statFrom [] p := by
  apply statFrom_congr
  intro k hk
  have hne : p.take k ≠ p := by
    intro heq
    have := congrArg List.length heq
    rw [List.length_take] at this
    omega
  simp [Dirs.set, hne]

/-- A path with a last name resolves exactly when its directory resolves and
lists the name. -/
theorem statFrom_snoc (d : Dirs) (p : List Str) (n : Str) :
    d.statFrom [] (p ++ [n]) =
      match d.statFrom [] p with
      | some e => some e
      | none =>
        match d p with
        | none => some .notDir
        | some names => if n ∈ names then none else some .notExist := by
  rw [statFrom_append]
  cases d.statFrom [] p with
  | some e => rfl
  | none =>
    dsimp only
    rw [List.nil_append, Dirs.statFrom]
    cases d p with
    | none => rfl
    | some names =>
      dsimp only
      by_cases hn : n ∈ names
      · rw [if_pos hn, if_pos hn, Dirs.statFrom]
      · rw [if_neg hn, if_neg hn]

theorem backupDir_eq_render : backupDir = render backupElems := by
  decide

theorem backupElems_good : ∀ e ∈ backupElems, goodName e := by
  decide

theorem pathElems_backupDir : pathElems backupDir = backupElems := by
  rw [backupDir_eq_render, pathElems_render _ backupElems_good]

/-- The path of an entry of the backup directory, by its elements. -/
theorem pathElems_Join_backupDir (name : Str) (hn : goodName name) :
    pathElems (Join backupDir name) = backupElems ++ [name] := by
  rw [backupDir_eq_render, Join_render_name _ _ backupElems_good hn]
  apply pathElems_render
  intro e he
  rcases List.mem_append.mp he with h | h
  · exact backupElems_good e h
  · rw [List.mem_singleton.mp h]
    exact hn

/-- What a successful listing of the backup directory tells about the state. -/
theorem osReadDir_backupDir (d : Dirs) (names : List Str)
    (h : osReadDir false d backupDir = some names) :
    d.statFrom [] backupElems = none ∧ d backupElems = some names := by
  unfold osReadDir osStat at h
  rw [pathElems_backupDir] at h
  cases hs : d.statFrom [] backupElems with
  | some e =>
    rw [hs] at h
    simp at h
  | none =>
    rw [hs] at h
    simpa using h

/-! ## Removable media -/

/-- The loop of findUSBMount returns the first candidate that os.Stat finds,
and the empty path when it finds none. -/
theorem findUSBMountLoop_spec (d : Dirs) (cs : List Str) (hne : ∀ c ∈ cs, c ≠ []) :
    (findUSBMountLoop d cs = [] ↔ ∀ c ∈ cs, osStat d c ≠ none) ∧
    (findUSBMountLoop d cs ≠ [] →
      ∃ pre post, cs = pre ++ findUSBMountLoop d cs :: post ∧
        osStat d (findUSBMountLoop d cs) = none ∧ ∀ c ∈ pre, osStat d c ≠ none) := by
  induction cs with
  | nil =>
    refine ⟨⟨fun _ c hc => absurd hc (List.not_mem_nil c), fun _ => rfl⟩, ?_⟩
    intro h
    exact absurd rfl h
  | cons c rest ih =>
    have ih2 := ih (fun x hx => hne x (List.mem_cons_of_mem c hx))
    by_cases hc : osStat d c = none
    · have hf : findUSBMountLoop d (c :: rest) = c := by
        rw [findUSBMountLoop, if_pos hc]
      rw [hf]
      refine ⟨⟨fun h => absurd h (hne c (List.mem_cons_self c rest)),
        fun h => absurd hc (h c (List.mem_cons_self c rest))⟩, ?_⟩
      intro _
      exact ⟨[], rest, rfl, hc, fun x hx => absurd hx (List.not_mem_nil x)⟩
    · have hf : findUSBMountLoop d (c :: rest) = findUSBMountLoop d rest := by
        rw [findUSBMountLoop, if_neg hc]
      rw [hf]
      refine ⟨⟨?_, ?_⟩, ?_⟩
      · intro h x hx
        rcases List.mem_cons.mp hx with h1 | h1
        · rw [h1]
          exact hc
        · exact ih2.1.mp h x h1
      · intro h
        exact ih2.1.mpr (fun x hx => h x (List.mem_cons_of_mem c hx))
      · intro h
        obtain ⟨pre, post, h1, h2, h3⟩ := ih2.2 h
        refine ⟨c :: pre, post, ?_, h2, ?_⟩
        · rw [List.cons_append, ← h1]
        · intro x hx
          rcases List.mem_cons.mp hx with h4 | h4
          · rw [h4]
            exact hc
          · exact h3 x h4

/-- Without a mount point copyToUSB fails and leaves the state as it is. -/
theorem copyToUSB_noMount (mkdirFails : Str → Bool) (cpFails : Bool) (d : Dirs) (src : Str)
    (h : findUSBMount d = []) :
    copyToUSB mkdirFails cpFails d src = (some .noMount, d) := by
  unfold copyToUSB
  simp only [h, if_true]

/-- With a mount point, copyToUSB is the creation of the directory followed by
the copy, and fails with the first of them that fails. -/
theorem copyToUSB_mount (mkdirFails : Str → Bool) (cpFails : Bool) (d : Dirs) (src : Str)
    (h : findUSBMount d ≠ []) :
    copyToUSB mkdirFails cpFails d src =
      match osMkdirAll
        (mkdirFails (Dir (Join (Join (findUSBMount d) "maculaos-backups".toList) (Base src))))
        d (Dir (Join (Join (findUSBMount d) "maculaos-backups".toList) (Base src))) with
      | .error e => (some (.mkdirFailed e), d)
      | .ok d1 =>
        match cp cpFails d1 src
          (Join (Join (findUSBMount d) "maculaos-backups".toList) (Base src)) with
        | .error e => (some (.cpFailed e), d1)
        | .ok d2 => (none, d2) := by
  unfold copyToUSB
  simp only [h, if_false]

/-- C12, as stated, fails: in the example state the candidate /mnt/usb exists and
findUSBMount returns it, yet copyToUSB fails, because the directory on the
medium cannot be created (a read-only medium). -/
theorem copyToUSB_fails_with_mount :
    findUSBMount exampleDirs = "/mnt/usb".toList ∧
    (copyToUSB (fun _ => true) false exampleDirs
      "/var/lib/maculaos/backups/old.tar.gz".toList).1 = some (.mkdirFailed .ioFailed) := by
  decide

/-- C12, amended: findUSBMount returns the first of the candidates /mnt/usb,
/media/usb, /run/media (in that order) that os.Stat finds, and the empty path
exactly when it finds none; in that case copyToUSB fails without creating or
copying anything. When a candidate is found, copyToUSB fails exactly when the
directory maculaos-backups cannot be created under it or the command cp
fails. -/
theorem findUSBMount_copyToUSB (mkdirFails : Str → Bool) (cpFails : Bool) (d : Dirs)
    (src : Str) :
    (findUSBMount d = [] ↔ ∀ c ∈ usbCandidates, osStat d c ≠ none) ∧
    (findUSBMount d ≠ [] →
      ∃ pre post, usbCandidates = pre ++ findUSBMount d :: post ∧
        osStat d (findUSBMount d) = none ∧ ∀ c ∈ pre, osStat d c ≠ none) ∧
    ((∀ c ∈ usbCandidates, osStat d c ≠ none) →
      copyToUSB mkdirFails cpFails d src = (some .noMount, d)) ∧
    ((∃ c ∈ usbCandidates, osStat d c = none) →
      ((copyToUSB mkdirFails cpFails d src).1 ≠ none ↔
        ((∃ e, osMkdirAll
            (mkdirFails (Dir (Join (Join (findUSBMount d) "maculaos-backups".toList)
              (Base src)))) d
            (Dir (Join (Join (findUSBMount d) "maculaos-backups".toList) (Base src))) =
              .error e) ∨
         (∃ d1 e, osMkdirAll
            (mkdirFails (Dir (Join (Join (findUSBMount d) "maculaos-backups".toList)
              (Base src)))) d
            (Dir (Join (Join (findUSBMount d) "maculaos-backups".toList) (Base src))) =
              .ok d1 ∧
            cp cpFails d1 src
              (Join (Join (findUSBMount d) "maculaos-backups".toList) (Base src)) =
              .error e)))) := by
  have hne : ∀ c ∈ usbCandidates, c ≠ [] := by decide
  have hspec := findUSBMountLoop_spec d usbCandidates hne
  refine ⟨hspec.1, hspec.2, ?_, ?_⟩
  · intro h
    exact copyToUSB_noMount mkdirFails cpFails d src (hspec.1.mpr h)
  · rintro ⟨c, hc, hstat⟩
    have hm : findUSBMount d ≠ [] := fun h0 => hspec.1.mp h0 c hc hstat
    rw [copyToUSB_mount mkdirFails cpFails d src hm]
    cases hmk : osMkdirAll
        (mkdirFails (Dir (Join (Join (findUSBMount d) "maculaos-backups".toList) (Base src))))
        d (Dir (Join (Join (findUSBMount d) "maculaos-backups".toList) (Base src))) with
    | error e =>
      exact ⟨fun _ => Or.inl ⟨e, rfl⟩, fun _ h0 => by cases h0⟩
    | ok d1 =>
      dsimp only
      cases hcp : cp cpFails d1 src
          (Join (Join (findUSBMount d) "maculaos-backups".toList) (Base src)) with
      | error e =>
        refine ⟨fun _ => Or.inr ⟨d1, e, rfl, hcp⟩, fun _ h0 => by cases h0⟩
      | ok d2 =>
        constructor
        · intro h0
          exact absurd rfl h0
        · rintro (⟨e, he⟩ | ⟨d3, e, h3, he⟩)
          · cases he
          · have : d3 = d1 := by
              injection h3 with h4
              exact h4.symm
            rw [this, hcp] at he
            cases he

/-- C12 on an instance: without any candidate in the state, findUSBMount
returns the empty path and copyToUSB fails, leaving the state as it is. -/
theorem findUSBMount_copyToUSB_witness :
    findUSBMount exampleDirsNoUSB = [] ∧
    copyToUSB (fun _ => false) false exampleDirsNoUSB
      "/var/lib/maculaos/backups/old.tar.gz".toList = (some .noMount, exampleDirsNoUSB) :=
  ⟨by decide,
    (findUSBMount_copyToUSB (fun _ => false) false exampleDirsNoUSB
      "/var/lib/maculaos/backups/old.tar.gz".toList).2.2.1 (by decide)⟩

/-! ## The command delete -/

/-- The call os.Remove on a file that its directory lists. -/
theorem osRemovePath_entry (d : Dirs) (path : Str) (p : List Str) (n : Str)
    (names : List Str) (hp : pathElems path = p ++ [n])
    (hs : d.statFrom [] (p ++ [n]) = none) (hfile : d (p ++ [n]) = none)
    (hd : d p = some names) :
    osRemovePath false d path =
      .ok ((d.set p (some (names.filter (fun e => e ≠ n)))).set (p ++ [n]) none) := by
  unfold osRemovePath osStat
  rw [hp, hs]
  simp [hfile, hd]

/-- C15, as stated, fails: the backup directory of the example state holds no
archive named ../backup.yaml, yet deleteAction with that name returns no error
and removes the policy file /var/lib/maculaos/backup.yaml. -/
theorem deleteAction_removes_outside_backupDir :
    osReadDir false exampleDirs backupDir =
      some ["old.tar.gz".toList, "older.tar.gz".toList] ∧
    exampleDirs ["var".toList, "lib".toList, "maculaos".toList] =
      some ["backup.yaml".toList, "backups".toList] ∧
    (deleteAction ["../backup.yaml".toList] false exampleDirs).1 = none ∧
    (deleteAction ["../backup.yaml".toList] false exampleDirs).2
      ["var".toList, "lib".toList, "maculaos".toList] = some ["backups".toList] := by
  decide

/-- C15, amended: for a name that is a file name (not empty, without separator,
neither "." nor ".."), deleteAction removes exactly the file of that name from
the local backup directory when the removal does not fail, leaving every other
entry and every other directory as they are; when the directory has no entry of
that name it fails with the not-found error and removes nothing. -/
theorem deleteAction_named (name : Str) (rest : List Str) (removeFails : Bool) (d : Dirs)
    (names : List Str) (hn : goodName name)
    (hdir : osReadDir false d backupDir = some names) :
    (name ∉ names →
      deleteAction (name :: rest) removeFails d = (some (.notFound name), d)) ∧
    (name ∈ names → d (backupElems ++ [name]) = none → removeFails = false →
      (deleteAction (name :: rest) removeFails d).1 = none ∧
      (deleteAction (name :: rest) removeFails d).2 backupElems =
        some (names.filter (fun e => e ≠ name)) ∧
      ∀ q, q ≠ backupElems → (deleteAction (name :: rest) removeFails d).2 q = d q) := by
  obtain ⟨hs, hd⟩ := osReadDir_backupDir d names hdir
  have hp := pathElems_Join_backupDir name hn
  have hstat : osStat d (Join backupDir name) =
      if name ∈ names then none else some .notExist := by
    unfold osStat
    rw [hp, statFrom_snoc, hs]
    dsimp only
    rw [hd]
  constructor
  · intro hnot
    rw [if_neg hnot] at hstat
    unfold deleteAction
    dsimp only
    rw [if_pos hstat]
  · intro hmem hfile hrm
    rw [if_pos hmem] at hstat
    have hs2 : d.statFrom [] (backupElems ++ [name]) = none := by
      have := hstat
      unfold osStat at this
      rw [hp] at this
      exact this
    have hrun : deleteAction (name :: rest) removeFails d =
        (none, (d.set backupElems (some (names.filter (fun e => e ≠ name)))).set
          (backupElems ++ [name]) none) := by
      unfold deleteAction
      dsimp only
      rw [hstat, if_neg (by simp), hrm,
        osRemovePath_entry d _ backupElems name names hp hs2 hfile hd]
    rw [hrun]
    refine ⟨rfl, ?_, ?_⟩
    · simp [Dirs.set]
    · intro q hq
      by_cases hq2 : q = backupElems ++ [name]
      · rw [hq2]
        simp [Dirs.set, hfile]
      · simp [Dirs.set, hq, hq2]

/-- C15 on an instance: deleting old.tar.gz from the example state leaves
older.tar.gz, and deleting a name that is not there fails with not-found. -/
theorem deleteAction_named_witness :
    (deleteAction ["old.tar.gz".toList] false exampleDirs).2 backupElems =
      some ["older.tar.gz".toList] ∧
    deleteAction ["new.tar.gz".toList] false exampleDirs =
      (some (.notFound "new.tar.gz".toList), exampleDirs) := by
  have h := deleteAction_named "old.tar.gz".toList [] false exampleDirs
    ["old.tar.gz".toList, "older.tar.gz".toList] (by decide) (by decide)
  have h2 := deleteAction_named "new.tar.gz".toList [] false exampleDirs
    ["old.tar.gz".toList, "older.tar.gz".toList] (by decide) (by decide)
  refine ⟨?_, h2.1 (by decide)⟩
  rw [(h.2 (by decide) (by decide) rfl).2.1]
  decide

/-! ## The command create after the build -/

/-- A successful os.Create leaves a path that os.Stat finds. -/
theorem osCreate_ok_stat (fails : Bool) (d d2 : Dirs) (path : Str)
    (h : osCreate fails d path = .ok d2) : osStat d2 path = none := by
  unfold osCreate at h
  cases fails with
  | true => simp at h
  | false =>
    simp only [Bool.false_eq_true, if_false] at h
    cases hrev : (pathElems path).reverse with
    | nil =>
      rw [hrev] at h
      cases h
    | cons n parentRev =>
      rw [hrev] at h
      dsimp only at h
      have hp : pathElems path = parentRev.reverse ++ [n] := by
        have := congrArg List.reverse hrev
        simpa using this
      cases hs : d.statFrom [] parentRev.reverse with
      | some e =>
        rw [hs] at h
        cases h
      | none =>
        rw [hs] at h
        dsimp only at h
        cases hd : d parentRev.reverse with
        | none =>
          rw [hd] at h
          cases h
        | some names =>
          rw [hd] at h
          dsimp only at h
          unfold osStat
          rw [hp, statFrom_snoc]
          by_cases hn : n ∈ names
          · rw [if_pos hn] at h
            by_cases hdir : (d (parentRev.reverse ++ [n])).isSome = true
            · rw [if_pos hdir] at h
              cases h
            · rw [if_neg hdir] at h
              have h2 : d2 = d := by
                injection h with h3
                exact h3.symm
              rw [h2, hs]
              dsimp only
              rw [hd]
              dsimp only
              rw [if_pos hn]
          · rw [if_neg hn] at h
            have h2 : d2 = d.set parentRev.reverse (some (names ++ [n])) := by
              injection h with h3
              exact h3.symm
            rw [h2, statFrom_set_self, hs]
            dsimp only
            have h4 : (d.set parentRev.reverse (some (names ++ [n]))) parentRev.reverse =
                some (names ++ [n]) := by
              simp [Dirs.set]
            rw [h4]
            simp

/-- After a build that returns no error, os.Stat finds the archive. -/
theorem createTarballDest_ok_stat (dst : DestFaults) (faults : Faults)
    (lstat : Str → Option Node) (d : Dirs) (dest : Str) (paths excludes : List Str)
    (h : (createTarballDest dst faults lstat d dest paths excludes).err = none) :
    osStat (createTarballDest dst faults lstat d dest paths excludes).dirs dest = none := by
  unfold createTarballDest at h ⊢
  cases hc : osCreate dst.createFails d dest with
  | error e =>
    rw [hc] at h
    cases h
  | ok d1 =>
    exact osCreate_ok_stat _ _ _ _ hc

/-- A build whose destination cannot be created returns the error of os.Create
and leaves the directories as they are. -/
theorem createTarballDest_create_error (dst : DestFaults) (faults : Faults)
    (lstat : Str → Option Node) (d : Dirs) (dest : Str) (paths excludes : List Str)
    (e : Err) (h : osCreate dst.createFails d dest = .error e) :
    (createTarballDest dst faults lstat d dest paths excludes).err = some e ∧
    (createTarballDest dst faults lstat d dest paths excludes).dirs = d := by
  unfold createTarballDest
  rw [h]
  exact ⟨rfl, rfl⟩

/-- Without a fault of the destination the callback is the one of
createTarball. -/
theorem tarballWalkFnDest_none (faults : Faults) (excludes : List Str) :
    tarballWalkFnDest DestFaults.none faults excludes = tarballWalkFn faults excludes := by
  funext file fi err tw
  unfold tarballWalkFnDest tarballWalkFn
  simp [DestFaults.none]

/-- Without a fault of the destination the loop over the roots is the one of
createTarball. -/
theorem createLoopDest_none (faults : Faults) (lstat : Str → Option Node)
    (excludes : List Str) (paths : List Str) (tw : TarWriter) :
    createLoopDest DestFaults.none faults lstat excludes paths tw =
      createLoop faults lstat excludes paths tw := by
  induction paths generalizing tw with
  | nil => rfl
  | cons path rest ih =>
    rw [createLoopDest, createLoop, tarballWalkFnDest_none]
    rcases Walk faults (tarballWalkFn faults excludes) path (lstat path) tw with ⟨tw1, _ | e⟩
    · exact ih tw1
    · rfl

/-- With a policy that asks for no retention, the retention pass leaves the
directories as they are. -/
theorem applyRetentionIn_off (cfg : Option BackupConfig) (readFails : Bool)
    (removeFails : Str → Bool) (d : Dirs) (h : ∀ c, cfg = some c → c.Retention ≤ 0) :
    applyRetentionIn cfg readFails removeFails d = (false, d) := by
  unfold applyRetentionIn
  cases hrd : osReadDir false d backupDir with
  | none =>
    dsimp only
    rw [applyRetention_off cfg true removeFails [] h]
  | some names =>
    dsimp only
    rw [applyRetention_off cfg readFails removeFails names h]
    have hd := (osReadDir_backupDir d names hrd).2
    have hset : d.set (pathElems backupDir) (some names) = d := by
      funext q
      unfold Dirs.set
      by_cases hq : q = pathElems backupDir
      · rw [if_pos hq, hq, pathElems_backupDir, hd]
      · rw [if_neg hq]
    rw [hset]

/-- An upload to object storage only sets the warning. -/
theorem dispatch_s3 (fl : Flags) (env : CreateEnv) (d : Dirs) (backupPath : Str)
    (h : fl.backupTarget = "s3".toList) : dispatch fl env d backupPath = (true, d) := by
  unfold dispatch
  rw [h, if_neg (by decide), if_pos rfl]
  rfl

/-- A copy to removable media without a mount point only sets the warning. -/
theorem dispatch_usb_noMount (fl : Flags) (env : CreateEnv) (d : Dirs) (backupPath : Str)
    (h : fl.backupTarget = "usb".toList) (hm : findUSBMount d = []) :
    dispatch fl env d backupPath = (true, d) := by
  unfold dispatch
  rw [if_pos h, copyToUSB_noMount _ _ _ _ hm]

/-- A run of createAction in which the backup directory is there and the build
returns no error: no error is returned, and the state is the one after the
switch on the target and the retention pass. -/
theorem createAction_ok (fl : Flags) (env : CreateEnv) (d d1 : Dirs)
    (hdry : fl.dryRun = false)
    (hmk : osMkdirAll (env.mkdirFails backupDir) d backupDir = .ok d1)
    (htar : (createTarballDest env.dst env.faults env.lstat d1
      (Join backupDir (backupName env.hostname env.now)) (createPaths fl d)
      createExcludes).err = none) :
    createAction fl env d =
      (none, (applyRetentionIn env.policy env.readFails env.removeFails
        (dispatch fl env
          (createTarballDest env.dst env.faults env.lstat d1
            (Join backupDir (backupName env.hostname env.now)) (createPaths fl d)
            createExcludes).dirs
          (Join backupDir (backupName env.hostname env.now))).2).2) := by
  unfold createAction
  dsimp only
  rw [hdry, if_neg (by decide), hmk]
  dsimp only
  rw [htar]

/-- A run of createAction in which the build returns an error. -/
theorem createAction_backupFailed (fl : Flags) (env : CreateEnv) (d d1 : Dirs) (e : Err)
    (hdry : fl.dryRun = false)
    (hmk : osMkdirAll (env.mkdirFails backupDir) d backupDir = .ok d1)
    (htar : (createTarballDest env.dst env.faults env.lstat d1
      (Join backupDir (backupName env.hostname env.now)) (createPaths fl d)
      createExcludes).err = some e) :
    (createAction fl env d).1 = some (.backupFailed e) := by
  unfold createAction
  dsimp only
  rw [hdry, if_neg (by decide), hmk]
  dsimp only
  rw [htar]

/-- A write to the destination that fails while a header is written makes the
callback return the error. -/
theorem tarballWalkFnDest_header_error (dst : DestFaults) (faults : Faults)
    (excludes : List Str) (file : Str) (fi : Node) (tw tw1 : TarWriter) (hdr : Header)
    (hex : isExcluded file excludes = false) (hh : FileInfoHeader fi file = some hdr)
    (hw : tw.WriteHeader { hdr with Name := file } = .ok tw1)
    (hf : dst.headerFails file = true) :
    (tarballWalkFnDest dst faults excludes file (some fi) false tw).2 = some .ioFailed := by
  unfold tarballWalkFnDest
  simp [hex, hh, hw, hf]

/-- A write to the destination that fails while the content of a file is copied
makes the callback return the error. -/
theorem tarballWalkFnDest_copy_error (dst : DestFaults) (faults : Faults)
    (excludes : List Str) (file : Str) (fi : Node) (tw tw1 : TarWriter) (hdr : Header)
    (data : Str) (complete : Bool)
    (hex : isExcluded file excludes = false) (hh : FileInfoHeader fi file = some hdr)
    (hw : tw.WriteHeader { hdr with Name := file } = .ok tw1)
    (hf : dst.headerFails file = false) (hdir : fi.IsDir = false)
    (hopen : osOpen faults file fi = .reads data complete)
    (hc : dst.copyFails file = true) :
    (tarballWalkFnDest dst faults excludes file (some fi) false tw).2 = some .ioFailed := by
  unfold tarballWalkFnDest
  simp [hex, hh, hw, hf, hdir, hopen, hc]

/-- The retention pass runs after the switch on the target, whatever the target:
in the example state without a mount point, with a backup directory that holds
old.tar.gz and older.tar.gz and a policy with retention 1, createAction
--target=usb returns no error, and the retention pass removes the archive that
the run has written, its name being smaller than older.tar.gz. -/
theorem createAction_new_archive_pruned :
    (createAction (exampleFlags "usb".toList) (exampleEnv (some (examplePolicy 1)))
      exampleDirsNoUSB).1 = none ∧
    osStat (createAction (exampleFlags "usb".toList) (exampleEnv (some (examplePolicy 1)))
      exampleDirsNoUSB).2 (createBackupPath (exampleEnv (some (examplePolicy 1)))) =
      some .notExist ∧
    (createAction (exampleFlags "usb".toList) (exampleEnv (some (examplePolicy 1)))
      exampleDirsNoUSB).2 backupElems = some ["older.tar.gz".toList] := by
  decide

/-- C16, as stated, fails: createAction asks for no confirmation and has no flag
that grants one; in the example state with a policy of retention 1, a run
without dry-run removes the archive old.tar.gz of the backup directory. -/
theorem createAction_retention_unconfirmed :
    (exampleFlags "local".toList).dryRun = false ∧
    exampleDirs backupElems = some ["old.tar.gz".toList, "older.tar.gz".toList] ∧
    (createAction (exampleFlags "local".toList) (exampleEnv (some (examplePolicy 1)))
      exampleDirs).1 = none ∧
    (createAction (exampleFlags "local".toList) (exampleEnv (some (examplePolicy 1)))
      exampleDirs).2 backupElems = some ["older.tar.gz".toList] := by
  decide

/-- C16, amended: the extraction in restoreAction is reached, and the file
system changed, only in a run without dry-run in which the operator answered y
or Y at the prompt. The archive deletions of applyRetention ask for no
confirmation: createAction runs the retention pass in every run without dry-run
in which the backup directory is there and createTarball returns no error, and
with dry-run it leaves the directories as they are. -/
theorem destructive_steps_gates (fl : Flags) (readDir : Option (List Str))
    (usbBackup confirm : Str) (readArchive : Str → Option Archive) (umask : Nat) (fs : FS)
    (env : CreateEnv) (d d1 : Dirs) :
    (((∃ p e, (restoreAction fl readDir usbBackup confirm readArchive umask fs).1 =
          .extracted p e) ∨
        (restoreAction fl readDir usbBackup confirm readArchive umask fs).2 ≠ fs) →
      fl.dryRun = false ∧ (confirm = "y".toList ∨ confirm = "Y".toList)) ∧
    (fl.dryRun = false →
      osMkdirAll (env.mkdirFails backupDir) d backupDir = .ok d1 →
      (createBuild fl env d d1).err = none →
      (createAction fl env d).2 =
        (applyRetentionIn env.policy env.readFails env.removeFails
          (dispatch fl env (createBuild fl env d d1).dirs (createBackupPath env)).2).2) ∧
    (fl.dryRun = true → (createAction fl env d).2 = d) := by
  refine ⟨restoreAction_gate fl readDir usbBackup confirm readArchive umask fs, ?_, ?_⟩
  · intro hdry hmk htar
    rw [createAction_ok fl env d d1 hdry hmk htar]
    rfl
  · intro hdry
    unfold createAction
    simp [hdry]

/-- C16 on an instance: a restore --latest of an archive that holds /etc,
answered with n, leaves the empty file system as it is, and a dry run of
create with a policy of retention 1 keeps both archives. -/
theorem destructive_steps_gates_witness :
    (restoreAction ⟨"local".toList, "local".toList, [], true, false, false⟩
      (some ["old.tar.gz".toList]) [] "n".toList
      (fun _ => some ⟨[⟨⟨"/etc".toList, .TypeDir, 0o755, 0⟩, []⟩], true⟩) 0o022
      (emptyFS 0o755)).2 = emptyFS 0o755 ∧
    (createAction ⟨"local".toList, "local".toList, [], false, true, false⟩
      (exampleEnv (some (examplePolicy 1))) exampleDirs).2 = exampleDirs := by
  have h := destructive_steps_gates
    ⟨"local".toList, "local".toList, [], true, false, false⟩
    (some ["old.tar.gz".toList]) [] "n".toList
    (fun _ => some ⟨[⟨⟨"/etc".toList, .TypeDir, 0o755, 0⟩, []⟩], true⟩) 0o022
    (emptyFS 0o755) (exampleEnv (some (examplePolicy 1))) exampleDirs exampleDirs
  have h2 := destructive_steps_gates
    ⟨"local".toList, "local".toList, [], false, true, false⟩
    (some ["old.tar.gz".toList]) [] "n".toList
    (fun _ => some ⟨[⟨⟨"/etc".toList, .TypeDir, 0o755, 0⟩, []⟩], true⟩) 0o022
    (emptyFS 0o755) (exampleEnv (some (examplePolicy 1))) exampleDirs exampleDirs
  refine ⟨?_, h2.2.2 rfl⟩
  by_contra hne
  have := (h.1 (Or.inr hne)).2
  revert this
  decide

/-! ## Failures of the destination -/

/-- C20 fails on the code: when the writes of the deferred Close calls fail (the
destination runs out of space while the writers flush what they hold),
createTarball returns no error, the error of the Close calls is dropped, and
createAction returns no error although the archive is incomplete. -/
theorem createTarballDest_close_error_dropped :
    (createBuild (exampleFlags "local".toList)
      { exampleEnv none with dst := { DestFaults.none with closeFails := true } }
      exampleDirs exampleDirs).err = none ∧
    (createBuild (exampleFlags "local".toList)
      { exampleEnv none with dst := { DestFaults.none with closeFails := true } }
      exampleDirs exampleDirs).closeErr = some .ioFailed ∧
    (createAction (exampleFlags "local".toList)
      { exampleEnv none with dst := { DestFaults.none with closeFails := true } }
      exampleDirs).1 = none := by
  decide

/-- Without a fault of the destination, and with a destination that os.Create
can make, the build writes the entries and returns the error of
createTarball. -/
theorem createTarballDest_none (faults : Faults) (lstat : Str → Option Node) (d d1 : Dirs)
    (dest : Str) (paths excludes : List Str) (h : osCreate false d dest = .ok d1) :
    (createTarballDest DestFaults.none faults lstat d dest paths excludes).tw =
      (createTarball false faults lstat paths excludes).1 ∧
    (createTarballDest DestFaults.none faults lstat d dest paths excludes).err =
      (createTarball false faults lstat paths excludes).2 ∧
    (createTarballDest DestFaults.none faults lstat d dest paths excludes).dirs = d1 := by
  have hc : osCreate DestFaults.none.createFails d dest = .ok d1 := h
  unfold createTarballDest createTarball
  rw [hc, createLoopDest_none]
  exact ⟨rfl, rfl, rfl⟩

/-! ## Retention without a policy -/

/-- C19: if the backup policy cannot be read (readBackupConfig returns an
error, here no policy) or its retention is less than or equal to 0,
applyRetention deletes no archive, leaves the backup directory unchanged and
returns no error, for every content of the backup directory and whatever the
listing and the removals would do; on the directories the whole state stays as
it is. -/
theorem applyRetention_disabled (cfg : Option BackupConfig) (readFails : Bool)
    (removeFails : Str → Bool) (dir : List Str) (d : Dirs)
    (h : ∀ c, cfg = some c → c.Retention ≤ 0) :
    applyRetention cfg readFails removeFails dir = (false, dir) ∧
    applyRetentionIn cfg readFails removeFails d = (false, d) :=
  ⟨applyRetention_off cfg readFails removeFails dir h,
    applyRetentionIn_off cfg readFails removeFails d h⟩

/-- C19 on an instance: a policy with retention 0 leaves two archives alone. -/
theorem applyRetention_disabled_witness :
    applyRetention (some (examplePolicy 0)) false (fun _ => false)
      ["a.tar.gz".toList, "b.tar.gz".toList] =
      (false, ["a.tar.gz".toList, "b.tar.gz".toList]) ∧
    applyRetentionIn (some (examplePolicy 0)) false (fun _ => false) exampleDirs =
      (false, exampleDirs) :=
  applyRetention_disabled _ false _ _ exampleDirs (by
    intro c hc
    cases hc
    decide)

/-! ## The removals of the retention loop -/

/-- The loop of applyRetention is the succession of the removals that it
attempts. -/
theorem retentionLoop_foldl (retention : Int) (removeFails : Str → Bool)
    (backups : List Str) :
    ∀ dir : List Str, retentionLoop retention removeFails backups dir =
      (retentionAttempts retention backups).foldl (osRemove removeFails) dir := by
  induction backups with
  | nil => intro dir; rfl
  | cons oldest rest ih =>
    intro dir
    unfold retentionLoop retentionAttempts
    by_cases hgt : ((oldest :: rest).length : Int) > retention
    · rw [if_pos hgt, if_pos hgt, List.foldl_cons]
      exact ih _
    · rw [if_neg hgt, if_neg hgt]
      rfl

/-- The removals attempted are those of the names in excess of the retention,
from the front of the list. -/
theorem retentionAttempts_eq_take (n : Nat) (backups : List Str) :
    retentionAttempts (n : Int) backups = backups.take (backups.length - n) := by
  induction backups with
  | nil => simp [retentionAttempts]
  | cons oldest rest ih =>
    unfold retentionAttempts
    by_cases hgt : ((oldest :: rest).length : Int) > (n : Int)
    · have hlen : n ≤ rest.length := by
        have : (n : Int) < ((rest.length + 1 : Nat) : Int) := by simpa using hgt
        omega
      rw [if_pos hgt, ih]
      have h2 : (oldest :: rest).length - n = (rest.length - n) + 1 := by
        simp only [List.length_cons]
        omega
      rw [h2, List.take_succ_cons]
    · have hlen : rest.length + 1 ≤ n := by
        have : ¬ (n : Int) < ((rest.length + 1 : Nat) : Int) := by simpa using hgt
        omega
      rw [if_neg hgt]
      have h2 : (oldest :: rest).length - n = 0 := by
        simp only [List.length_cons]
        omega
      rw [h2, List.take_zero]

/-- What a succession of removals leaves of a directory. -/
theorem foldl_osRemove (removeFails : Str → Bool) (names : List Str) :
    ∀ dir : List Str, ∀ e, e ∈ names.foldl (osRemove removeFails) dir ↔
      e ∈ dir ∧ (e ∉ names ∨ removeFails e = true) := by
  induction names with
  | nil => intro dir e; simp
  | cons a rest ih =>
    intro dir e
    rw [List.foldl_cons, ih]
    unfold osRemove
    by_cases hf : removeFails a = true
    · rw [if_pos hf]
      constructor
      · rintro ⟨h1, h2⟩
        refine ⟨h1, ?_⟩
        rcases h2 with h2 | h2
        · by_cases hea : e = a
          · right
            rw [hea]
            exact hf
          · left
            simp [hea, h2]
        · exact Or.inr h2
      · rintro ⟨h1, h2⟩
        refine ⟨h1, ?_⟩
        rcases h2 with h2 | h2
        · left
          exact fun h => h2 (List.mem_cons_of_mem a h)
        · exact Or.inr h2
    · rw [if_neg hf]
      constructor
      · rintro ⟨h1, h2⟩
        have h3 := List.mem_filter.mp h1
        have hea : e ≠ a := by simpa using h3.2
        refine ⟨h3.1, ?_⟩
        rcases h2 with h2 | h2
        · left
          simp [hea, h2]
        · exact Or.inr h2
      · rintro ⟨h1, h2⟩
        have hea : e ≠ a := by
          intro h
          rcases h2 with h2 | h2
          · exact h2 (by rw [h]; exact List.mem_cons_self a rest)
          · rw [h] at h2
            exact hf h2
        refine ⟨List.mem_filter.mpr ⟨h1, by simpa using hea⟩, ?_⟩
        rcases h2 with h2 | h2
        · left
          exact fun h => h2 (List.mem_cons_of_mem a h)
        · exact Or.inr h2

/-- C26: when removals fail during applyRetention (whatever removals fail), the
loop does not stop: with a retention n > 0 and a backup directory that can be
listed, os.Remove is attempted on every archive in excess of the limit, that
is on the prior count minus n smallest names, once each and in ascending order
of name; the run ends without error, and leaves the entries that were not
attempted and those whose removal failed. -/
theorem applyRetention_attempts_all (cfg : BackupConfig) (n : Nat)
    (removeFails : Str → Bool) (dir : List Str) (hn : 0 < n)
    (hcfg : cfg.Retention = (n : Int)) :
    (applyRetention (some cfg) false removeFails dir).1 = false ∧
    (applyRetention (some cfg) false removeFails dir).2 =
      (retentionAttempts cfg.Retention (sortStrings (archivesOf dir))).foldl
        (osRemove removeFails) dir ∧
    retentionAttempts cfg.Retention (sortStrings (archivesOf dir)) =
      (sortStrings (archivesOf dir)).take ((archivesOf dir).length - n) ∧
    (retentionAttempts cfg.Retention (sortStrings (archivesOf dir))).Sorted (· ≤ ·) ∧
    (dir.Nodup → (retentionAttempts cfg.Retention (sortStrings (archivesOf dir))).Nodup) ∧
    (∀ e, e ∈ (applyRetention (some cfg) false removeFails dir).2 ↔
      e ∈ dir ∧ (e ∉ retentionAttempts cfg.Retention (sortStrings (archivesOf dir)) ∨
        removeFails e = true)) := by
  have hpos : ¬ cfg.Retention ≤ 0 := by rw [hcfg]; omega
  have hrun : applyRetention (some cfg) false removeFails dir =
      (false, retentionLoop cfg.Retention removeFails (sortStrings (archivesOf dir)) dir) := by
    simp [applyRetention, hpos, listLocalBackups, archivesOf]
  have hlen : (sortStrings (archivesOf dir)).length = (archivesOf dir).length :=
    (sortStrings_perm _).length_eq
  have htake : retentionAttempts cfg.Retention (sortStrings (archivesOf dir)) =
      (sortStrings (archivesOf dir)).take ((archivesOf dir).length - n) := by
    rw [hcfg, retentionAttempts_eq_take, hlen]
  refine ⟨by rw [hrun], ?_, htake, ?_, ?_, ?_⟩
  · rw [hrun]
    exact retentionLoop_foldl _ _ _ _
  · rw [htake]
    exact (sortStrings_sorted _).sublist (List.take_sublist _ _)
  · intro hnd
    rw [htake]
    exact ((sortStrings_perm _).nodup_iff.mpr (hnd.filter _)).sublist (List.take_sublist _ _)
  · intro e
    rw [hrun]
    show e ∈ retentionLoop cfg.Retention removeFails (sortStrings (archivesOf dir)) dir ↔ _
    rw [retentionLoop_foldl, foldl_osRemove]

/-- C26 on an instance: with a retention of 1 and the archives A, B, C, where
the removal of A fails, the removal of B is still attempted: A and C stay. -/
theorem applyRetention_attempts_all_witness :
    applyRetention (some (examplePolicy 1)) false (fun a => decide (a = "A.tar.gz".toList))
      ["A.tar.gz".toList, "B.tar.gz".toList, "C.tar.gz".toList] =
      (false, ["A.tar.gz".toList, "C.tar.gz".toList]) ∧
    retentionAttempts (examplePolicy 1).Retention
      (sortStrings (archivesOf ["A.tar.gz".toList, "B.tar.gz".toList, "C.tar.gz".toList])) =
      ["A.tar.gz".toList, "B.tar.gz".toList] := by
  have h := applyRetention_attempts_all (examplePolicy 1) 1
    (fun a => decide (a = "A.tar.gz".toList))
    ["A.tar.gz".toList, "B.tar.gz".toList, "C.tar.gz".toList] (by decide) rfl
  refine ⟨by decide, ?_⟩
  rw [h.2.2.1]
  decide

/-! ## The backup directory is left out of the archive -/

/-- A property of the state that the callback keeps is kept by the walk. -/
theorem walk_keeps {σ : Type} (faults : Faults)
    (walkFn : Str → Option Node → Bool → σ → Step σ) (P : σ → Prop)
    (hfn : ∀ file fi err st, P st → P (walkFn file fi err st).1) :
    (∀ (info : Node) (path : Str) (st : σ), P st → P (walk faults walkFn path info st).1) ∧
    (∀ (children : List (Str × Node)) (path : Str) (st : σ), P st →
      P (walkChildren faults walkFn path children st).1) := by
  have main : ∀ k : Nat,
      (∀ (info : Node), sizeOf info ≤ k → ∀ (path : Str) (st : σ), P st →
        P (walk faults walkFn path info st).1) ∧
      (∀ (children : List (Str × Node)), sizeOf children ≤ k → ∀ (path : Str) (st : σ),
        P st → P (walkChildren faults walkFn path children st).1) := by
    intro k
    induction k with
    | zero =>
      constructor
      · intro info hk
        cases info <;> simp at hk
      · intro children hk
        cases children <;> simp at hk
    | succ k ih =>
      constructor
      · intro info hk path st hst
        cases info with
        | reg mode data =>
          rw [walk]
          exact hfn _ _ _ _ hst
        | special tf mode content =>
          rw [walk]
          exact hfn _ _ _ _ hst
        | dir mode children =>
          rw [walk]
          have h1 := hfn path (some (.dir mode children)) (faults.readDirFails path) st hst
          rcases hcall : walkFn path (some (.dir mode children)) (faults.readDirFails path) st
            with ⟨st1, _ | e⟩
          · rw [hcall] at h1
            dsimp only
            by_cases hr : faults.readDirFails path = true
            · rw [if_pos hr]
              exact h1
            · rw [if_neg hr]
              apply ih.2 children _ path st1 h1
              simp at hk
              omega
          · rw [hcall] at h1
            exact h1
      · intro children hk path st hst
        cases children with
        | nil =>
          rw [walkChildren]
          exact hst
        | cons c rest =>
          obtain ⟨name, child⟩ := c
          rw [walkChildren]
          have hk2 : sizeOf child ≤ k ∧ sizeOf rest ≤ k := by
            simp at hk
            omega
          have h1 : P (if faults.lstatFails (Join path name) = true then
              walkFn (Join path name) none true st
              else walk faults walkFn (Join path name) child st).1 := by
            by_cases hl : faults.lstatFails (Join path name) = true
            · rw [if_pos hl]
              exact hfn _ _ _ _ hst
            · rw [if_neg hl]
              exact ih.1 child hk2.1 _ _ hst
          rcases hstep : (if faults.lstatFails (Join path name) = true then
              walkFn (Join path name) none true st
              else walk faults walkFn (Join path name) child st) with ⟨st1, _ | e⟩
          · rw [hstep] at h1
            exact ih.2 rest hk2.2 path st1 h1
          · rw [hstep] at h1
            exact h1
  exact ⟨fun info => (main (sizeOf info)).1 info (Nat.le_refl _),
    fun children => (main (sizeOf children)).2 children (Nat.le_refl _)⟩

/-- Content appended to the last entry leaves the headers as they are. -/
theorem appendData_headers (es : List TarEntry) (bytes : Str) :
    (appendData es bytes).map (fun e => e.header) = es.map (fun e => e.header) := by
  induction es with
  | nil => rfl
  | cons a rest ih =>
    cases rest with
    | nil => rfl
    | cons b tl =>
      rw [appendData, List.map_cons, ih]
      · rfl
      · intro h
        cases h

/-- The entries after a header is written. -/
theorem WriteHeader_ok_entries (tw tw1 : TarWriter) (hdr : Header)
    (h : tw.WriteHeader hdr = .ok tw1) : tw1.entries = tw.entries ++ [⟨hdr, []⟩] := by
  unfold TarWriter.WriteHeader at h
  by_cases hr : tw.remaining > 0
  · rw [if_pos hr] at h
    cases h
  · rw [if_neg hr] at h
    injection h with h2
    rw [← h2]

/-- The headers after content is copied. -/
theorem Copy_headers (tw : TarWriter) (data : Str) (complete : Bool) :
    (tw.Copy data complete).1.entries.map (fun e => e.header) =
      tw.entries.map (fun e => e.header) := by
  unfold TarWriter.Copy
  by_cases h : data.length > tw.remaining
  · rw [if_pos h]
    exact appendData_headers _ _
  · rw [if_neg h]
    exact appendData_headers _ _

/-- The callback of createTarball writes headers only under names that no
pattern excludes. -/
theorem tarballWalkFnDest_keeps (dst : DestFaults) (faults : Faults) (excludes : List Str)
    (file : Str) (fi : Option Node) (err : Bool) (tw : TarWriter)
    (hP : ∀ h ∈ tw.entries.map (fun e => e.header), isExcluded h.Name excludes = false) :
    ∀ h ∈ (tarballWalkFnDest dst faults excludes file fi err tw).1.entries.map
      (fun e => e.header), isExcluded h.Name excludes = false := by
  cases err with
  | true =>
    have : tarballWalkFnDest dst faults excludes file fi true tw = (tw, none) := by
      simp [tarballWalkFnDest]
    rw [this]
    exact hP
  | false =>
  cases hex : isExcluded file excludes with
  | true =>
    have : tarballWalkFnDest dst faults excludes file fi false tw = (tw, none) := by
      simp [tarballWalkFnDest, hex]
    rw [this]
    exact hP
  | false =>
  cases fi with
  | none =>
    have : tarballWalkFnDest dst faults excludes file none false tw = (tw, none) := by
      simp [tarballWalkFnDest, hex]
    rw [this]
    exact hP
  | some node =>
  cases hh : FileInfoHeader node file with
  | none =>
    have : tarballWalkFnDest dst faults excludes file (some node) false tw = (tw, none) := by
      simp [tarballWalkFnDest, hex, hh]
    rw [this]
    exact hP
  | some header =>
  cases hw : tw.WriteHeader { header with Name := file } with
  | error e =>
    have : tarballWalkFnDest dst faults excludes file (some node) false tw = (tw, some e) := by
      simp [tarballWalkFnDest, hex, hh, hw]
    rw [this]
    exact hP
  | ok tw1 =>
  have hP1 : ∀ h ∈ tw1.entries.map (fun e => e.header),
      isExcluded h.Name excludes = false := by
    intro h hm
    rw [WriteHeader_ok_entries tw tw1 _ hw, List.map_append] at hm
    rcases List.mem_append.mp hm with h1 | h1
    · exact hP h h1
    · have : h = { header with Name := file } := by simpa using h1
      rw [this]
      exact hex
  cases hf : dst.headerFails file with
  | true =>
    have : tarballWalkFnDest dst faults excludes file (some node) false tw =
        (tw, some .ioFailed) := by
      simp [tarballWalkFnDest, hex, hh, hw, hf]
    rw [this]
    exact hP
  | false =>
  cases hd : node.IsDir with
  | true =>
    have : tarballWalkFnDest dst faults excludes file (some node) false tw = (tw1, none) := by
      simp [tarballWalkFnDest, hex, hh, hw, hf, hd]
    rw [this]
    exact hP1
  | false =>
  cases ho : osOpen faults file node with
  | fails =>
    have : tarballWalkFnDest dst faults excludes file (some node) false tw = (tw1, none) := by
      simp [tarballWalkFnDest, hex, hh, hw, hf, hd, ho]
    rw [this]
    exact hP1
  | reads data complete =>
  cases hc : dst.copyFails file with
  | true =>
    have : tarballWalkFnDest dst faults excludes file (some node) false tw =
        (tw1, some .ioFailed) := by
      simp [tarballWalkFnDest, hex, hh, hw, hf, hd, ho, hc]
    rw [this]
    exact hP1
  | false =>
    have : tarballWalkFnDest dst faults excludes file (some node) false tw =
        tw1.Copy data complete := by
      simp [tarballWalkFnDest, hex, hh, hw, hf, hd, ho, hc]
    rw [this, Copy_headers]
    exact hP1

/-- The loop over the roots writes headers only under names that no pattern
excludes. -/
theorem createLoopDest_keeps (dst : DestFaults) (faults : Faults)
    (lstat : Str → Option Node) (excludes : List Str) (paths : List Str) :
    ∀ tw : TarWriter,
      (∀ h ∈ tw.entries.map (fun e => e.header), isExcluded h.Name excludes = false) →
      ∀ h ∈ (createLoopDest dst faults lstat excludes paths tw).1.entries.map
        (fun e => e.header), isExcluded h.Name excludes = false := by
  induction paths with
  | nil => intro tw hP; exact hP
  | cons path rest ih =>
    intro tw hP
    rw [createLoopDest]
    have hw : ∀ h ∈ (Walk faults (tarballWalkFnDest dst faults excludes) path (lstat path)
        tw).1.entries.map (fun e => e.header), isExcluded h.Name excludes = false := by
      unfold Walk
      cases lstat path with
      | none => exact tarballWalkFnDest_keeps dst faults excludes path none true tw hP
      | some info =>
        exact (walk_keeps faults (tarballWalkFnDest dst faults excludes)
          (fun tw => ∀ h ∈ tw.entries.map (fun e => e.header),
            isExcluded h.Name excludes = false)
          (fun file fi err st hst =>
            tarballWalkFnDest_keeps dst faults excludes file fi err st hst)).1 info path tw hP
    rcases hstep : Walk faults (tarballWalkFnDest dst faults excludes) path (lstat path) tw
      with ⟨tw1, _ | e⟩
    · rw [hstep] at hw
      exact ih tw1 hw
    · rw [hstep] at hw
      exact hw

/-- The build writes headers only under names that no pattern excludes. -/
theorem createTarballDest_keeps (dst : DestFaults) (faults : Faults)
    (lstat : Str → Option Node) (d : Dirs) (dest : Str) (paths excludes : List Str) :
    ∀ e ∈ (createTarballDest dst faults lstat d dest paths excludes).tw.entries,
      isExcluded e.header.Name excludes = false := by
  intro e he
  have hkeep := createLoopDest_keeps dst faults lstat excludes paths TarWriter.new
    (by intro h hm; cases hm)
  unfold createTarballDest at he
  cases hc : osCreate dst.createFails d dest with
  | error err =>
    rw [hc] at he
    cases he
  | ok d1 =>
    rw [hc] at he
    exact hkeep e.header (List.mem_map_of_mem _ he)

/-- The path of every entry at or below the backup directory begins with the
path of the backup directory. -/
theorem backupDir_prefix_render (a : List Str) : backupDir <+: render (backupElems ++ a) := by
  induction a using List.reverseRecOn with
  | nil =>
    rw [List.append_nil, ← backupDir_eq_render]
  | append_singleton a n ih =>
    rw [← List.append_assoc, render_snoc]
    have hne : backupElems ++ a ≠ [] := by
      intro h
      have := congrArg List.length h
      simp [backupElems] at this
    rw [if_neg hne, List.append_assoc]
    exact ih.trans (List.prefix_append _ _)

/-- A path that contains the path of the backup directory is excluded by the
patterns of createAction. -/
theorem isExcluded_of_contains_backupDir (file : Str) (h : backupDir <:+: file) :
    isExcluded file createExcludes = true := by
  have hc : Contains file backupDir = true := (Contains_iff file backupDir).mpr h
  rw [isExcluded_iff]
  exact ⟨backupDir, by decide, by unfold excludeTest; rw [hc]; rfl⟩

/-- C28: with the exclusion list of createAction, every path at or below the
local backup directory /var/lib/maculaos/backups is excluded (as is every path
that contains that path), so no entry of the archive that createAction builds
has a name at or below the backup directory, whatever tree the walk finds under
the archived roots: neither the archive being written nor an earlier archive
appears as an entry. -/
theorem backupDir_never_archived (fl : Flags) (env : CreateEnv) (d d1 : Dirs) :
    (∀ a : List Str, isExcluded (render (backupElems ++ a)) createExcludes = true) ∧
    (∀ file : Str, backupDir <:+: file → isExcluded file createExcludes = true) ∧
    (∀ e ∈ (createBuild fl env d d1).tw.entries, ¬ backupDir <:+: e.header.Name) ∧
    (∀ e ∈ (createBuild fl env d d1).tw.entries,
      ∀ a : List Str, e.header.Name ≠ render (backupElems ++ a)) := by
  have h1 : ∀ a : List Str, isExcluded (render (backupElems ++ a)) createExcludes = true :=
    fun a => isExcluded_of_contains_backupDir _ (backupDir_prefix_render a).isInfix
  have h3 : ∀ e ∈ (createBuild fl env d d1).tw.entries, ¬ backupDir <:+: e.header.Name := by
    intro e he hin
    have hk := createTarballDest_keeps env.dst env.faults env.lstat d1 (createBackupPath env)
      (createPaths fl d) createExcludes e he
    rw [isExcluded_of_contains_backupDir _ hin] at hk
    cases hk
  refine ⟨h1, isExcluded_of_contains_backupDir, h3, ?_⟩
  intro e he a hname
  apply h3 e he
  rw [hname]
  exact (backupDir_prefix_render a).isInfix

/-! ## A restore that fails on the way -/

/-- A failing loop of extractTarball fails at one entry, after the entries
before it were extracted without error. -/
theorem extractLoop_failure_split (u : Nat) (dest : Str) (entries : List TarEntry) :
    ∀ (s s2 : FS) (err : Err), extractLoop u dest entries s = (s2, some err) →
      ∃ pre e post s1, entries = pre ++ e :: post ∧
        extractLoop u dest pre s = (s1, none) ∧
        extractEntry u dest s1 e = (s2, some err) := by
  induction entries with
  | nil =>
    intro s s2 err h
    cases h
  | cons e rest ih =>
    intro s s2 err h
    rw [extractLoop_cons] at h
    rcases hstep : extractEntry u dest s e with ⟨s1, _ | err1⟩
    · rw [hstep] at h
      obtain ⟨pre, e2, post, s3, h1, h2, h3⟩ := ih s1 s2 err h
      refine ⟨e :: pre, e2, post, s3, by rw [h1]; rfl, ?_, h3⟩
      rw [extractLoop_cons, hstep]
      exact h2
    · rw [hstep] at h
      have h4 : s1 = s2 ∧ err1 = err := by
        injection h with h5 h6
        injection h6 with h7
        exact ⟨h5, h7⟩
      refine ⟨[], e, rest, s, rfl, rfl, ?_⟩
      rw [hstep, h4.1, h4.2]

/-- The loop stops at the entry that fails, whatever follows it. -/
theorem extractLoop_append_fail (u : Nat) (dest : Str) (pre : List TarEntry) (e : TarEntry) :
    ∀ (s s1 s2 : FS) (err : Err), extractLoop u dest pre s = (s1, none) →
      extractEntry u dest s1 e = (s2, some err) →
      ∀ post, extractLoop u dest (pre ++ e :: post) s = (s2, some err) := by
  induction pre with
  | nil =>
    intro s s1 s2 err h1 h2 post
    have : s = s1 := by
      injection h1
    rw [List.nil_append, extractLoop_cons, this, h2]
  | cons a rest ih =>
    intro s s1 s2 err h1 h2 post
    rw [extractLoop_cons] at h1
    rw [List.cons_append, extractLoop_cons]
    rcases hstep : extractEntry u dest s a with ⟨s3, _ | err1⟩
    · rw [hstep] at h1
      exact ih s3 s1 s2 err h1 h2 post
    · rw [hstep] at h1
      cases h1

/-- An entry changes the content of no file but its target. -/
theorem extractEntry_content_other (u : Nat) (dest : Str) (s : FS) (e : TarEntry)
    (q : List Str) (hq : q ≠ pathElems (Join dest e.header.Name)) :
    (extractEntry u dest s e).1.content q = s.content q := by
  rw [extractEntry_content]
  have hp : entryPayload u dest s e q = [] := by
    by_cases hr : e.header.Typeflag = .TypeReg
    · rw [entryPayload_TypeReg u dest s e q hr]
      cases MkdirAll u s (pathElems (Dir (Join dest e.header.Name))) 0o755 with
      | error _ => rfl
      | ok s1 =>
        dsimp only
        cases OpenFile u s1 (pathElems (Join dest e.header.Name)) e.header.Mode with
        | error _ => rfl
        | ok _ =>
          dsimp only
          rw [if_neg (fun h => hq h.symm)]
    · exact entryPayload_other u dest s e q hr
  rw [hp]
  rfl

/-- C25: when extractTarball returns an error on an archive that it could open,
either the stream broke off after its last entry and every entry was restored,
or the extraction failed at one entry: then every entry before it in stream
order was restored as by a complete extraction of those entries, every object
restored stays in place with its kind and mode, the content of every file but
the target of the failing entry stays, and no later entry is restored: the
result does not depend on what follows the failing entry. -/
theorem extractTarball_failure_keeps_prefix (umask : Nat) (archive : Archive) (dest : Str)
    (fs : FS) (err : Err) (h : (extractTarball umask (some archive) dest fs).2 = some err) :
    (∃ pre e post s1, archive.entries = pre ++ e :: post ∧
      extractTarball umask (some ⟨pre, true⟩) dest fs = (s1, none) ∧
      extractEntry umask dest s1 e =
        ((extractTarball umask (some archive) dest fs).1, some err) ∧
      grows s1 (extractTarball umask (some archive) dest fs).1 ∧
      (∀ q, q ≠ pathElems (Join dest e.header.Name) →
        (extractTarball umask (some archive) dest fs).1.content q = s1.content q) ∧
      (∀ post2 intact2,
        extractTarball umask (some ⟨pre ++ e :: post2, intact2⟩) dest fs =
          extractTarball umask (some archive) dest fs)) ∨
    (archive.intact = false ∧ err = .unexpectedEOF ∧
      extractTarball umask (some ⟨archive.entries, true⟩) dest fs =
        ((extractTarball umask (some archive) dest fs).1, none)) := by
  rw [extractTarball_some] at h ⊢
  rcases hloop : extractLoop umask dest archive.entries fs with ⟨s2, _ | err1⟩
  · right
    rw [hloop] at h
    dsimp only at h ⊢
    by_cases hi : archive.intact = true
    · rw [if_pos hi] at h
      cases h
    · rw [if_neg hi] at h
      refine ⟨by simpa using hi, ?_, ?_⟩
      · injection h with h2
        exact h2.symm
      · rw [extractTarball_some]
        dsimp only
        rw [hloop]
        rfl
  · left
    rw [hloop] at h
    dsimp only at h ⊢
    have herr : err1 = err := by
      injection h
    subst herr
    obtain ⟨pre, e, post, s1, h1, h2, h3⟩ :=
      extractLoop_failure_split umask dest archive.entries fs s2 err1 hloop
    refine ⟨pre, e, post, s1, h1, ?_, h3, ?_, ?_, ?_⟩
    · rw [extractTarball_some]
      dsimp only
      rw [h2]
      rfl
    · have := extractEntry_grows umask dest s1 e
      rw [h3] at this
      exact this
    · intro q hq
      have := extractEntry_content_other umask dest s1 e q hq
      rw [h3] at this
      exact this
    · intro post2 intact2
      rw [extractTarball_some]
      dsimp only
      rw [extractLoop_append_fail umask dest pre e fs s1 s2 err1 h2 h3 post2]

/-- C25 on an instance: the archive with the directory /a, the file /a/f that
breaks off and the directory /b is extracted into an empty file system; the
extraction fails, /a is there and /b is not. -/
theorem extractTarball_failure_keeps_prefix_witness :
    (extractTarball 0o022 (some exampleBrokenArchive) "/".toList (emptyFS 0o755)).2 =
      some .unexpectedEOF ∧
    (extractTarball 0o022 (some exampleBrokenArchive) "/".toList (emptyFS 0o755)).1
      ["a".toList] = some (.dir 0o755) ∧
    (extractTarball 0o022 (some exampleBrokenArchive) "/".toList (emptyFS 0o755)).1
      ["b".toList] = none ∧
    ((∃ pre e post s1, exampleBrokenArchive.entries = pre ++ e :: post ∧
      extractTarball 0o022 (some ⟨pre, true⟩) "/".toList (emptyFS 0o755) = (s1, none) ∧
      extractEntry 0o022 "/".toList s1 e =
        ((extractTarball 0o022 (some exampleBrokenArchive) "/".toList (emptyFS 0o755)).1,
          some .unexpectedEOF) ∧
      grows s1
        (extractTarball 0o022 (some exampleBrokenArchive) "/".toList (emptyFS 0o755)).1 ∧
      (∀ q, q ≠ pathElems (Join "/".toList e.header.Name) →
        (extractTarball 0o022 (some exampleBrokenArchive) "/".toList
          (emptyFS 0o755)).1.content q = s1.content q) ∧
      (∀ post2 intact2,
        extractTarball 0o022 (some ⟨pre ++ e :: post2, intact2⟩) "/".toList (emptyFS 0o755) =
          extractTarball 0o022 (some exampleBrokenArchive) "/".toList (emptyFS 0o755))) ∨
    (exampleBrokenArchive.intact = false ∧ Err.unexpectedEOF = .unexpectedEOF ∧
      extractTarball 0o022 (some ⟨exampleBrokenArchive.entries, true⟩) "/".toList
        (emptyFS 0o755) =
        ((extractTarball 0o022 (some exampleBrokenArchive) "/".toList (emptyFS 0o755)).1,
          none))) :=
  ⟨by decide, by decide, by decide,
    extractTarball_failure_keeps_prefix 0o022 exampleBrokenArchive "/".toList (emptyFS 0o755)
      .unexpectedEOF (by decide)⟩

/-- C28 on an instance: the path of an archive in the backup directory is
excluded, and the archive built from a state directory that holds the policy
file and the backup directory with an archive has the entries of the state
directory and of the policy file only. -/
theorem backupDir_never_archived_witness :
    isExcluded "/var/lib/maculaos/backups/old.tar.gz".toList createExcludes = true ∧
    ((createBuild (exampleFlags "local".toList)
      { exampleEnv none with
        lstat := fun p => if p = "/var/lib/maculaos".toList then
          some (.dir 0o755 [("backup.yaml".toList, .reg 0o644 "retention: 1".toList),
            ("backups".toList, .dir 0o700 [("old.tar.gz".toList, .reg 0o644 "z".toList)])])
          else none }
      exampleDirs exampleDirs).tw.entries.map (fun e => e.header.Name)) =
      ["/var/lib/maculaos".toList, "/var/lib/maculaos/backup.yaml".toList] :=
  ⟨(backupDir_never_archived (exampleFlags "local".toList) (exampleEnv none) exampleDirs
      exampleDirs).2.1 "/var/lib/maculaos/backups/old.tar.gz".toList
      ⟨[], "/old.tar.gz".toList, rfl⟩,
    by decide⟩

/-! ## Entries that are neither directories nor regular files -/

/-- C23 fails on the code: in the tree /state with the symbolic link named link
to a file of one byte and the file z, the callback writes a header for the
link, opens the file behind it and copies its byte into an entry announced
with size 0, so io.Copy fails with ErrWriteTooLong, createTarball returns that
error and z is not written. With a link whose target is missing, the header of
the link is written and stays in the archive. Without the link the archive has
the entries /state and /state/z. -/
theorem createTarball_symlink_not_skipped :
    (createTarball false Faults.none
      (fun p => if p = "/state".toList then
        some (.dir 0o755 [("link".toList,
            .special (some .TypeSymlink) 0o777 (.reads "x".toList true)),
          ("z".toList, .reg 0o644 "y".toList)]) else none)
      ["/state".toList] []).2 = some .writeTooLong ∧
    ((createTarball false Faults.none
      (fun p => if p = "/state".toList then
        some (.dir 0o755 [("link".toList,
            .special (some .TypeSymlink) 0o777 (.reads "x".toList true)),
          ("z".toList, .reg 0o644 "y".toList)]) else none)
      ["/state".toList] []).1.entries.map (fun e => e.header.Name)) =
      ["/state".toList, "/state/link".toList] ∧
    (createTarball false Faults.none
      (fun p => if p = "/state".toList then
        some (.dir 0o755 [("link".toList, .special (some .TypeSymlink) 0o777 .fails),
          ("z".toList, .reg 0o644 "y".toList)]) else none)
      ["/state".toList] []).2 = none ∧
    ((createTarball false Faults.none
      (fun p => if p = "/state".toList then
        some (.dir 0o755 [("link".toList, .special (some .TypeSymlink) 0o777 .fails),
          ("z".toList, .reg 0o644 "y".toList)]) else none)
      ["/state".toList] []).1.entries.map (fun e => e.header.Name)) =
      ["/state".toList, "/state/link".toList, "/state/z".toList] ∧
    ((createTarball false Faults.none
      (fun p => if p = "/state".toList then
        some (.dir 0o755 [("z".toList, .reg 0o644 "y".toList)]) else none)
      ["/state".toList] []).1.entries.map (fun e => e.header.Name)) =
      ["/state".toList, "/state/z".toList] := by
  decide

/-! ## Restoring from removable media -/

/-- With the source usb, the selection of restoreAction is the path that
findUSBBackup returned, whatever the flags latest and date say. -/
theorem restoreSelect_usb (fl : Flags) (readDir : Option (List Str)) (usbBackup : Str)
    (h : fl.restoreSource = "usb".toList) :
    restoreSelect fl readDir usbBackup =
      if usbBackup = [] then .error "no backup found on USB".toList else .ok usbBackup := by
  unfold restoreSelect
  rw [h, if_neg (by decide), if_pos rfl]

/-- C21 fails on the code: the medium at /mnt/usb holds the archives of
2024-01-01 and 2024-02-01. findUSBBackup returns the first archive of the sorted
listing, the one of 2024-01-01, and restoreAction extracts it with --latest,
although the greatest name is the one of 2024-02-01, and with --date=2024-02-01,
although its name does not contain that date. -/
theorem restoreAction_usb_ignores_selector :
    findUSBBackup false exampleDirsUSB =
      ("/mnt/usb/maculaos-backups/maculaos-node-2024-01-01_00-00-00.tar.gz".toList, none) ∧
    (restoreAction ⟨[], "usb".toList, [], true, false, false⟩ none
      (findUSBBackup false exampleDirsUSB).1 "y".toList (fun _ => some ⟨[], true⟩) 0o022
      (emptyFS 0o755)).1 =
      .extracted "/mnt/usb/maculaos-backups/maculaos-node-2024-01-01_00-00-00.tar.gz".toList
        none ∧
    (restoreAction ⟨[], "usb".toList, "2024-02-01".toList, false, false, false⟩ none
      (findUSBBackup false exampleDirsUSB).1 "y".toList (fun _ => some ⟨[], true⟩) 0o022
      (emptyFS 0o755)).1 =
      .extracted "/mnt/usb/maculaos-backups/maculaos-node-2024-01-01_00-00-00.tar.gz".toList
        none ∧
    "maculaos-node-2024-01-01_00-00-00.tar.gz".toList <
      "maculaos-node-2024-02-01_00-00-00.tar.gz".toList ∧
    Contains "maculaos-node-2024-01-01_00-00-00.tar.gz".toList "2024-02-01".toList = false := by
  decide

/-! ## The targets of an extraction -/

/-- C29, as stated, fails: with the destination root /restore and the entry name
../etc/passwd, the target is /etc/passwd, which is not at or below /restore, and
extractTarball writes the file there. -/
theorem extractTarball_escapes_dest :
    pathElems (Join "/restore".toList "../etc/passwd".toList) =
      ["etc".toList, "passwd".toList] ∧
    ¬ (pathElems "/restore".toList <+:
      pathElems (Join "/restore".toList "../etc/passwd".toList)) ∧
    (extractTarball 0o022
      (some ⟨[⟨⟨"../etc/passwd".toList, .TypeReg, 0o644, 1⟩, "x".toList⟩], true⟩)
      "/restore".toList (emptyFS 0o755)).1 ["etc".toList, "passwd".toList] =
      some (.file 0o644 "x".toList) := by
  decide

/-- The target of an entry whose name has no "." and no ".." element, under a
clean rooted destination. -/
theorem Join_render_elements (d : List Str) (name : Str) (hd : ∀ e ∈ d, goodName e)
    (hn : ∀ e ∈ splitSlash name, e = [] ∨ goodName e) :
    Join (render d) name =
      render (d ++ (splitSlash name).filter (fun e => decide (e ≠ []))) := by
  have hden : denotes name ((splitSlash name).filter (fun e => decide (e ≠ []))) :=
    ⟨rfl, hn⟩
  unfold Join
  rw [if_neg (render_ne_nil d)]
  by_cases hne : name = []
  · subst hne
    rw [if_pos rfl, Clean_render d hd]
    simp [splitSlash]
  · rw [if_neg hne]
    exact Clean_of_denotes _ _ (denotes_append _ _ _ _ (denotes_render d hd) hden)
      (isRooted_render_append d _)

/-- No element of a split path holds the separator. -/
theorem splitSlash_no_slash (s : Str) : ∀ e ∈ splitSlash s, '/' ∉ e := by
  induction s with
  | nil =>
    intro e he
    have : e = [] := by simpa [splitSlash] using he
    rw [this]
    exact List.not_mem_nil _
  | cons c cs ih =>
    intro e he
    by_cases hc : c = '/'
    · rw [splitSlash, if_pos hc] at he
      rcases List.mem_cons.mp he with h | h
      · rw [h]
        exact List.not_mem_nil _
      · exact ih e h
    · rw [splitSlash, if_neg hc] at he
      rcases hs : splitSlash cs with _ | ⟨e0, es⟩
      · exact absurd hs (splitSlash_ne_nil cs)
      · rw [hs] at he ih
        rcases List.mem_cons.mp he with h | h
        · rw [h]
          intro hmem
          rcases List.mem_cons.mp hmem with h2 | h2
          · exact hc h2.symm
          · exact ih e0 (List.mem_cons_self _ _) h2
        · exact ih e (List.mem_cons_of_mem _ h)

/-- The elements of a name that has no ".." element are empty, "." or file
names. -/
theorem splitSlash_elements (name : Str) (hn : ['.', '.'] ∉ splitSlash name) :
    ∀ e ∈ splitSlash name, e = [] ∨ e = ['.'] ∨ goodName e := by
  intro e he
  by_cases h1 : e = []
  · exact Or.inl h1
  · by_cases h2 : e = ['.']
    · exact Or.inr (Or.inl h2)
    · refine Or.inr (Or.inr ⟨h1, splitSlash_no_slash name e he, h2, ?_⟩)
      intro h3
      rw [h3] at he
      exact hn he

/-- The lexical processing of filepath.Clean on elements without "..": the empty
and the "." elements are dropped and the others kept. -/
theorem cleanElemsAux_dots (rooted : Bool) (l : List Str)
    (hl : ∀ e ∈ l, e = [] ∨ e = ['.'] ∨ goodName e) :
    ∀ acc : List Str, cleanElemsAux rooted l acc =
      acc.reverse ++ l.filter (fun e => decide (e ≠ [] ∧ e ≠ ['.'])) := by
  induction l with
  | nil => intro acc; simp [cleanElemsAux]
  | cons e es ih =>
    intro acc
    have hes : ∀ x ∈ es, x = [] ∨ x = ['.'] ∨ goodName x :=
      fun x hx => hl x (List.mem_cons_of_mem _ hx)
    by_cases hdrop : e = [] ∨ e = ['.']
    · have hstep : cleanElemsAux rooted (e :: es) acc = cleanElemsAux rooted es acc := by
        rw [cleanElemsAux.eq_def]
        simp only
        rw [if_pos hdrop]
      have hf : decide (e ≠ [] ∧ e ≠ ['.']) = false := by
        rcases hdrop with h | h <;> simp [h]
      rw [hstep, ih hes acc, List.filter_cons, hf]
      rfl
    · have he : goodName e := by
        rcases hl e (List.mem_cons_self _ _) with h | h | h
        · exact absurd (Or.inl h) hdrop
        · exact absurd (Or.inr h) hdrop
        · exact h
      have hstep : cleanElemsAux rooted (e :: es) acc = cleanElemsAux rooted es (e :: acc) := by
        rw [cleanElemsAux.eq_def]
        simp only
        rw [if_neg hdrop, if_neg he.2.2.2]
      have hf : decide (e ≠ [] ∧ e ≠ ['.']) = true := by
        simp [he.1, he.2.2.1]
      rw [hstep, ih hes (e :: acc), List.filter_cons, hf]
      simp

/-- The target of an entry whose name has no ".." element, under a clean rooted
destination. -/
theorem Join_render_dots (d : List Str) (name : Str) (hd : ∀ e ∈ d, goodName e)
    (hn : ['.', '.'] ∉ splitSlash name) :
    Join (render d) name =
      render (d ++ (splitSlash name).filter (fun e => decide (e ≠ [] ∧ e ≠ ['.']))) := by
  unfold Join
  rw [if_neg (render_ne_nil d)]
  by_cases hne : name = []
  · subst hne
    rw [if_pos rfl, Clean_render d hd]
    simp [splitSlash]
  · rw [if_neg hne]
    have hden := denotes_render d hd
    have hall : ∀ e ∈ splitSlash (render d) ++ splitSlash name,
        e = [] ∨ e = ['.'] ∨ goodName e := by
      intro e he
      rcases List.mem_append.mp he with h | h
      · rcases hden.2 e h with h2 | h2
        · exact Or.inl h2
        · exact Or.inr (Or.inr h2)
      · exact splitSlash_elements name hn e h
    have hfd : (splitSlash (render d)).filter (fun e => decide (e ≠ [] ∧ e ≠ ['.'])) = d := by
      have hcongr : (splitSlash (render d)).filter (fun e => decide (e ≠ [] ∧ e ≠ ['.'])) =
          (splitSlash (render d)).filter (fun e => decide (e ≠ [])) := by
        apply List.filter_congr
        intro e he
        rcases hden.2 e he with h2 | h2
        · simp [h2]
        · simp [h2.1, h2.2.2.1]
      rw [hcongr]
      exact hden.1
    unfold Clean
    rw [isRooted_render_append d _]
    unfold cleanElems
    rw [isRooted_render_append d _, splitSlash_append_slash, cleanElemsAux_dots _ _ hall [],
      List.filter_append, hfd]
    simp [render]

/-- C29, amended: for every clean rooted destination root and every entry name
without ".." elements, the target path that extractTarball creates or writes
(the cleaned join of the root and the entry name) lies at or below the
destination root: its elements are those of the root followed by those of the
name, and it is the path at which extractTarball makes the directory of a
directory entry and opens the file of a regular entry. For the root "/", which
restoreAction passes, this holds for every entry name, also with ".."
elements. -/
theorem extract_target_below (d : List Str) (name : Str) (hd : ∀ e ∈ d, goodName e)
    (hn : ['.', '.'] ∉ splitSlash name) :
    pathElems (Join (render d) name) =
      d ++ (splitSlash name).filter (fun e => decide (e ≠ [] ∧ e ≠ ['.'])) ∧
    pathElems (render d) <+: pathElems (Join (render d) name) ∧
    (∀ name2 : Str, pathElems "/".toList <+: pathElems (Join "/".toList name2)) ∧
    (∀ (umask : Nat) (fs : FS) (e : TarEntry), e.header.Name = name →
      e.header.Typeflag = .TypeDir →
      extractEntry umask (render d) fs e =
        match MkdirAll umask fs
          (d ++ (splitSlash name).filter (fun e => decide (e ≠ [] ∧ e ≠ ['.']))) 0o755 with
        | .error err => (fs, some err)
        | .ok fs1 => (fs1, none)) ∧
    (∀ (umask : Nat) (fs : FS) (e : TarEntry), e.header.Name = name →
      e.header.Typeflag = .TypeReg →
      extractEntry umask (render d) fs e =
        match MkdirAll umask fs (pathElems (Dir (Join (render d) name))) 0o755 with
        | .error err => (fs, some err)
        | .ok fs1 =>
          match OpenFile umask fs1
            (d ++ (splitSlash name).filter (fun e => decide (e ≠ [] ∧ e ≠ ['.'])))
            e.header.Mode with
          | .error err => (fs1, some err)
          | .ok fs2 =>
            (writeFromStart fs2
              (d ++ (splitSlash name).filter (fun e => decide (e ≠ [] ∧ e ≠ ['.']))) e.data,
              if e.data.length < e.header.Size then some .unexpectedEOF else none)) := by
  have hgood : ∀ e ∈ d ++ (splitSlash name).filter (fun e => decide (e ≠ [] ∧ e ≠ ['.'])),
      goodName e := by
    intro e he
    rcases List.mem_append.mp he with h | h
    · exact hd e h
    · have h2 := List.mem_filter.mp h
      have h3 : e ≠ [] ∧ e ≠ ['.'] := by simpa using h2.2
      rcases splitSlash_elements name hn e h2.1 with h4 | h4 | h4
      · exact absurd h4 h3.1
      · exact absurd h4 h3.2
      · exact h4
  have h1 : pathElems (Join (render d) name) =
      d ++ (splitSlash name).filter (fun e => decide (e ≠ [] ∧ e ≠ ['.'])) := by
    rw [Join_render_dots d name hd hn, pathElems_render _ hgood]
  refine ⟨h1, ?_, ?_, ?_, ?_⟩
  · rw [h1, pathElems_render d hd]
    exact List.prefix_append _ _
  · intro name2
    have : pathElems "/".toList = [] := by decide
    rw [this]
    exact List.nil_prefix
  · intro umask fs e hname htype
    rw [extractEntry_TypeDir umask (render d) fs e htype, hname, h1]
  · intro umask fs e hname htype
    rw [extractEntry_TypeReg umask (render d) fs e htype, hname, h1]

/-- C29 on an instance: under /restore the entry name ./etc//hosts has the
target /restore/etc/hosts. -/
theorem extract_target_below_witness :
    pathElems (Join "/restore".toList "./etc//hosts".toList) =
      ["restore".toList, "etc".toList, "hosts".toList] ∧
    pathElems "/restore".toList <+:
      pathElems (Join "/restore".toList "./etc//hosts".toList) := by
  have h := extract_target_below ["restore".toList] "./etc//hosts".toList
    (by decide) (by decide)
  exact ⟨by decide, h.2.1⟩

/-! ## A destination that exists -/

/-- The call os.Create on a file that exists succeeds and leaves the
directories as they are. -/
theorem osCreate_existing (d : Dirs) (dest : Str) (hstat : osStat d dest = none)
    (hfile : d (pathElems dest) = none) (hne : pathElems dest ≠ []) :
    osCreate false d dest = .ok d := by
  unfold osCreate
  rw [if_neg (by decide)]
  cases hrev : (pathElems dest).reverse with
  | nil =>
    have : pathElems dest = [] := by simpa using hrev
    exact absurd this hne
  | cons n parentRev =>
    have hp : pathElems dest = parentRev.reverse ++ [n] := by
      have := congrArg List.reverse hrev
      simpa using this
    unfold osStat at hstat
    rw [hp, statFrom_snoc] at hstat
    rw [hp] at hfile
    dsimp only
    cases hs : d.statFrom [] parentRev.reverse with
    | some e =>
      rw [hs] at hstat
      cases hstat
    | none =>
      rw [hs] at hstat
      dsimp only at hstat ⊢
      cases hd : d parentRev.reverse with
      | none =>
        rw [hd] at hstat
        cases hstat
      | some names =>
        rw [hd] at hstat
        dsimp only at hstat ⊢
        by_cases hmem : n ∈ names
        · rw [if_pos hmem, hfile]
          rfl
        · rw [if_neg hmem] at hstat
          cases hstat

/-- C24, as stated, fails: in the example state the file old.tar.gz exists in
the backup directory, and a build with that file as its destination returns no
error. -/
theorem createTarballDest_existing_file_no_error :
    osStat exampleDirs "/var/lib/maculaos/backups/old.tar.gz".toList = none ∧
    (createTarballDest DestFaults.none Faults.none (exampleEnv none).lstat exampleDirs
      "/var/lib/maculaos/backups/old.tar.gz".toList ["/var/lib/maculaos".toList]
      createExcludes).err = none := by
  decide

/-- C24, amended: createTarball creates its destination with os.Create, which is
not exclusive: when a file already exists at the destination path, the build
does not fail because of it; it writes the same entries and returns the same
result as on any other destination, and the file stays listed in its
directory. -/
theorem createTarballDest_existing_destination (faults : Faults)
    (lstat : Str → Option Node) (d : Dirs) (dest : Str) (paths excludes : List Str)
    (hstat : osStat d dest = none) (hfile : d (pathElems dest) = none)
    (hne : pathElems dest ≠ []) :
    (createTarballDest DestFaults.none faults lstat d dest paths excludes).err =
      (createTarball false faults lstat paths excludes).2 ∧
    (createTarballDest DestFaults.none faults lstat d dest paths excludes).tw =
      (createTarball false faults lstat paths excludes).1 ∧
    (createTarballDest DestFaults.none faults lstat d dest paths excludes).dirs = d ∧
    osStat (createTarballDest DestFaults.none faults lstat d dest paths excludes).dirs dest =
      none := by
  have hc := osCreate_existing d dest hstat hfile hne
  have h := createTarballDest_none faults lstat d d dest paths excludes hc
  refine ⟨h.2.1, h.1, h.2.2, ?_⟩
  rw [h.2.2]
  exact hstat

/-- C24 on an instance: a build onto the existing file old.tar.gz of the example
state returns no error and leaves the backup directory with its two entries. -/
theorem createTarballDest_existing_destination_witness :
    (createTarballDest DestFaults.none Faults.none (exampleEnv none).lstat exampleDirs
      "/var/lib/maculaos/backups/old.tar.gz".toList ["/var/lib/maculaos".toList]
      createExcludes).err = none ∧
    (createTarballDest DestFaults.none Faults.none (exampleEnv none).lstat exampleDirs
      "/var/lib/maculaos/backups/old.tar.gz".toList ["/var/lib/maculaos".toList]
      createExcludes).dirs backupElems =
      some ["old.tar.gz".toList, "older.tar.gz".toList] := by
  have h := createTarballDest_existing_destination Faults.none (exampleEnv none).lstat
    exampleDirs "/var/lib/maculaos/backups/old.tar.gz".toList ["/var/lib/maculaos".toList]
    createExcludes (by decide) (by decide) (by decide)
  refine ⟨?_, ?_⟩
  · rw [h.1]
    decide
  · rw [h.2.2.1]
    decide

/-! ## The restart counter of health watch -/

/-- The check that the loop of watchAction finds for a name has that name. -/
theorem findCheck_name (checks : List HealthCheck) (n : Str) (c : HealthCheck)
    (h : findCheck checks n = some c) : c.Name = n := by
  unfold findCheck at h
  have := List.find?_some h
  simpa using this

/-- A check found for its name is found for the name it has. -/
theorem findCheck_self (checks : List HealthCheck) (n : Str) (c : HealthCheck)
    (h : findCheck checks n = some c) : findCheck checks c.Name = some c := by
  rw [findCheck_name checks n c h]
  exact h

/-- With distinct names, every check of the configuration is the one found for
its name. -/
theorem findCheck_of_nodup (checks : List HealthCheck)
    (hnd : (checks.map (fun c => c.Name)).Nodup) (c : HealthCheck) (hc : c ∈ checks) :
    findCheck checks c.Name = some c := by
  induction checks with
  | nil => cases hc
  | cons a rest ih =>
    unfold findCheck
    rw [List.map_cons, List.nodup_cons] at hnd
    rcases List.mem_cons.mp hc with h | h
    · rw [h, List.find?_cons_of_pos]
      simp
    · have hne : a.Name ≠ c.Name := by
        intro heq
        apply hnd.1
        rw [heq]
        exact List.mem_map_of_mem _ h
      rw [List.find?_cons_of_neg]
      · exact ih hnd.2 h
      · simpa using hne

/-- The state after handleFailure on a check that restarts. -/
theorem handleFailure_restart (c : HealthCheck) (st : WatchState)
    (hact : c.Action = "restart".toList) :
    handleFailure c st =
      if st.restartCounts c.Name ≥ c.MaxRestarts then st
      else
        { st with
          restartCounts := fun n =>
            if n = c.Name then st.restartCounts c.Name + 1 else st.restartCounts n
          restarts := st.restarts ++ [c.Name] } := by
  unfold handleFailure
  rw [hact, if_neg (by decide), if_pos rfl]

/-- The state after handleFailure on a check that does not restart: the counts
and the restarts stay. -/
theorem handleFailure_other (c : HealthCheck) (st : WatchState)
    (hact : c.Action ≠ "restart".toList) :
    (handleFailure c st).restartCounts = st.restartCounts ∧
    (handleFailure c st).restarts = st.restarts := by
  unfold handleFailure
  by_cases h1 : c.Action = "alert".toList
  · rw [if_pos h1]
    exact ⟨rfl, rfl⟩
  · rw [if_neg h1, if_neg hact]
    by_cases h3 : c.Action = "cleanup".toList
    · rw [if_pos h3]
      exact ⟨rfl, rfl⟩
    · rw [if_neg h3]
      exact ⟨rfl, rfl⟩

/-- The count kept for a name is the number of restarts issued for it. -/
theorem handleFailure_counts (c : HealthCheck) (st : WatchState)
    (h : ∀ n, ((st.restarts.count n : Nat) : Int) = st.restartCounts n) :
    ∀ n, (((handleFailure c st).restarts.count n : Nat) : Int) =
      (handleFailure c st).restartCounts n := by
  intro n
  by_cases hact : c.Action = "restart".toList
  · rw [handleFailure_restart c st hact]
    by_cases hmax : st.restartCounts c.Name ≥ c.MaxRestarts
    · rw [if_pos hmax]
      exact h n
    · rw [if_neg hmax]
      dsimp only
      rw [List.count_append, List.count_singleton]
      by_cases hn : n = c.Name
      · subst hn
        simp [h]
      · have hn2 : ¬ (c.Name == n) = true := by
          simpa using fun heq : c.Name = n => hn heq.symm
        rw [if_neg hn, if_neg hn2]
        simpa using h n
  · obtain ⟨h1, h2⟩ := handleFailure_other c st hact
    rw [h1, h2]
    exact h n

/-- The bound on the count of the first check of each name is kept by
handleFailure on a check found by its name. -/
theorem handleFailure_bound (checks : List HealthCheck) (c0 : HealthCheck) (st : WatchState)
    (h0 : findCheck checks c0.Name = some c0)
    (h : ∀ c, findCheck checks c.Name = some c → c.Action = "restart".toList →
      0 ≤ c.MaxRestarts → st.restartCounts c.Name ≤ c.MaxRestarts) :
    ∀ c, findCheck checks c.Name = some c → c.Action = "restart".toList →
      0 ≤ c.MaxRestarts → (handleFailure c0 st).restartCounts c.Name ≤ c.MaxRestarts := by
  intro c hc hact hmax
  by_cases hact0 : c0.Action = "restart".toList
  · rw [handleFailure_restart c0 st hact0]
    by_cases hm : st.restartCounts c0.Name ≥ c0.MaxRestarts
    · rw [if_pos hm]
      exact h c hc hact hmax
    · rw [if_neg hm]
      dsimp only
      by_cases hn : c.Name = c0.Name
      · have hcc : c = c0 := by
          rw [hn, h0] at hc
          injection hc with h1
          exact h1.symm
        rw [if_pos hn, hcc]
        omega
      · rw [if_neg hn]
        exact h c hc hact hmax
  · rw [(handleFailure_other c0 st hact0).1]
    exact h c hc hact hmax

/-- Both properties of the state are kept by the loop over the results of a
round. -/
theorem watchResults_keeps (checks : List HealthCheck) (results : List HealthResult) :
    ∀ st : WatchState,
      (∀ n, ((st.restarts.count n : Nat) : Int) = st.restartCounts n) →
      (∀ c, findCheck checks c.Name = some c → c.Action = "restart".toList →
        0 ≤ c.MaxRestarts → st.restartCounts c.Name ≤ c.MaxRestarts) →
      (∀ n, (((watchResults checks results st).restarts.count n : Nat) : Int) =
        (watchResults checks results st).restartCounts n) ∧
      (∀ c, findCheck checks c.Name = some c → c.Action = "restart".toList →
        0 ≤ c.MaxRestarts →
        (watchResults checks results st).restartCounts c.Name ≤ c.MaxRestarts) := by
  induction results with
  | nil => intro st h1 h2; exact ⟨h1, h2⟩
  | cons r rest ih =>
    intro st h1 h2
    rw [watchResults]
    by_cases hs : r.Status ≠ "ok".toList
    · rw [if_pos hs]
      cases hf : findCheck checks r.Name with
      | none => exact ih st h1 h2
      | some check =>
        exact ih _ (handleFailure_counts check st h1)
          (handleFailure_bound checks check st (findCheck_self checks r.Name check hf) h2)
    · rw [if_neg hs]
      exact ih st h1 h2

/-- Both properties of the state are kept by the rounds of the loop. -/
theorem watchRounds_keeps (checks : List HealthCheck) (probes : List (HealthCheck → Str)) :
    ∀ st : WatchState,
      (∀ n, ((st.restarts.count n : Nat) : Int) = st.restartCounts n) →
      (∀ c, findCheck checks c.Name = some c → c.Action = "restart".toList →
        0 ≤ c.MaxRestarts → st.restartCounts c.Name ≤ c.MaxRestarts) →
      (∀ n, (((watchRounds checks probes st).restarts.count n : Nat) : Int) =
        (watchRounds checks probes st).restartCounts n) ∧
      (∀ c, findCheck checks c.Name = some c → c.Action = "restart".toList →
        0 ≤ c.MaxRestarts →
        (watchRounds checks probes st).restartCounts c.Name ≤ c.MaxRestarts) := by
  induction probes with
  | nil => intro st h1 h2; exact ⟨h1, h2⟩
  | cons probe rest ih =>
    intro st h1 h2
    rw [watchRounds]
    obtain ⟨h3, h4⟩ := watchResults_keeps checks (runAllChecks checks probe) st h1 h2
    exact ih _ h3 h4

/-- C22, as stated, fails: with two checks named k3s, of which the first allows 5
restarts and the second 1, the loop handles every failure with the first check;
after three rounds in which both fail, the count kept for k3s is 5, more than
the MaxRestarts of the second check. -/
theorem watch_duplicate_name_exceeds :
    (watchRounds
      [⟨"k3s".toList, [], 5, "restart".toList⟩, ⟨"k3s".toList, [], 1, "restart".toList⟩]
      [fun _ => "fail".toList, fun _ => "fail".toList, fun _ => "fail".toList]
      WatchState.init).restartCounts "k3s".toList = 5 ∧
    (watchRounds
      [⟨"k3s".toList, [], 5, "restart".toList⟩, ⟨"k3s".toList, [], 1, "restart".toList⟩]
      [fun _ => "fail".toList, fun _ => "fail".toList, fun _ => "fail".toList]
      WatchState.init).restarts.length = 5 := by
  decide

/-- C22, amended: in health watch, for every check that is the first of its name
in the configuration (every check, when the names are distinct, as in every
configuration that health add writes), whose action is restart and whose
MaxRestarts is non-negative, after any sequence of rounds with any results the
count kept by handleFailure for that check does not exceed MaxRestarts, and it
is the number of restarts issued for its name. -/
theorem watch_restarts_bounded (checks : List HealthCheck)
    (probes : List (HealthCheck → Str)) (c : HealthCheck)
    (hfirst : findCheck checks c.Name = some c ∨
      ((checks.map (fun c => c.Name)).Nodup ∧ c ∈ checks))
    (hact : c.Action = "restart".toList) (hmax : 0 ≤ c.MaxRestarts) :
    (watchRounds checks probes WatchState.init).restartCounts c.Name ≤ c.MaxRestarts ∧
    (((watchRounds checks probes WatchState.init).restarts.count c.Name : Nat) : Int) =
      (watchRounds checks probes WatchState.init).restartCounts c.Name := by
  have hf : findCheck checks c.Name = some c := by
    rcases hfirst with h | ⟨hnd, hc⟩
    · exact h
    · exact findCheck_of_nodup checks hnd c hc
  obtain ⟨h1, h2⟩ := watchRounds_keeps checks probes WatchState.init
    (by intro n; simp [WatchState.init])
    (by
      intro c2 _ _ hm
      exact hm)
  exact ⟨h2 c hf hact hmax, h1 c.Name⟩

/-- C22 on an instance: the check k3s of the default configuration allows 3
restarts; after five rounds in which it fails, 3 restarts were issued. -/
theorem watch_restarts_bounded_witness :
    (watchRounds
      [⟨"k3s".toList, [], 3, "restart".toList⟩, ⟨"root-disk".toList, "/".toList, 0,
        "alert".toList⟩, ⟨"data-disk".toList, "/var/lib".toList, 0, "cleanup".toList⟩]
      [fun _ => "fail".toList, fun _ => "fail".toList, fun _ => "fail".toList,
        fun _ => "fail".toList, fun _ => "fail".toList]
      WatchState.init).restartCounts "k3s".toList ≤ 3 ∧
    (watchRounds
      [⟨"k3s".toList, [], 3, "restart".toList⟩, ⟨"root-disk".toList, "/".toList, 0,
        "alert".toList⟩, ⟨"data-disk".toList, "/var/lib".toList, 0, "cleanup".toList⟩]
      [fun _ => "fail".toList, fun _ => "fail".toList, fun _ => "fail".toList,
        fun _ => "fail".toList, fun _ => "fail".toList]
      WatchState.init).restarts = ["k3s".toList, "k3s".toList, "k3s".toList] := by
  have h := watch_restarts_bounded
    [⟨"k3s".toList, [], 3, "restart".toList⟩, ⟨"root-disk".toList, "/".toList, 0,
      "alert".toList⟩, ⟨"data-disk".toList, "/var/lib".toList, 0, "cleanup".toList⟩]
    [fun _ => "fail".toList, fun _ => "fail".toList, fun _ => "fail".toList,
      fun _ => "fail".toList, fun _ => "fail".toList]
    ⟨"k3s".toList, [], 3, "restart".toList⟩ (Or.inr ⟨by decide, by decide⟩) rfl (by decide)
  exact ⟨h.1, by decide⟩

/-! ## The unit of formatSize -/

/-- A value within the range of int64 is kept by int64 arithmetic. -/
theorem wrapInt64_id (x : Int) (h0 : -9223372036854775808 ≤ x)
    (h1 : x < 9223372036854775808) : wrapInt64 x = x := by
  unfold wrapInt64
  omega

/-- The loop of formatSize, from a state in which div is a power of the unit
and n the quotient of the count by div, ends within the steps allowed when n is
below the unit raised to their number, on the power of the unit next below the
count. -/
theorem formatLoop_spec (bytes : Int) (hhi : bytes < 9223372036854775808) :
    ∀ (fuel : Nat) (n div : Int) (exp : Nat), 1 ≤ n → n < (1024 : Int) ^ (fuel + 1) →
      div = (1024 : Int) ^ (exp + 1) → div * n ≤ bytes → bytes < div * (n + 1) →
      ∃ e, formatLoop (fuel + 1) n div exp = some ((1024 : Int) ^ (e + 1), e) ∧
        (1024 : Int) ^ (e + 1) ≤ bytes ∧ bytes < (1024 : Int) ^ (e + 2) := by
  intro fuel
  induction fuel with
  | zero =>
    intro n div exp hn hlt hdiv hle hub
    have hpos : (0 : Int) < div := by rw [hdiv]; positivity
    have hn2 : ¬ n ≥ 1024 := by
      rw [zero_add, pow_one] at hlt
      omega
    refine ⟨exp, ?_, ?_, ?_⟩
    · rw [formatLoop, if_neg hn2, hdiv]
    · rw [← hdiv]
      nlinarith
    · rw [pow_succ, ← hdiv]
      nlinarith
  | succ fuel ih =>
    intro n div exp hn hlt hdiv hle hub
    have hpos : (0 : Int) < div := by rw [hdiv]; positivity
    by_cases hc : n ≥ 1024
    · have hq1 : 1024 * (n / 1024) ≤ n := by omega
      have hq2 : n + 1 ≤ 1024 * (n / 1024) + 1024 := by omega
      have hm1 := mul_le_mul_of_nonneg_left hq1 hpos.le
      have hm2 := mul_le_mul_of_nonneg_left hq2 hpos.le
      have hm3 := mul_le_mul_of_nonneg_left hc hpos.le
      have hw : wrapInt64 (div * 1024) = div * 1024 :=
        wrapInt64_id _ (by nlinarith) (by nlinarith)
      have ht : Int.tdiv n 1024 = n / 1024 := Int.tdiv_eq_ediv (by omega) (by decide)
      have hlt2 : n / 1024 < (1024 : Int) ^ (fuel + 1) := by
        apply Int.ediv_lt_of_lt_mul (by decide)
        rw [← pow_succ]
        exact hlt
      obtain ⟨e, h1, h2, h3⟩ := ih (n / 1024) (div * 1024) (exp + 1) (by omega) hlt2
        (by rw [hdiv, ← pow_succ]) (by nlinarith) (by nlinarith)
      refine ⟨e, ?_, h2, h3⟩
      rw [formatLoop, if_pos hc, hw, ht]
      exact h1
    · refine ⟨exp, ?_, ?_, ?_⟩
      · rw [formatLoop, if_neg hc, hdiv]
      · rw [← hdiv]
        nlinarith
      · rw [pow_succ, ← hdiv]
        have hn3 : n + 1 ≤ 1024 := by omega
        have hm := mul_le_mul_of_nonneg_left hn3 hpos.le
        nlinarith

/-- More steps allowed do not change the result of the loop of formatSize. -/
theorem formatLoop_mono (fuel : Nat) :
    ∀ (n div : Int) (exp : Nat) (r : Int × Nat), formatLoop fuel n div exp = some r →
      formatLoop (fuel + 1) n div exp = some r := by
  induction fuel with
  | zero =>
    intro n div exp r h
    rw [formatLoop] at h
    cases h
  | succ fuel ih =>
    intro n div exp r h
    rw [formatLoop] at h
    rw [formatLoop]
    by_cases hc : n ≥ 1024
    · rw [if_pos hc] at h
      rw [if_pos hc]
      exact ih _ _ _ _ h
    · rw [if_neg hc] at h
      rw [if_neg hc]
      exact h

/-- The result of the loop of formatSize within six steps is its result within
any larger number of steps. -/
theorem formatLoop_six (fuel : Nat) (hfuel : 6 ≤ fuel) (n div : Int) (exp : Nat)
    (r : Int × Nat) (h : formatLoop 6 n div exp = some r) :
    formatLoop fuel n div exp = some r := by
  induction fuel, hfuel using Nat.le_induction with
  | base => exact h
  | succ k _ ih => exact formatLoop_mono k n div exp r ih

/-- C30: for every count of bytes that an int64 holds and at least six steps
allowed, formatSize ends with a text; its index into the unit letters KMGTPE is
at most 5; a count below 1024, also a negative one, is rendered as its decimal
digits followed by the unit B; and for a count of 1024 or more the divisor is
1024 to the power exp + 1, the largest power of 1024 that does not exceed the
count. -/
theorem formatSize_unit (fuel : Nat) (bytes : Int) (hfuel : 6 ≤ fuel)
    (hhi : bytes < 9223372036854775808) :
    (bytes < 1024 →
      formatSize fuel bytes = .text (.plain (formatDecimal bytes ++ " B".toList))) ∧
    (1024 ≤ bytes →
      ∃ (exp : Nat) (letter : Char), exp ≤ 5 ∧ "KMGTPE".toList[exp]? = some letter ∧
        formatSize fuel bytes = .text (.scaled bytes ((1024 : Int) ^ (exp + 1)) letter) ∧
        (1024 : Int) ^ (exp + 1) ≤ bytes ∧ bytes < (1024 : Int) ^ (exp + 2) ∧
        ∀ k : Nat, (1024 : Int) ^ k ≤ bytes → k ≤ exp + 1) := by
  constructor
  · intro h
    unfold formatSize
    rw [if_pos h]
  · intro h
    have ht : Int.tdiv bytes 1024 = bytes / 1024 := Int.tdiv_eq_ediv (by omega) (by decide)
    obtain ⟨e, h1, h2, h3⟩ := formatLoop_spec bytes hhi 5 (bytes / 1024) 1024 0 (by omega)
      (by norm_num; omega) (by norm_num) (by omega) (by omega)
    have he : e ≤ 5 := by
      by_contra hne
      have h7 : (1024 : Int) ^ 7 ≤ (1024 : Int) ^ (e + 1) :=
        pow_le_pow_right₀ (by decide) (by omega)
      norm_num at h7
      omega
    have hl : ∃ letter, "KMGTPE".toList[e]? = some letter := by
      interval_cases e <;> exact ⟨_, rfl⟩
    obtain ⟨letter, hl⟩ := hl
    refine ⟨e, letter, he, hl, ?_, h2, h3, ?_⟩
    · unfold formatSize
      rw [if_neg (by omega), ht, formatLoop_six fuel hfuel _ _ _ _ h1]
      dsimp only
      rw [hl]
    · intro k hk
      by_contra hne
      have hk2 : (1024 : Int) ^ (e + 2) ≤ (1024 : Int) ^ k :=
        pow_le_pow_right₀ (by decide) (by omega)
      omega

/-- C30 on instances: the largest int64 count has the unit letter E, index 5,
and the divisor 1024 to the 6th; the count -5 is rendered as -5 B. -/
theorem formatSize_unit_witness :
    formatSize 6 9223372036854775807 =
      .text (.scaled 9223372036854775807 1152921504606846976 'E') ∧
    formatSize 6 (-5) = .text (.plain "-5 B".toList) ∧
    formatSize 6 1536 = .text (.scaled 1536 1024 'K') := by
  have h := formatSize_unit 6 (-5) (by decide) (by decide)
  exact ⟨by decide, h.1 (by decide), by decide⟩

/-! ## What the steps of create keep in the directories -/

/-- Resolution succeeds in a state in which every directory lists at least what
it lists in a state where resolution succeeds. -/
theorem statFrom_mono (d d2 : Dirs)
    (h : ∀ q ns, d q = some ns → ∃ ns2, d2 q = some ns2 ∧ ∀ x ∈ ns, x ∈ ns2) :
    ∀ (p cur : List Str), d.statFrom cur p = none → d2.statFrom cur p = none := by
  intro p
  induction p with
  | nil =>
    intro cur _
    simp [Dirs.statFrom]
  | cons n rest ih =>
    intro cur hs
    rw [Dirs.statFrom] at hs
    cases hd : d cur with
    | none =>
      rw [hd] at hs
      cases hs
    | some ns =>
      rw [hd] at hs
      dsimp only at hs
      by_cases hn : n ∈ ns
      · rw [if_pos hn] at hs
        obtain ⟨ns2, h1, h2⟩ := h cur ns hd
        rw [Dirs.statFrom, h1]
        dsimp only
        rw [if_pos (h2 n hn)]
        exact ih _ hs
      · rw [if_neg hn] at hs
        cases hs

/-- A path that resolves has a first part that resolves. -/
theorem statFrom_prefix (d : Dirs) (a b : List Str) (h : d.statFrom [] (a ++ b) = none) :
    d.statFrom [] a = none := by
  rw [statFrom_append] at h
  cases hs : d.statFrom [] a with
  | none => rfl
  | some e =>
    rw [hs] at h
    simp at h

/-- A path with a last name resolves exactly when its directory resolves and
lists the name. -/
theorem statFrom_snoc_none (d : Dirs) (p : List Str) (n : Str) :
    d.statFrom [] (p ++ [n]) = none ↔
      d.statFrom [] p = none ∧ ∃ ns, d p = some ns ∧ n ∈ ns := by
  rw [statFrom_snoc]
  cases hs : d.statFrom [] p with
  | some e => simp
  | none =>
    cases hd : d p with
    | none => simp
    | some ns =>
      by_cases hn : n ∈ ns <;> simp [hn]

/-- A new entry in a directory keeps every path that resolves. -/
theorem statFrom_set_grow (d : Dirs) (cur ns : List Str) (n : Str) (hd : d cur = some ns)
    (p : List Str) (hs : d.statFrom [] p = none) :
    (d.set cur (some (ns ++ [n]))).statFrom [] p = none := by
  apply statFrom_mono d _ _ p [] hs
  intro q ns1 hq
  by_cases hqc : q = cur
  · rw [hqc, hd] at hq
    injection hq with hq
    refine ⟨ns ++ [n], by simp [Dirs.set, hqc], ?_⟩
    intro x hx
    rw [← hq] at hx
    exact List.mem_append_left _ hx
  · exact ⟨ns1, by simp [Dirs.set, hqc, hq], fun x hx => hx⟩

/-- A listing set at a name that its directory does not list keeps every path
that resolves. -/
theorem statFrom_set_new (d : Dirs) (cur ns : List Str) (n : Str) (v : Option (List Str))
    (hd : d cur = some ns) (hn : n ∉ ns) (p : List Str) (hs : d.statFrom [] p = none) :
    (d.set (cur ++ [n]) v).statFrom [] p = none := by
  rw [statFrom_congr d _ p []]
  · exact hs
  · intro k _
    have hne : p.take k ≠ cur ++ [n] := by
      intro heq
      have h1 : d.statFrom [] (cur ++ [n]) = none := by
        rw [← heq]
        apply statFrom_prefix d (p.take k) (p.drop k)
        rw [List.take_append_drop]
        exact hs
      obtain ⟨_, ns2, h2, h3⟩ := (statFrom_snoc_none d cur n).mp h1
      rw [hd] at h2
      injection h2 with h2
      rw [← h2] at h3
      exact hn h3
    simp [Dirs.set, hne]

/-- The directories that os.MkdirAll makes keep every path that resolves. -/
theorem mkdirAllFrom_keeps (p : List Str) :
    ∀ (rest cur : List Str) (d d2 : Dirs), d.mkdirAllFrom cur rest = .ok d2 →
      d.statFrom [] p = none → d2.statFrom [] p = none := by
  intro rest
  induction rest with
  | nil =>
    intro cur d d2 h hs
    rw [Dirs.mkdirAllFrom] at h
    by_cases hc : (d cur).isSome = true
    · rw [if_pos hc] at h
      injection h with h
      rw [← h]
      exact hs
    · rw [if_neg hc] at h
      cases h
  | cons n rest ih =>
    intro cur d d2 h hs
    rw [Dirs.mkdirAllFrom] at h
    cases hd : d cur with
    | none =>
      rw [hd] at h
      cases h
    | some ns =>
      rw [hd] at h
      dsimp only at h
      by_cases hn : n ∈ ns
      · rw [if_pos hn] at h
        exact ih _ _ _ h hs
      · rw [if_neg hn] at h
        apply ih _ _ _ h
        have hne : cur ≠ cur ++ [n] := by
          intro heq
          have := congrArg List.length heq
          simp at this
        have hcomm : (d.set cur (some (ns ++ [n]))).set (cur ++ [n]) (some []) =
            (d.set (cur ++ [n]) (some [])).set cur (some (ns ++ [n])) := by
          funext q
          simp only [Dirs.set]
          by_cases h1 : q = cur ++ [n]
          · have h2 : q ≠ cur := by
              rw [h1]
              exact fun h3 => hne h3.symm
            rw [if_pos h1, if_neg h2, if_pos h1]
          · rw [if_neg h1, if_neg h1]
        rw [hcomm]
        apply statFrom_set_grow
        · simp only [Dirs.set]
          rw [if_neg hne, hd]
        · exact statFrom_set_new d cur ns n _ hd hn p hs

/-- A successful os.MkdirAll keeps every path that resolves. -/
theorem osMkdirAll_keeps (fails : Bool) (d d2 : Dirs) (path : Str) (p : List Str)
    (h : osMkdirAll fails d path = .ok d2) (hs : d.statFrom [] p = none) :
    d2.statFrom [] p = none := by
  unfold osMkdirAll at h
  cases fails with
  | true => simp at h
  | false =>
    simp only [Bool.false_eq_true, if_false] at h
    exact mkdirAllFrom_keeps p _ _ _ _ h hs

/-- A successful os.Create keeps every path that resolves. -/
theorem osCreate_keeps (fails : Bool) (d d2 : Dirs) (path : Str) (p : List Str)
    (h : osCreate fails d path = .ok d2) (hs : d.statFrom [] p = none) :
    d2.statFrom [] p = none := by
  unfold osCreate at h
  cases fails with
  | true => simp at h
  | false =>
    simp only [Bool.false_eq_true, if_false] at h
    cases hrev : (pathElems path).reverse with
    | nil =>
      rw [hrev] at h
      cases h
    | cons n parentRev =>
      rw [hrev] at h
      dsimp only at h
      cases hst : d.statFrom [] parentRev.reverse with
      | some e =>
        rw [hst] at h
        cases h
      | none =>
        rw [hst] at h
        dsimp only at h
        cases hd : d parentRev.reverse with
        | none =>
          rw [hd] at h
          cases h
        | some names =>
          rw [hd] at h
          dsimp only at h
          by_cases hn : n ∈ names
          · rw [if_pos hn] at h
            by_cases hdir : (d (parentRev.reverse ++ [n])).isSome = true
            · rw [if_pos hdir] at h
              cases h
            · rw [if_neg hdir] at h
              injection h with h3
              rw [← h3]
              exact hs
          · rw [if_neg hn] at h
            injection h with h3
            rw [← h3]
            exact statFrom_set_grow d _ names n hd p hs

/-- A successful cp keeps every path that resolves. -/
theorem cp_keeps (fails : Bool) (d d2 : Dirs) (src dest : Str) (p : List Str)
    (h : cp fails d src dest = .ok d2) (hs : d.statFrom [] p = none) :
    d2.statFrom [] p = none := by
  unfold cp at h
  cases fails with
  | true => simp at h
  | false =>
    simp only [Bool.false_eq_true, if_false] at h
    cases hst : osStat d src with
    | some e =>
      rw [hst] at h
      cases h
    | none =>
      rw [hst] at h
      dsimp only at h
      by_cases h1 : (d (pathElems src)).isSome = true
      · rw [if_pos h1] at h
        cases h
      · rw [if_neg h1] at h
        by_cases h2 : osStat d dest = none ∧ (d (pathElems dest)).isSome = true
        · rw [if_pos h2] at h
          exact osCreate_keeps _ _ _ _ p h hs
        · rw [if_neg h2] at h
          exact osCreate_keeps _ _ _ _ p h hs

/-- The function copyToUSB keeps every path that resolves, whether it fails or
not. -/
theorem copyToUSB_keeps (mkdirFails : Str → Bool) (cpFails : Bool) (d : Dirs) (src : Str)
    (p : List Str) (hs : d.statFrom [] p = none) :
    (copyToUSB mkdirFails cpFails d src).2.statFrom [] p = none := by
  by_cases hm : findUSBMount d = []
  · rw [copyToUSB_noMount _ _ _ _ hm]
    exact hs
  · rw [copyToUSB_mount _ _ _ _ hm]
    cases hmk : osMkdirAll
        (mkdirFails (Dir (Join (Join (findUSBMount d) "maculaos-backups".toList) (Base src))))
        d (Dir (Join (Join (findUSBMount d) "maculaos-backups".toList) (Base src))) with
    | error e => exact hs
    | ok d1 =>
      have hs1 := osMkdirAll_keeps _ _ _ _ p hmk hs
      dsimp only
      cases hcp : cp cpFails d1 src
          (Join (Join (findUSBMount d) "maculaos-backups".toList) (Base src)) with
      | error e => exact hs1
      | ok d2 => exact cp_keeps _ _ _ _ _ p hcp hs1

/-- The switch of createAction on the target keeps every path that resolves. -/
theorem dispatch_keeps (fl : Flags) (env : CreateEnv) (d : Dirs) (backupPath : Str)
    (p : List Str) (hs : d.statFrom [] p = none) :
    (dispatch fl env d backupPath).2.statFrom [] p = none := by
  unfold dispatch
  by_cases h1 : fl.backupTarget = "usb".toList
  · rw [if_pos h1]
    have h := copyToUSB_keeps env.mkdirFails env.cpFails d backupPath p hs
    cases hc : copyToUSB env.mkdirFails env.cpFails d backupPath with
    | mk e d1 =>
      rw [hc] at h
      cases e with
      | none => exact h
      | some e1 => exact h
  · rw [if_neg h1]
    by_cases h2 : fl.backupTarget = "s3".toList
    · rw [if_pos h2]
      exact hs
    · rw [if_neg h2]
      exact hs

/-! ## The new archive and the retention pass -/

/-- A decimal digit is not the separator. -/
theorem digitChar_ne_slash (n : Nat) (h : n < 10) : Nat.digitChar n ≠ '/' := by
  interval_cases n <;> decide

/-- The decimal digits of a number hold no separator. -/
theorem decimalDigits_no_slash : ∀ (fuel x : Nat), '/' ∉ decimalDigits fuel x := by
  intro fuel
  induction fuel with
  | zero =>
    intro x
    simp [decimalDigits]
  | succ fuel ih =>
    intro x
    rw [decimalDigits]
    by_cases hx : x < 10
    · rw [if_pos hx]
      intro hmem
      exact digitChar_ne_slash x hx (List.mem_singleton.mp hmem).symm
    · rw [if_neg hx]
      intro hmem
      rcases List.mem_append.mp hmem with h | h
      · exact ih _ h
      · exact digitChar_ne_slash (x % 10) (Nat.mod_lt _ (by decide))
          (List.mem_singleton.mp h).symm

/-- A padded number holds no separator. -/
theorem appendInt_no_slash (x width : Nat) : '/' ∉ appendInt x width := by
  unfold appendInt
  intro hmem
  rcases List.mem_append.mp hmem with h | h
  · have := List.eq_of_mem_replicate h
    exact absurd this (by decide)
  · exact decimalDigits_no_slash _ _ h

/-- The time stamp of an archive name holds no separator. -/
theorem Format_no_slash (t : Time) : '/' ∉ Format t := by
  unfold Format
  have hy := appendInt_no_slash t.year 4
  have hmo := appendInt_no_slash t.month 2
  have hd := appendInt_no_slash t.day 2
  have hh := appendInt_no_slash t.hour 2
  have hmi := appendInt_no_slash t.minute 2
  have hs := appendInt_no_slash t.second 2
  simp only [List.mem_append, List.mem_cons, not_or]
  exact ⟨hy, by decide, hmo, by decide, hd, by decide, hh, by decide, hmi, by decide, hs⟩

/-- The archive name of a host whose name holds no separator is a file name. -/
theorem goodName_backupName (hostname : Str) (now : Time) (hhost : '/' ∉ hostname) :
    goodName (backupName hostname now) := by
  have hf := Format_no_slash now
  have hshape : backupName hostname now =
      'm' :: ("aculaos-".toList ++ (hostname ++ '-' :: (Format now ++ ".tar.gz".toList))) := rfl
  refine ⟨?_, ?_, ?_, ?_⟩
  · rw [hshape]
    exact List.cons_ne_nil _ _
  · unfold backupName
    intro hmem
    rcases List.mem_append.mp hmem with h | h
    · exact absurd h (by decide)
    · rcases List.mem_append.mp h with h | h
      · exact hhost h
      · rcases List.mem_cons.mp h with h | h
        · exact absurd h (by decide)
        · rcases List.mem_append.mp h with h | h
          · exact hf h
          · exact absurd h (by decide)
  · rw [hshape]
    intro h
    injection h with h1 _
    exact absurd h1 (by decide)
  · rw [hshape]
    intro h
    injection h with h1 _
    exact absurd h1 (by decide)

/-- The retention pass keeps an entry whose name is the greatest of the
archives, when it retains one archive or more and the names of the directory
are distinct. -/
theorem applyRetention_keeps_maximal (cfg : BackupConfig) (readFails : Bool)
    (removeFails : Str → Bool) (names : List Str) (name : Str)
    (hN : 1 ≤ cfg.Retention) (hmem : name ∈ names) (hnd : names.Nodup)
    (hmax : ∀ n ∈ names, HasSuffix n tarGz = true → n ≤ name) :
    name ∈ (applyRetention (some cfg) readFails removeFails names).2 := by
  have hpos : ¬ cfg.Retention ≤ 0 := by omega
  cases readFails with
  | true =>
    have hrun : applyRetention (some cfg) true removeFails names = (true, names) := by
      simp [applyRetention, hpos, listLocalBackups]
    rw [hrun]
    exact hmem
  | false =>
    have hrun : applyRetention (some cfg) false removeFails names =
        (false, retentionLoop cfg.Retention removeFails (sortStrings (archivesOf names))
          names) := by
      simp [applyRetention, hpos, listLocalBackups, archivesOf]
    rw [hrun]
    show name ∈ retentionLoop cfg.Retention removeFails (sortStrings (archivesOf names)) names
    rw [retentionLoop_foldl, foldl_osRemove]
    refine ⟨hmem, Or.inl ?_⟩
    obtain ⟨n, hn⟩ : ∃ n : Nat, cfg.Retention = (n : Int) :=
      ⟨cfg.Retention.toNat, (Int.toNat_of_nonneg (by omega)).symm⟩
    have hn1 : 1 ≤ n := by omega
    rw [hn, retentionAttempts_eq_take]
    intro hin
    have hsorted : (sortStrings (archivesOf names)).Sorted (· ≤ ·) := sortStrings_sorted _
    have hperm : (sortStrings (archivesOf names)).Perm (archivesOf names) := sortStrings_perm _
    have hsnd : (sortStrings (archivesOf names)).Nodup :=
      hperm.nodup_iff.mpr (hnd.filter _)
    have hlen : 0 < (sortStrings (archivesOf names)).length :=
      List.length_pos_of_mem (List.mem_of_mem_take hin)
    have hsplit := (List.take_append_drop ((sortStrings (archivesOf names)).length - n)
      (sortStrings (archivesOf names))).symm
    have hdne : (sortStrings (archivesOf names)).drop
        ((sortStrings (archivesOf names)).length - n) ≠ [] := by
      intro h0
      have := congrArg List.length h0
      simp only [List.length_drop, List.length_nil] at this
      omega
    obtain ⟨y, hy⟩ := List.exists_mem_of_ne_nil _ hdne
    have hy2 := (mem_archivesOf names y).mp (hperm.mem_iff.mp (List.mem_of_mem_drop hy))
    have hle1 : y ≤ name := hmax y hy2.1 hy2.2
    have hle2 : name ≤ y := by
      rw [hsplit] at hsorted
      exact (List.pairwise_append.mp hsorted).2.2 name hin y hy
    have heq : name = y := le_antisymm hle2 hle1
    rw [hsplit] at hsnd
    rw [← heq] at hy
    exact (List.nodup_append.mp hsnd).2.2 hin hy

/-- The retention pass in the directories, when the backup directory lists the
entry name: the entry is found afterwards if the list-level pass keeps it. -/
theorem applyRetentionIn_stat (cfg : Option BackupConfig) (readFails : Bool)
    (removeFails : Str → Bool) (d : Dirs) (names : List Str) (name : Str)
    (hlist : osReadDir false d backupDir = some names)
    (hkeep : name ∈ (applyRetention cfg readFails removeFails names).2) :
    (applyRetentionIn cfg readFails removeFails d).2 backupElems =
      some (applyRetention cfg readFails removeFails names).2 ∧
    (applyRetentionIn cfg readFails removeFails d).2.statFrom [] (backupElems ++ [name]) =
      none := by
  obtain ⟨hs, _⟩ := osReadDir_backupDir d names hlist
  have hrun : (applyRetentionIn cfg readFails removeFails d).2 =
      d.set (pathElems backupDir) (some (applyRetention cfg readFails removeFails names).2) := by
    unfold applyRetentionIn
    rw [hlist]
  rw [hrun, pathElems_backupDir]
  have hset : (d.set backupElems (some (applyRetention cfg readFails removeFails names).2))
      backupElems = some (applyRetention cfg readFails removeFails names).2 := by
    simp [Dirs.set]
  refine ⟨hset, ?_⟩
  rw [statFrom_snoc_none, statFrom_set_self]
  exact ⟨hs, _, hset, hkeep⟩

/-- C27 fails on the code: in a state whose backup directory holds an archive of
the host zeta written in 2020, with a policy of retention 1, createAction on
the host node in 2024 returns no error, and the archive it has just written is
gone when it returns: the retention pass, which is to delete the oldest
backups, has removed the first name of the sorted list, that of the new
archive, and kept the archive of 2020, whose name is greater. -/
theorem createAction_prunes_new_archive_other_host :
    (createAction (exampleFlags "local".toList) (exampleEnv (some (examplePolicy 1)))
      exampleDirsOtherHost).1 = none ∧
    createBackupPath (exampleEnv (some (examplePolicy 1))) =
      "/var/lib/maculaos/backups/maculaos-node-2024-05-06_07-08-09.tar.gz".toList ∧
    osStat (createAction (exampleFlags "local".toList) (exampleEnv (some (examplePolicy 1)))
      exampleDirsOtherHost).2 (createBackupPath (exampleEnv (some (examplePolicy 1)))) =
      some .notExist ∧
    (createAction (exampleFlags "local".toList) (exampleEnv (some (examplePolicy 1)))
      exampleDirsOtherHost).2 backupElems =
      some ["maculaos-zeta-2020-01-01_00-00-00.tar.gz".toList] := by
  decide

/-- Where the retention pass keeps the archive of the run: after a successful
createAction with a configured retention of 1 or more, on a host whose name
holds no separator, the archive that the run has written is still present in
the local backup directory when no archive that the retention pass lists there
has a greater name (the entries of the directory having distinct names),
whatever removals fail and whatever the target. -/
theorem createAction_keeps_new_archive (fl : Flags) (env : CreateEnv) (d d1 : Dirs)
    (cfg : BackupConfig) (names : List Str)
    (hdry : fl.dryRun = false)
    (hmk : osMkdirAll (env.mkdirFails backupDir) d backupDir = .ok d1)
    (htar : (createBuild fl env d d1).err = none)
    (hhost : '/' ∉ env.hostname)
    (hpol : env.policy = some cfg) (hN : 1 ≤ cfg.Retention)
    (hlist : osReadDir false
      (dispatch fl env (createBuild fl env d d1).dirs (createBackupPath env)).2 backupDir =
        some names)
    (hnd : names.Nodup)
    (hmax : ∀ n ∈ names, HasSuffix n tarGz = true → n ≤ backupName env.hostname env.now) :
    (createAction fl env d).1 = none ∧
    backupName env.hostname env.now ∈ names ∧
    (∃ kept, (createAction fl env d).2 backupElems = some kept ∧
      backupName env.hostname env.now ∈ kept) ∧
    osStat (createAction fl env d).2 (createBackupPath env) = none := by
  have hrun := createAction_ok fl env d d1 hdry hmk htar
  have hgood := goodName_backupName env.hostname env.now hhost
  have hpath : pathElems (createBackupPath env) =
      backupElems ++ [backupName env.hostname env.now] :=
    pathElems_Join_backupDir _ hgood
  have hstat : osStat (createBuild fl env d d1).dirs (createBackupPath env) = none :=
    createTarballDest_ok_stat _ _ _ _ _ _ _ htar
  unfold osStat at hstat
  rw [hpath] at hstat
  have hstat2 := dispatch_keeps fl env _ (createBackupPath env) _ hstat
  obtain ⟨_, hd2⟩ := osReadDir_backupDir _ names hlist
  obtain ⟨_, ns, hns, hmem⟩ := (statFrom_snoc_none _ _ _).mp hstat2
  rw [hd2] at hns
  injection hns with hns
  rw [← hns] at hmem
  have hkeep := applyRetention_keeps_maximal cfg env.readFails env.removeFails names
    (backupName env.hostname env.now) hN hmem hnd hmax
  obtain ⟨h1, h2⟩ := applyRetentionIn_stat (some cfg) env.readFails env.removeFails _ names
    (backupName env.hostname env.now) hlist hkeep
  have hfinal : (createAction fl env d).2 =
      (applyRetentionIn (some cfg) env.readFails env.removeFails
        (dispatch fl env (createBuild fl env d d1).dirs (createBackupPath env)).2).2 := by
    rw [hrun, hpol]
    rfl
  refine ⟨by rw [hrun], hmem, ⟨_, by rw [hfinal]; exact h1, hkeep⟩, ?_⟩
  unfold osStat
  rw [hpath, hfinal]
  exact h2

/-- An instance: on the host node, with a policy of retention 1 and a backup
directory that holds two earlier archives of node and a file of notes,
createAction returns no error and its archive is in the backup directory
afterwards. -/
theorem createAction_keeps_new_archive_witness :
    (createAction (exampleFlags "local".toList) (exampleEnv (some (examplePolicy 1)))
      exampleDirsSameHost).1 = none ∧
    osStat (createAction (exampleFlags "local".toList) (exampleEnv (some (examplePolicy 1)))
      exampleDirsSameHost).2 (createBackupPath (exampleEnv (some (examplePolicy 1)))) =
      none ∧
    (createAction (exampleFlags "local".toList) (exampleEnv (some (examplePolicy 1)))
      exampleDirsSameHost).2 backupElems =
      some ["notes.txt".toList, "maculaos-node-2024-05-06_07-08-09.tar.gz".toList] := by
  have h := createAction_keeps_new_archive (exampleFlags "local".toList)
    (exampleEnv (some (examplePolicy 1))) exampleDirsSameHost exampleDirsSameHost
    (examplePolicy 1)
    ["maculaos-node-2024-05-05_07-08-09.tar.gz".toList, "notes.txt".toList,
      "maculaos-node-2023-12-31_23-59-59.tar.gz".toList,
      "maculaos-node-2024-05-06_07-08-09.tar.gz".toList]
    rfl rfl (by decide) (by decide) rfl (by decide) (by decide) (by decide) (by decide)
  exact ⟨h.1, h.2.2.2, by decide⟩

/-! ## A dispatch that fails -/

/-- C11: whenever the backup directory is there and createTarball has written
the local archive without error, createAction returns no error for every
target, and os.Stat finds the local archive after the build and after the switch
on the target, whatever the target and whether the copy succeeds or not. An
upload to object storage (which fails for every input), or a copy to removable
media with no mount point present, fails, sets the warning and changes nothing:
createAction returns the same result and leaves the same state as the run
without dispatch (target local). When no readable policy asks for a retention
above 0, that state is the one after the build, in which the local archive
exists. -/
theorem createAction_dispatch_nonfatal (fl : Flags) (env : CreateEnv) (d d1 : Dirs)
    (hdry : fl.dryRun = false)
    (hmk : osMkdirAll (env.mkdirFails backupDir) d backupDir = .ok d1)
    (htar : (createBuild fl env d d1).err = none) :
    (createAction fl env d).1 = none ∧
    osStat (createBuild fl env d d1).dirs (createBackupPath env) = none ∧
    osStat (dispatch fl env (createBuild fl env d d1).dirs (createBackupPath env)).2
      (createBackupPath env) = none ∧
    ((fl.backupTarget = "s3".toList ∨
      (fl.backupTarget = "usb".toList ∧
        ∀ c ∈ usbCandidates, osStat (createBuild fl env d d1).dirs c ≠ none)) →
      dispatch fl env (createBuild fl env d d1).dirs (createBackupPath env) =
        (true, (createBuild fl env d d1).dirs) ∧
      createAction fl env d =
        createAction { fl with backupTarget := "local".toList } env d ∧
      ((∀ c, env.policy = some c → c.Retention ≤ 0) →
        (createAction fl env d).2 = (createBuild fl env d d1).dirs ∧
        osStat (createAction fl env d).2 (createBackupPath env) = none)) := by
  have hrun := createAction_ok fl env d d1 hdry hmk htar
  have hstat : osStat (createBuild fl env d d1).dirs (createBackupPath env) = none :=
    createTarballDest_ok_stat _ _ _ _ _ _ _ htar
  have hstat2 : osStat
      (dispatch fl env (createBuild fl env d d1).dirs (createBackupPath env)).2
      (createBackupPath env) = none := by
    unfold osStat at hstat ⊢
    exact dispatch_keeps fl env _ _ _ hstat
  refine ⟨?_, hstat, hstat2, ?_⟩
  · rw [hrun]
  · intro htarget
    have hdisp : dispatch fl env (createBuild fl env d d1).dirs (createBackupPath env) =
        (true, (createBuild fl env d d1).dirs) := by
      rcases htarget with h3 | ⟨husb, hnone⟩
      · exact dispatch_s3 fl env _ _ h3
      · apply dispatch_usb_noMount fl env _ _ husb
        exact (findUSBMountLoop_spec _ usbCandidates (by decide)).1.mpr hnone
    have hlocal : dispatch { fl with backupTarget := "local".toList } env
        (createBuild fl env d d1).dirs (createBackupPath env) =
        (false, (createBuild fl env d d1).dirs) := by
      have h1 : ¬ ("local".toList = "usb".toList) := by decide
      have h2 : ¬ ("local".toList = "s3".toList) := by decide
      unfold dispatch
      dsimp only
      rw [if_neg h1, if_neg h2]
    have hrunLocal := createAction_ok { fl with backupTarget := "local".toList } env d d1
      hdry hmk htar
    refine ⟨hdisp, ?_, ?_⟩
    · rw [hrun, hrunLocal]
      show (none, (applyRetentionIn env.policy env.readFails env.removeFails
          (dispatch fl env (createBuild fl env d d1).dirs (createBackupPath env)).2).2) =
        (none, (applyRetentionIn env.policy env.readFails env.removeFails
          (dispatch { fl with backupTarget := "local".toList } env
            (createBuild fl env d d1).dirs (createBackupPath env)).2).2)
      rw [hdisp, hlocal]
    · intro hoff
      have hfinal : (createAction fl env d).2 = (createBuild fl env d d1).dirs := by
        rw [hrun]
        show (applyRetentionIn env.policy env.readFails env.removeFails
          (dispatch fl env (createBuild fl env d d1).dirs (createBackupPath env)).2).2 = _
        rw [hdisp, applyRetentionIn_off _ _ _ _ hoff]
      exact ⟨hfinal, by rw [hfinal]; exact hstat⟩

/-- C11 on an instance: without a policy and without a mount point,
createAction --target=usb returns no error, as the run with the target local
does, and its archive is in the backup directory afterwards. -/
theorem createAction_dispatch_nonfatal_witness :
    (createAction (exampleFlags "usb".toList) (exampleEnv none) exampleDirsNoUSB).1 = none ∧
    createAction (exampleFlags "usb".toList) (exampleEnv none) exampleDirsNoUSB =
      createAction (exampleFlags "local".toList) (exampleEnv none) exampleDirsNoUSB ∧
    osStat (createAction (exampleFlags "usb".toList) (exampleEnv none) exampleDirsNoUSB).2
      (createBackupPath (exampleEnv none)) = none := by
  have h := createAction_dispatch_nonfatal (exampleFlags "usb".toList) (exampleEnv none)
    exampleDirsNoUSB exampleDirsNoUSB rfl rfl (by decide)
  have h2 := h.2.2.2 (Or.inr ⟨rfl, by decide⟩)
  exact ⟨h.1, h2.2.1, (h2.2.2 (by intro c hc; cases hc)).2⟩

end Backup
